import Mathlib

/-!
Verification of the core compiler front end of the web scientific calculator:
the lexer (`Lexer` in web-scientific-calculator.html), the recursive-descent
parser (`Parser` in parser.js) and the AST-to-string canonicalizer
(`astToString` in evaluateExpressionToLatex.js, with the older variant in the
unnamed source file part_000).

The JavaScript source is shallowly embedded:

* the lexer's cursor (`input`/`position`) is modelled by the list of characters
  still to the right of the cursor;
* the parser's cursor (`tokens`/`position`) is likewise the list of tokens
  still to the right of the cursor, together with the accumulated diagnostics;
* JavaScript `null` AST nodes are the constructor `AST.null`;
* the unbounded JS recursion is driven by an explicit fuel argument, large
  enough for every actual run (fuel exhaustion is a separate result
  constructor, never an AST), so that all definitions compute by `rfl`;
* the JS `TypeError` thrown by `parseAssignment` when it dereferences a null
  node is the result constructor `PRes.exn`, propagated to `parse`'s catch.
-/

/-! ## Tokens (TokenType table, web-scientific-calculator.html) -/

inductive TokenType where
  | number
  | identifier
  | command
  | plus
  | minus
  | multiply
  | divide
  | power
  | equals
  | lparen
  | rparen
  | lbracket
  | rbracket
  | lbrace
  | rbrace
  | comma
  | semicolon
  | dot
  | lessThan
  | greaterThan
  | lessEqual
  | greaterEqual
  | notEqual
  | unknown
  | eof
deriving DecidableEq

/-- The string value of each member of the JS `TokenType` table; these strings
appear verbatim inside parser diagnostics. -/
def TokenType.str : TokenType → String
  | .number => "Number"
  | .identifier => "Identifier"
  | .command => "Command"
  | .plus => "Plus"
  | .minus => "Minus"
  | .multiply => "Multiply"
  | .divide => "Divide"
  | .power => "Power"
  | .equals => "Equals"
  | .lparen => "LParen"
  | .rparen => "RParen"
  | .lbracket => "LBracket"
  | .rbracket => "RBracket"
  | .lbrace => "LBrace"
  | .rbrace => "RBrace"
  | .comma => "Comma"
  | .semicolon => "Semicolon"
  | .dot => "Dot"
  | .lessThan => "LessThan"
  | .greaterThan => "GreaterThan"
  | .lessEqual => "LessEqual"
  | .greaterEqual => "GreaterEqual"
  | .notEqual => "NotEqual"
  | .unknown => "Unknown"
  | .eof => "EOF"

structure Token where
  type : TokenType
  value : String
deriving DecidableEq

/-! ## Character classes used by the lexer -/

/-- The ECMAScript `\\s` class (WhiteSpace plus LineTerminator), which
`Lexer.skipWhitespace` and `Lexer.getNextToken` test with `/\\s/`: space, tab,
line feed, vertical tab, form feed, carriage return, NBSP, the Ogham space
mark, the U+2000 spacing block, the line and paragraph separators, the narrow
and medium mathematical spaces, the ideographic space and the BOM. -/
def jsWhitespace (c : Char) : Bool :=
  c = ' ' || c = '\t' || c = '\n' || c.val = 0x0b || c.val = 0x0c ||
  c = '\r' || c.val = 0xa0 || c.val = 0x1680 ||
  (0x2000 ≤ c.val && c.val ≤ 0x200a) ||
  c.val = 0x2028 || c.val = 0x2029 || c.val = 0x202f || c.val = 0x205f ||
  c.val = 0x3000 || c.val = 0xfeff

/-- The `/[a-zA-Zπ_]/` test that starts an identifier. -/
def identStart (c : Char) : Bool :=
  (('a' ≤ c && c ≤ 'z') || ('A' ≤ c && c ≤ 'Z')) || c = 'π' || c = '_'

/-- The `/[a-zA-Zπ0-9_]/` test that continues an identifier. -/
def identChar (c : Char) : Bool :=
  identStart c || c.isDigit

/-- The `/[a-zA-Z]/` test for characters of a command name. -/
def asciiLetter (c : Char) : Bool :=
  ('a' ≤ c && c ≤ 'z') || ('A' ≤ c && c ≤ 'Z')

/-! ## Lexer (class Lexer, web-scientific-calculator.html) -/

/-- `Lexer.skipWhitespace`: advance while the current character matches `/\s/`.
The remaining input is returned. -/
def skipWhitespace : List Char → List Char
  | [] => []
  | c :: cs => if jsWhitespace c then skipWhitespace cs else c :: cs

/-- `Lexer.processNumber`: greedily read digits and at most one `.`, returning
the characters read and the remaining input.  `hasDot` records whether a dot
has been consumed already. -/
def processNumber (hasDot : Bool) : List Char → List Char × List Char
  | [] => ([], [])
  | c :: cs =>
    if c.isDigit then
      let r := processNumber hasDot cs
      (c :: r.1, r.2)
    else if c = '.' && !hasDot then
      let r := processNumber true cs
      (c :: r.1, r.2)
    else ([], c :: cs)

/-- `Lexer.processIdentifier`: greedily read `/[a-zA-Zπ0-9_]/` characters. -/
def processIdentifier : List Char → List Char × List Char
  | [] => ([], [])
  | c :: cs =>
    if identChar c then
      let r := processIdentifier cs
      (c :: r.1, r.2)
    else ([], c :: cs)

/-- The letters of a command name read by `Lexer.processCommand` after the
backslash has been skipped. -/
def processCommandName : List Char → List Char × List Char
  | [] => ([], [])
  | c :: cs =>
    if asciiLetter c then
      let r := processCommandName cs
      (c :: r.1, r.2)
    else ([], c :: cs)

/-- The `operatorMap` of `Lexer.processOperator`. -/
def operatorType (c : Char) : Option TokenType :=
  if c = '+' then some .plus
  else if c = '-' then some .minus
  else if c = '*' then some .multiply
  else if c = '/' then some .divide
  else if c = '^' then some .power
  else if c = '=' then some .equals
  else if c = '(' then some .lparen
  else if c = ')' then some .rparen
  else if c = '[' then some .lbracket
  else if c = ']' then some .rbracket
  else if c = '{' then some .lbrace
  else if c = '}' then some .rbrace
  else if c = ',' then some .comma
  else if c = ';' then some .semicolon
  else if c = '.' then some .dot
  else if c = '<' then some .lessThan
  else if c = '>' then some .greaterThan
  else none

/-- `Lexer.processOperator` on current character `c` with remaining input
`rest`: two-character operators `<=`, `>=`, `!=` first, then the single
character table, and finally the `Unknown` fallback. -/
def processOperator (c : Char) (rest : List Char) : Token × List Char :=
  if c = '<' && rest.head? = some '=' then (⟨.lessEqual, "<="⟩, rest.tail)
  else if c = '>' && rest.head? = some '=' then (⟨.greaterEqual, ">="⟩, rest.tail)
  else if c = '!' && rest.head? = some '=' then (⟨.notEqual, "!="⟩, rest.tail)
  else
    match operatorType c with
    | some ty => (⟨ty, String.mk [c]⟩, rest)
    | none => (⟨.unknown, String.mk [c]⟩, rest)

/-- `Lexer.getNextToken`.  The JS method first returns EOF on a null current
character, skips whitespace and retries otherwise; since after
`skipWhitespace` the current character is never whitespace, that retry is
exactly one dispatch over the whitespace-free remainder, which is how it is
written here (`skipWhitespace` is the identity when the current character is
not whitespace). -/
def getNextToken (cs : List Char) : Token × List Char :=
  match skipWhitespace cs with
  | [] => (⟨.eof, ""⟩, [])
  | c :: rest =>
    if c.isDigit || (c = '.' && (rest.head?.map Char.isDigit).getD false) then
      let r := processNumber false (c :: rest)
      (⟨.number, String.mk r.1⟩, r.2)
    else if identStart c then
      let r := processIdentifier (c :: rest)
      (⟨.identifier, String.mk r.1⟩, r.2)
    else if c = '\\' then
      let r := processCommandName rest
      (⟨.command, String.mk ('\\' :: r.1)⟩, r.2)
    else processOperator c rest

/-- `Lexer.tokenize`: collect tokens until EOF.  The fuel bounds the number of
loop iterations; every non-EOF token consumes at least one character, so the
fuel passed by `tokenize` is always sufficient. -/
def tokenizeAux : Nat → List Char → List Token
  | 0, _ => []
  | fuel + 1, cs =>
    let r := getNextToken cs
    if r.1.type = .eof then [] else r.1 :: tokenizeAux fuel r.2

/-- The `lex` entry point: tokenize the whole input string. -/
def tokenize (input : String) : List Token :=
  tokenizeAux (input.toList.length + 1) input.toList

/-! ## Abstract syntax tree (ASTNodeType, parser.js)

JavaScript stores plain `null` where a sub-parse failed; the constructor
`AST.null` represents it, so that every field can be a plain `AST`.  `List`
fields are replaced by the mutually defined `ASTList`/`ASTRows` so that all
recursion over the tree is structural (and hence computes by `rfl`). -/

mutual
inductive AST where
  | numberLiteral (value : String)
  | identifier (value : String)
  | binaryExpression (operator : String) (left right : AST)
  | unaryExpression (operator : String) (operand : AST)
  | functionCall (name : String) (args : ASTList)
  | arrayExpression (elements : ASTList)
  | matrixExpression (rows : ASTRows)
  | comparisonExpression (operator : String) (left right : AST)
  | assignmentExpression (operator : String) (left right : AST)
  | parenthesizedExpression (expression : AST)
  | null
inductive ASTList where
  | nil
  | cons (head : AST) (tail : ASTList)
inductive ASTRows where
  | rnil
  | rcons (head : ASTList) (tail : ASTRows)
end

deriving instance DecidableEq for AST

/-- The JS parser stores the result of a sub-parse (possibly `null`) directly
as a child node. -/
def optAST : Option AST → AST
  | some a => a
  | none => .null

/-- Append for `ASTList` (JS `args.push`). -/
def ASTList.append : ASTList → ASTList → ASTList
  | .nil, l => l
  | .cons a t, l => .cons a (t.append l)

/-- Append one row at the end (JS `rows.push(currentRow)`). -/
def ASTRows.push : ASTRows → ASTList → ASTRows
  | .rnil, r => .rcons r .rnil
  | .rcons h t, r => .rcons h (t.push r)

/-! ## Parser state (class Parser, parser.js)

The JS parser owns `tokens` plus a cursor `position` and a growing list
`errors`; the model keeps the tokens from the cursor position on (`rest`)
together with `errors`. -/

structure PState where
  rest : List Token
  errors : List String
deriving DecidableEq

/-- `Parser.peek()` (always used with the default offset 0). -/
def peekT (s : PState) : Option Token :=
  s.rest.head?

/-- The type of the current token, if any. -/
def peekType (s : PState) : Option TokenType :=
  (peekT s).map Token.type

/-- `Parser.addError`: push the message, extended with the current token's
value and type when there is one. -/
def addError (message : String) (s : PState) : PState :=
  let errorMsg :=
    match peekT s with
    | some token => message ++ " トークン: " ++ token.value ++ " (" ++ token.type.str ++ ")"
    | none => message
  { s with errors := s.errors ++ [errorMsg] }

/-- `Parser.consume(expectedType)`: `none` plays the role of calling `consume`
with no argument (JS `undefined`, which skips the type check). -/
def consume (expectedType : Option TokenType) (s : PState) : Option Token × PState :=
  match peekT s with
  | none =>
    let expStr := match expectedType with
      | some ty => ty.str
      | none => "undefined"
    (none, addError ("予期せぬ入力の終わりです。" ++ expStr ++ "が必要です。") s)
  | some token =>
    match expectedType with
    | some ty =>
      if token.type = ty then (some token, { s with rest := s.rest.tail })
      else (none, addError (ty.str ++ "が必要ですが、" ++ token.type.str ++ "が見つかりました。") s)
    | none => (some token, { s with rest := s.rest.tail })

/-- The JS `node.type === ASTNodeType.IDENTIFIER` check. -/
def isIdentifier : AST → Bool
  | .identifier _ => true
  | _ => false

/-- Result of one parser method: a value with the new state, a JS exception
carrying the state at the throw (`exn`, raised only by `parseAssignment`'s
`node.type` access on a null node), or exhaustion of the model's fuel
(`out`, which the fuel supplied by `parse` makes unreachable). -/
inductive PRes (α : Type) where
  | ok (val : α) (s : PState)
  | exn (s : PState)
  | out
deriving DecidableEq

/-- The token types accepted by `parseComparison`'s loop. -/
def isCompType (t : Option TokenType) : Bool :=
  t = some .lessThan || t = some .greaterThan || t = some .lessEqual ||
  t = some .greaterEqual || t = some .equals || t = some .notEqual

/-- The final-row flush and closing-brace consumption at the end of
`Parser.parseMatrixExpression`: push `currentRow` if it is nonempty, consume
`RBrace`, and build the node. -/
def matClose (currentRow : ASTList) (rows : ASTRows) (s : PState) : PRes (Option AST) :=
  let finalRows :=
    match currentRow with
    | .nil => rows
    | _ => rows.push currentRow
  let r := consume (some .rbrace) s
  .ok (some (.matrixExpression finalRows)) r.2

/-! ## The recursive-descent methods of class Parser (parser.js)

One Lean function per JS method; each `while` loop is an extra function
(`compLoop`, `addLoop`, `termLoop`, `expLoop`, `commaItems`, `braceArgs`,
`matLoop`).  The fuel decreases on entry to every method and loop iteration;
`parse` supplies more fuel than any run can use. -/

mutual

/-- `Parser.parseExpression`: start at the lowest-precedence production. -/
def parseExpression : Nat → PState → PRes (Option AST)
  | 0, _ => .out
  | fuel + 1, s => parseAssignment fuel s

/-- `Parser.parseAssignment`: parse a comparison, then promote to an
assignment node only when the parsed node is an `Identifier` and the current
token is `Equals`.  On a null node the JS `node.type` access throws
(`.exn`). -/
def parseAssignment : Nat → PState → PRes (Option AST)
  | 0, _ => .out
  | fuel + 1, s =>
    match parseComparison fuel s with
    | .ok node s1 =>
      match node with
      | none => .exn s1
      | some n =>
        if isIdentifier n = true ∧ peekType s1 = some TokenType.equals then
          match consume none s1 with
          | (some opTok, s2) =>
            match parseAssignment fuel s2 with
            | .ok right s3 =>
              .ok (some (.assignmentExpression opTok.value n (optAST right))) s3
            | .exn s3 => .exn s3
            | .out => .out
          | (none, s2) => .exn s2
        else .ok (some n) s1
    | .exn s1 => .exn s1
    | .out => .out

/-- `Parser.parseComparison`: an additive expression followed by the loop. -/
def parseComparison : Nat → PState → PRes (Option AST)
  | 0, _ => .out
  | fuel + 1, s =>
    match parseAdditive fuel s with
    | .ok node s1 => compLoop fuel node s1
    | .exn s1 => .exn s1
    | .out => .out

/-- The `while` loop of `parseComparison`: fold comparison operators
(including `Equals`) left-associatively into `ComparisonExpression` nodes. -/
def compLoop : Nat → Option AST → PState → PRes (Option AST)
  | 0, _, _ => .out
  | fuel + 1, node, s =>
    if isCompType (peekType s) then
      match consume none s with
      | (some opTok, s1) =>
        match parseAdditive fuel s1 with
        | .ok right s2 =>
          compLoop fuel (some (.comparisonExpression opTok.value (optAST node) (optAST right))) s2
        | .exn s2 => .exn s2
        | .out => .out
      | (none, s1) => .exn s1
    else .ok node s

/-- `Parser.parseAdditive`. -/
def parseAdditive : Nat → PState → PRes (Option AST)
  | 0, _ => .out
  | fuel + 1, s =>
    match parseTerm fuel s with
    | .ok node s1 => addLoop fuel node s1
    | .exn s1 => .exn s1
    | .out => .out

/-- The `while` loop of `parseAdditive` over `Plus`/`Minus`. -/
def addLoop : Nat → Option AST → PState → PRes (Option AST)
  | 0, _, _ => .out
  | fuel + 1, node, s =>
    if peekType s = some .plus || peekType s = some .minus then
      match consume none s with
      | (some opTok, s1) =>
        match parseTerm fuel s1 with
        | .ok right s2 =>
          addLoop fuel (some (.binaryExpression opTok.value (optAST node) (optAST right))) s2
        | .exn s2 => .exn s2
        | .out => .out
      | (none, s1) => .exn s1
    else .ok node s

/-- `Parser.parseTerm`. -/
def parseTerm : Nat → PState → PRes (Option AST)
  | 0, _ => .out
  | fuel + 1, s =>
    match parseExponent fuel s with
    | .ok node s1 => termLoop fuel node s1
    | .exn s1 => .exn s1
    | .out => .out

/-- The `while` loop of `parseTerm` over `Multiply`/`Divide`. -/
def termLoop : Nat → Option AST → PState → PRes (Option AST)
  | 0, _, _ => .out
  | fuel + 1, node, s =>
    if peekType s = some .multiply || peekType s = some .divide then
      match consume none s with
      | (some opTok, s1) =>
        match parseExponent fuel s1 with
        | .ok right s2 =>
          termLoop fuel (some (.binaryExpression opTok.value (optAST node) (optAST right))) s2
        | .exn s2 => .exn s2
        | .out => .out
      | (none, s1) => .exn s1
    else .ok node s

/-- `Parser.parseExponent`: note that the loop takes the right operand from
`parsePrimary` and folds left-associatively. -/
def parseExponent : Nat → PState → PRes (Option AST)
  | 0, _ => .out
  | fuel + 1, s =>
    match parsePrimary fuel s with
    | .ok node s1 => expLoop fuel node s1
    | .exn s1 => .exn s1
    | .out => .out

/-- The `while` loop of `parseExponent` over `Power`. -/
def expLoop : Nat → Option AST → PState → PRes (Option AST)
  | 0, _, _ => .out
  | fuel + 1, node, s =>
    if peekType s = some .power then
      match consume none s with
      | (some opTok, s1) =>
        match parsePrimary fuel s1 with
        | .ok right s2 =>
          expLoop fuel (some (.binaryExpression opTok.value (optAST node) (optAST right))) s2
        | .exn s2 => .exn s2
        | .out => .out
      | (none, s1) => .exn s1
    else .ok node s

/-- `Parser.parsePrimary`, dispatching on the current token in the JS order:
number, identifier, command, parenthesis, bracket, brace, unary sign, and the
error-recovery fallback (record a diagnostic, skip one token, return null). -/
def parsePrimary : Nat → PState → PRes (Option AST)
  | 0, _ => .out
  | fuel + 1, s =>
    match peekT s with
    | none => .ok none (addError "予期せぬ入力の終わりです。式が必要です。" s)
    | some token =>
      if token.type = .number then
        let r := consume none s
        .ok (some (.numberLiteral token.value)) r.2
      else if token.type = .identifier then
        let r := consume none s
        .ok (some (.identifier token.value)) r.2
      else if token.type = .command then
        let funcName := token.value
        let r := consume none s
        if funcName = "\\frac" then parseFracCommand fuel r.2
        else if peekType r.2 = some .lbrace then
          match braceArgs fuel r.2 with
          | .ok args s2 => .ok (some (.functionCall funcName args)) s2
          | .exn s2 => .exn s2
          | .out => .out
        else if peekType r.2 = some .lparen then
          let r2 := consume (some .lparen) r.2
          if peekType r2.2 = some .rparen then
            let r3 := consume (some .rparen) r2.2
            .ok (some (.functionCall funcName .nil)) r3.2
          else
            match parseExpression fuel r2.2 with
            | .ok a s2 =>
              match commaItems fuel s2 with
              | .ok args s3 =>
                let r3 := consume (some .rparen) s3
                .ok (some (.functionCall funcName (.cons (optAST a) args))) r3.2
              | .exn s3 => .exn s3
              | .out => .out
            | .exn s2 => .exn s2
            | .out => .out
        else
          match parsePrimary fuel r.2 with
          | .ok a s2 => .ok (some (.functionCall funcName (.cons (optAST a) .nil))) s2
          | .exn s2 => .exn s2
          | .out => .out
      else if token.type = .lparen then
        let r := consume (some .lparen) s
        match parseExpression fuel r.2 with
        | .ok expr s2 =>
          let r2 := consume (some .rparen) s2
          .ok (some (.parenthesizedExpression (optAST expr))) r2.2
        | .exn s2 => .exn s2
        | .out => .out
      else if token.type = .lbracket then
        parseArrayExpression fuel s
      else if token.type = .lbrace then
        parseMatrixExpression fuel s
      else if token.type = .plus || token.type = .minus then
        match consume none s with
        | (some opTok, s1) =>
          match parsePrimary fuel s1 with
          | .ok operand s2 => .ok (some (.unaryExpression opTok.value (optAST operand))) s2
          | .exn s2 => .exn s2
          | .out => .out
        | (none, s1) => .exn s1
      else
        let s1 := addError ("予期せぬトークンです: " ++ token.type.str) s
        let r := consume none s1
        .ok none r.2

/-- `Parser.parseFracCommand`: two mandatory brace groups; a missing group is
a recorded diagnostic and a null result. -/
def parseFracCommand : Nat → PState → PRes (Option AST)
  | 0, _ => .out
  | fuel + 1, s =>
    if peekType s = some .lbrace then
      let r := consume (some .lbrace) s
      match parseExpression fuel r.2 with
      | .ok numerator s2 =>
        let r2 := consume (some .rbrace) s2
        if peekType r2.2 = some .lbrace then
          let r3 := consume (some .lbrace) r2.2
          match parseExpression fuel r3.2 with
          | .ok denominator s3 =>
            let r4 := consume (some .rbrace) s3
            .ok (some (.functionCall "\\frac"
              (.cons (optAST numerator) (.cons (optAST denominator) .nil)))) r4.2
          | .exn s3 => .exn s3
          | .out => .out
        else
          .ok none (addError "\\frac コマンドの分母が見つかりません。\x7b式\x7d の形式が必要です。" r2.2)
      | .exn s2 => .exn s2
      | .out => .out
    else
      .ok none (addError "\\frac コマンドの分子が見つかりません。\x7b式\x7d の形式が必要です。" s)

/-- The repeated `{expr}` argument groups of a (non-frac) command in
`parsePrimary`; the first iteration is guaranteed by the caller's `LBrace`
check. -/
def braceArgs : Nat → PState → PRes ASTList
  | 0, _ => .out
  | fuel + 1, s =>
    if peekType s = some .lbrace then
      let r := consume (some .lbrace) s
      match parseExpression fuel r.2 with
      | .ok a s2 =>
        let r2 := consume (some .rbrace) s2
        match braceArgs fuel r2.2 with
        | .ok args s3 => .ok (.cons (optAST a) args) s3
        | .exn s3 => .exn s3
        | .out => .out
      | .exn s2 => .exn s2
      | .out => .out
    else .ok .nil s

/-- The `while (Comma)` element loop shared verbatim by the parenthesized
argument list of `parsePrimary` and by `parseArrayExpression`. -/
def commaItems : Nat → PState → PRes ASTList
  | 0, _ => .out
  | fuel + 1, s =>
    if peekType s = some .comma then
      let r := consume (some .comma) s
      match parseExpression fuel r.2 with
      | .ok e s2 =>
        match commaItems fuel s2 with
        | .ok es s3 => .ok (.cons (optAST e) es) s3
        | .exn s3 => .exn s3
        | .out => .out
      | .exn s2 => .exn s2
      | .out => .out
    else .ok .nil s

/-- `Parser.parseArrayExpression`. -/
def parseArrayExpression : Nat → PState → PRes (Option AST)
  | 0, _ => .out
  | fuel + 1, s =>
    let r := consume (some .lbracket) s
    if peekType r.2 = some .rbracket then
      let r2 := consume (some .rbracket) r.2
      .ok (some (.arrayExpression .nil)) r2.2
    else
      match parseExpression fuel r.2 with
      | .ok e s2 =>
        match commaItems fuel s2 with
        | .ok es s3 =>
          let r2 := consume (some .rbracket) s3
          .ok (some (.arrayExpression (.cons (optAST e) es))) r2.2
        | .exn s3 => .exn s3
        | .out => .out
      | .exn s2 => .exn s2
      | .out => .out

/-- `Parser.parseMatrixExpression`. -/
def parseMatrixExpression : Nat → PState → PRes (Option AST)
  | 0, _ => .out
  | fuel + 1, s =>
    let r := consume (some .lbrace) s
    if peekType r.2 = some .rbrace then
      let r2 := consume (some .rbrace) r.2
      .ok (some (.matrixExpression .rnil)) r2.2
    else
      match parseExpression fuel r.2 with
      | .ok e s2 => matLoop fuel (.cons (optAST e) .nil) .rnil s2
      | .exn s2 => .exn s2
      | .out => .out

/-- The row/column loop of `parseMatrixExpression`: `Comma` extends the
current row, `Semicolon` pushes it and starts the next, anything else is a
diagnostic plus one-token recovery; `RBrace` or end of tokens leaves the
loop. -/
def matLoop : Nat → ASTList → ASTRows → PState → PRes (Option AST)
  | 0, _, _, _ => .out
  | fuel + 1, currentRow, rows, s =>
    match peekT s with
    | none => matClose currentRow rows s
    | some t =>
      if t.type = .rbrace then matClose currentRow rows s
      else if t.type = .comma then
        let r := consume (some .comma) s
        match parseExpression fuel r.2 with
        | .ok e s2 => matLoop fuel (currentRow.append (.cons (optAST e) .nil)) rows s2
        | .exn s2 => .exn s2
        | .out => .out
      else if t.type = .semicolon then
        let r := consume (some .semicolon) s
        match parseExpression fuel r.2 with
        | .ok e s2 => matLoop fuel (.cons (optAST e) .nil) (rows.push currentRow) s2
        | .exn s2 => .exn s2
        | .out => .out
      else
        let s1 := addError ("行列内で予期せぬトークンです: " ++ t.type.str) s
        let r := consume none s1
        matLoop fuel currentRow rows r.2

end

/-- The outcome of `Parser.parse`: a returned AST, a thrown `Error` whose
message is the newline-joined diagnostics, a JS `TypeError` escaping with no
recorded diagnostics, or exhaustion of the model's fuel. -/
inductive ParseOutcome where
  | ast (result : Option AST)
  | failure (message : String)
  | typeError
  | outOfFuel
deriving DecidableEq

/-- `Parser.parse` / the `parse(tokens)` entry point: parse one expression,
record a trailing-tokens diagnostic if tokens remain, and throw the
newline-joined diagnostics if any were recorded. -/
def parse (tokens : List Token) : ParseOutcome :=
  match parseExpression (8 * tokens.length + 16) ⟨tokens, []⟩ with
  | .ok result s1 =>
    let s2 :=
      if s1.rest = [] then s1
      else addError ("解析が完了しましたが、未処理のトークンが残っています: " ++
        String.intercalate " " (s1.rest.map Token.value)) s1
    if s2.errors = [] then .ast result
    else .failure (String.intercalate "\n" s2.errors)
  | .exn s1 =>
    if s1.errors = [] then .typeError
    else .failure (String.intercalate "\n" s1.errors)
  | .out => .outOfFuel

/-- The full front half of the pipeline in `runCalculation`:
`parse(lex(input))`. -/
def parseString (s : String) : ParseOutcome :=
  parse (tokenize s)

/-! ## Canonicalizer (evaluateExpressionToLatex.js) -/

/-- Reading `node.operator` in JS: defined on the four node shapes that carry
an operator, `undefined` (here `none`) otherwise. -/
def operatorField : AST → Option String
  | .binaryExpression operator _ _ => some operator
  | .unaryExpression operator _ => some operator
  | .comparisonExpression operator _ _ => some operator
  | .assignmentExpression operator _ _ => some operator
  | _ => none

/-- `getOperatorPrecedence`: the precedence table, with 0 for anything not in
the table (the JS `|| 0` fallback, which also covers `undefined`). -/
def getOperatorPrecedence : Option String → Nat
  | some "=" => 1
  | some "<" => 2
  | some ">" => 2
  | some "<=" => 2
  | some ">=" => 2
  | some "!=" => 2
  | some "+" => 3
  | some "-" => 3
  | some "*" => 4
  | some "/" => 4
  | some "^" => 5
  | _ => 0

/-- `needsParentheses(childNode, parentNode, position)`: only `BinaryExpression`
children are ever parenthesized; strictly higher parent precedence forces
parentheses, equal precedence forces them on the right (except that a `^`
parent parenthesizes only a right `^` child). -/
def needsParentheses (childNode parentNode : AST) (position : String) : Bool :=
  match childNode with
  | .binaryExpression childOp _ _ =>
    let parentPrecedence := getOperatorPrecedence (operatorField parentNode)
    let childPrecedence := getOperatorPrecedence (some childOp)
    if childPrecedence < parentPrecedence then true
    else if parentPrecedence = childPrecedence then
      if operatorField parentNode = some "^" then
        position = "right" && childOp = "^"
      else position = "right"
    else false
  | _ => false

/-- `needsParenthesesForUnary(node)`. -/
def needsParenthesesForUnary : AST → Bool
  | .binaryExpression _ _ _ => true
  | .comparisonExpression _ _ _ => true
  | .assignmentExpression _ _ _ => true
  | _ => false

/-- JS `name.replace('\\', '')` with a string pattern: remove the first
occurrence of a backslash. -/
def removeFirstBackslash : List Char → List Char
  | [] => []
  | c :: cs => if c = '\\' then cs else c :: removeFirstBackslash cs

mutual

/-- `astToString` of evaluateExpressionToLatex.js. -/
def astToString : AST → String
  | .null => ""
  | .numberLiteral value => value
  | .identifier value =>
    if value = "π" then "pi"
    else if value = "τ" then "2*pi"
    else if value = "φ" then "(1+sqrt(5))/2"
    else value
  | .binaryExpression operator left right =>
    let l := astToString left
    let r := astToString right
    let leftStr :=
      if needsParentheses left (.binaryExpression operator left right) "left"
      then "(" ++ l ++ ")" else l
    let rightStr :=
      if needsParentheses right (.binaryExpression operator left right) "right"
      then "(" ++ r ++ ")" else r
    leftStr ++ operator ++ rightStr
  | .unaryExpression operator operand =>
    let o := astToString operand
    if needsParenthesesForUnary operand then operator ++ "(" ++ o ++ ")"
    else operator ++ o
  | .functionCall name args =>
    let generic := String.mk (removeFirstBackslash name.data) ++ "(" ++ astToStringList args ++ ")"
    match args with
    | .cons numerator (.cons denominator .nil) =>
      if name = "\\frac" then
        "(" ++ astToString numerator ++ ")/(" ++ astToString denominator ++ ")"
      else generic
    | _ => generic
  | .parenthesizedExpression expression => "(" ++ astToString expression ++ ")"
  | .arrayExpression elements => "[" ++ astToStringList elements ++ "]"
  | .matrixExpression rows => "matrix([" ++ astToStringRows rows ++ "])"
  | .comparisonExpression operator left right =>
    astToString left ++ operator ++ astToString right
  | .assignmentExpression _ left right =>
    astToString left ++ "=" ++ astToString right

/-- `args.map(astToString).join(',')`. -/
def astToStringList : ASTList → String
  | .nil => ""
  | .cons a t =>
    match t with
    | .nil => astToString a
    | _ => astToString a ++ "," ++ astToStringList t

/-- `rows.map(row => "[" + row.map(astToString).join(',') + "]").join(',')`. -/
def astToStringRows : ASTRows → String
  | .rnil => ""
  | .rcons r t =>
    match t with
    | .rnil => "[" ++ astToStringList r ++ "]"
    | _ => "[" ++ astToStringList r ++ "]," ++ astToStringRows t

end

/-! ## The older astToString (src/unnamed/part_000)

Identical to the one above except in the two-argument `\frac` case, where it
first hands `(numerator)/(denominator)` to the external nerdamer pipeline
(`nerdamer(expr).expand().simplify().text('fractions')`) and returns its
output, falling back to the plain `(numerator)/(denominator)` string only
when that call throws.  The external engine is not part of this repository,
so it enters the model as an oracle parameter `simplifyFrac`; `none` models a
thrown exception (the `catch` path). -/

mutual

def astToStringP0 (simplifyFrac : String → Option String) : AST → String
  | .null => ""
  | .numberLiteral value => value
  | .identifier value =>
    if value = "π" then "pi"
    else if value = "τ" then "2*pi"
    else if value = "φ" then "(1+sqrt(5))/2"
    else value
  | .binaryExpression operator left right =>
    let l := astToStringP0 simplifyFrac left
    let r := astToStringP0 simplifyFrac right
    let leftStr :=
      if needsParentheses left (.binaryExpression operator left right) "left"
      then "(" ++ l ++ ")" else l
    let rightStr :=
      if needsParentheses right (.binaryExpression operator left right) "right"
      then "(" ++ r ++ ")" else r
    leftStr ++ operator ++ rightStr
  | .unaryExpression operator operand =>
    let o := astToStringP0 simplifyFrac operand
    if needsParenthesesForUnary operand then operator ++ "(" ++ o ++ ")"
    else operator ++ o
  | .functionCall name args =>
    let generic := String.mk (removeFirstBackslash name.data) ++ "(" ++
      astToStringP0List simplifyFrac args ++ ")"
    match args with
    | .cons numerator (.cons denominator .nil) =>
      if name = "\\frac" then
        let numeratorStr := astToStringP0 simplifyFrac numerator
        let denominatorStr := astToStringP0 simplifyFrac denominator
        match simplifyFrac ("(" ++ numeratorStr ++ ")/(" ++ denominatorStr ++ ")") with
        | some simplified => simplified
        | none => "(" ++ numeratorStr ++ ")/(" ++ denominatorStr ++ ")"
      else generic
    | _ => generic
  | .parenthesizedExpression expression =>
    "(" ++ astToStringP0 simplifyFrac expression ++ ")"
  | .arrayExpression elements =>
    "[" ++ astToStringP0List simplifyFrac elements ++ "]"
  | .matrixExpression rows =>
    "matrix([" ++ astToStringP0Rows simplifyFrac rows ++ "])"
  | .comparisonExpression operator left right =>
    astToStringP0 simplifyFrac left ++ operator ++ astToStringP0 simplifyFrac right
  | .assignmentExpression _ left right =>
    astToStringP0 simplifyFrac left ++ "=" ++ astToStringP0 simplifyFrac right

def astToStringP0List (simplifyFrac : String → Option String) : ASTList → String
  | .nil => ""
  | .cons a t =>
    match t with
    | .nil => astToStringP0 simplifyFrac a
    | _ => astToStringP0 simplifyFrac a ++ "," ++ astToStringP0List simplifyFrac t

def astToStringP0Rows (simplifyFrac : String → Option String) : ASTRows → String
  | .rnil => ""
  | .rcons r t =>
    match t with
    | .rnil => "[" ++ astToStringP0List simplifyFrac r ++ "]"
    | _ => "[" ++ astToStringP0List simplifyFrac r ++ "]," ++ astToStringP0Rows simplifyFrac t

end

/-! ## Structural predicates on ASTs -/

mutual

/-- Does the tree contain an `AssignmentExpression` node? -/
def containsAssignment : AST → Bool
  | .assignmentExpression _ _ _ => true
  | .binaryExpression _ left right => containsAssignment left || containsAssignment right
  | .comparisonExpression _ left right => containsAssignment left || containsAssignment right
  | .unaryExpression _ operand => containsAssignment operand
  | .functionCall _ args => containsAssignmentList args
  | .arrayExpression elements => containsAssignmentList elements
  | .matrixExpression rows => containsAssignmentRows rows
  | .parenthesizedExpression expression => containsAssignment expression
  | _ => false

def containsAssignmentList : ASTList → Bool
  | .nil => false
  | .cons a t => containsAssignment a || containsAssignmentList t

def containsAssignmentRows : ASTRows → Bool
  | .rnil => false
  | .rcons r t => containsAssignmentList r || containsAssignmentRows t

end

/-- Is the list exactly two elements long (a `\frac` argument pair)? -/
def isArgPair : ASTList → Bool
  | .cons _ (.cons _ .nil) => true
  | _ => false

mutual

/-- Does the tree contain a `FunctionCall` named `\frac` with exactly two
arguments (the case where the part_000 serializer consults nerdamer)? -/
def hasFrac2 : AST → Bool
  | .functionCall name args => (name = "\\frac" && isArgPair args) || hasFrac2List args
  | .binaryExpression _ left right => hasFrac2 left || hasFrac2 right
  | .comparisonExpression _ left right => hasFrac2 left || hasFrac2 right
  | .assignmentExpression _ left right => hasFrac2 left || hasFrac2 right
  | .unaryExpression _ operand => hasFrac2 operand
  | .arrayExpression elements => hasFrac2List elements
  | .matrixExpression rows => hasFrac2Rows rows
  | .parenthesizedExpression expression => hasFrac2 expression
  | _ => false

def hasFrac2List : ASTList → Bool
  | .nil => false
  | .cons a t => hasFrac2 a || hasFrac2List t

def hasFrac2Rows : ASTRows → Bool
  | .rnil => false
  | .rcons r t => hasFrac2List r || hasFrac2Rows t

end

/-- A character that no lexer rule other than the `Unknown` fallback can
consume: not whitespace, not a digit, not an identifier character, not a
backslash, not in the single-character operator table, and not `!` (which
the operator rule can pair with `=`).  Note `.` and `=` are in the table. -/
def unmatchedChar (c : Char) : Bool :=
  !(jsWhitespace c) && !(c.isDigit) && !(identStart c) && !(c = '\\') &&
  (operatorType c).isNone && !(c = '!')

/-- Substring containment on the character level. -/
def containsSub (sub s : String) : Prop :=
  ∃ a b, s.data = a ++ sub.data ++ b

/-! ## Extensional comparison of the two serializers (for C4) -/

mutual

/-- Away from two-argument `\frac` calls the part_000 serializer never
consults the oracle and agrees with the current one. -/
theorem astToStringP0_eq (f : String → Option String) (t : AST)
    (h : hasFrac2 t = false) : astToStringP0 f t = astToString t := by
  cases t with
  | null => rfl
  | numberLiteral value => rfl
  | identifier value => rfl
  | binaryExpression operator left right =>
    simp only [hasFrac2, Bool.or_eq_false_iff] at h
    simp only [astToStringP0, astToString,
      astToStringP0_eq f left h.1, astToStringP0_eq f right h.2]
  | unaryExpression operator operand =>
    simp only [hasFrac2] at h
    simp only [astToStringP0, astToString, astToStringP0_eq f operand h]
  | functionCall name args =>
    simp only [hasFrac2, Bool.or_eq_false_iff, Bool.and_eq_false_iff] at h
    cases args with
    | nil => simp only [astToStringP0, astToString, astToStringP0List_eq f _ h.2]
    | cons a t =>
      cases t with
      | nil => simp only [astToStringP0, astToString, astToStringP0List_eq f _ h.2]
      | cons b u =>
        cases u with
        | nil =>
          rcases h with ⟨hname, hlist⟩
          rcases hname with hname | hpair
          · have hn : ¬ (name = "\\frac") := by
              intro hc
              rw [hc] at hname
              simp at hname
            simp only [astToStringP0, astToString, if_neg hn,
              astToStringP0List_eq f _ hlist]
          · simp [isArgPair] at hpair
        | cons c v =>
          simp only [astToStringP0, astToString, astToStringP0List_eq f _ h.2]
  | arrayExpression elements =>
    simp only [hasFrac2] at h
    simp only [astToStringP0, astToString, astToStringP0List_eq f elements h]
  | matrixExpression rows =>
    simp only [hasFrac2] at h
    simp only [astToStringP0, astToString, astToStringP0Rows_eq f rows h]
  | comparisonExpression operator left right =>
    simp only [hasFrac2, Bool.or_eq_false_iff] at h
    simp only [astToStringP0, astToString,
      astToStringP0_eq f left h.1, astToStringP0_eq f right h.2]
  | assignmentExpression operator left right =>
    simp only [hasFrac2, Bool.or_eq_false_iff] at h
    simp only [astToStringP0, astToString,
      astToStringP0_eq f left h.1, astToStringP0_eq f right h.2]
  | parenthesizedExpression expression =>
    simp only [hasFrac2] at h
    simp only [astToStringP0, astToString, astToStringP0_eq f expression h]

theorem astToStringP0List_eq (f : String → Option String) (l : ASTList)
    (h : hasFrac2List l = false) : astToStringP0List f l = astToStringList l := by
  cases l with
  | nil => rfl
  | cons a t =>
    simp only [hasFrac2List, Bool.or_eq_false_iff] at h
    cases t with
    | nil => simp only [astToStringP0List, astToStringList, astToStringP0_eq f a h.1]
    | cons b u =>
      have e1 : astToStringP0List f (ASTList.cons a (ASTList.cons b u)) =
          astToStringP0 f a ++ "," ++ astToStringP0List f (ASTList.cons b u) := rfl
      have e2 : astToStringList (ASTList.cons a (ASTList.cons b u)) =
          astToString a ++ "," ++ astToStringList (ASTList.cons b u) := rfl
      rw [e1, e2, astToStringP0_eq f a h.1, astToStringP0List_eq f _ h.2]

theorem astToStringP0Rows_eq (f : String → Option String) (l : ASTRows)
    (h : hasFrac2Rows l = false) : astToStringP0Rows f l = astToStringRows l := by
  cases l with
  | rnil => rfl
  | rcons r t =>
    simp only [hasFrac2Rows, Bool.or_eq_false_iff] at h
    cases t with
    | rnil => simp only [astToStringP0Rows, astToStringRows, astToStringP0List_eq f r h.1]
    | rcons r2 u =>
      have e1 : astToStringP0Rows f (ASTRows.rcons r (ASTRows.rcons r2 u)) =
          "[" ++ astToStringP0List f r ++ "]," ++ astToStringP0Rows f (ASTRows.rcons r2 u) := rfl
      have e2 : astToStringRows (ASTRows.rcons r (ASTRows.rcons r2 u)) =
          "[" ++ astToStringList r ++ "]," ++ astToStringRows (ASTRows.rcons r2 u) := rfl
      rw [e1, e2, astToStringP0List_eq f r h.1, astToStringP0Rows_eq f _ h.2]

end

mutual

/-- With an oracle that always throws, part_000's `\frac` fallback coincides
with the current serializer on every tree. -/
theorem astToStringP0_none (t : AST) :
    astToStringP0 (fun _ => none) t = astToString t := by
  cases t with
  | null => rfl
  | numberLiteral value => rfl
  | identifier value => rfl
  | binaryExpression operator left right =>
    simp only [astToStringP0, astToString,
      astToStringP0_none left, astToStringP0_none right]
  | unaryExpression operator operand =>
    simp only [astToStringP0, astToString, astToStringP0_none operand]
  | functionCall name args =>
    cases args with
    | nil => simp only [astToStringP0, astToString, astToStringP0List_none]
    | cons a t =>
      cases t with
      | nil => simp only [astToStringP0, astToString, astToStringP0List_none]
      | cons b u =>
        cases u with
        | nil =>
          by_cases hn : name = "\\frac"
          · simp only [astToStringP0, astToString, if_pos hn,
              astToStringP0_none a, astToStringP0_none b]
          · simp only [astToStringP0, astToString, if_neg hn, astToStringP0List_none]
        | cons c v =>
          simp only [astToStringP0, astToString, astToStringP0List_none]
  | arrayExpression elements =>
    simp only [astToStringP0, astToString, astToStringP0List_none]
  | matrixExpression rows =>
    simp only [astToStringP0, astToString, astToStringP0Rows_none]
  | comparisonExpression operator left right =>
    simp only [astToStringP0, astToString,
      astToStringP0_none left, astToStringP0_none right]
  | assignmentExpression operator left right =>
    simp only [astToStringP0, astToString,
      astToStringP0_none left, astToStringP0_none right]
  | parenthesizedExpression expression =>
    simp only [astToStringP0, astToString, astToStringP0_none expression]

theorem astToStringP0List_none (l : ASTList) :
    astToStringP0List (fun _ => none) l = astToStringList l := by
  cases l with
  | nil => rfl
  | cons a t =>
    cases t with
    | nil => simp only [astToStringP0List, astToStringList, astToStringP0_none a]
    | cons b u =>
      have e1 : astToStringP0List (fun _ => none) (ASTList.cons a (ASTList.cons b u)) =
          astToStringP0 (fun _ => none) a ++ "," ++
            astToStringP0List (fun _ => none) (ASTList.cons b u) := rfl
      have e2 : astToStringList (ASTList.cons a (ASTList.cons b u)) =
          astToString a ++ "," ++ astToStringList (ASTList.cons b u) := rfl
      rw [e1, e2, astToStringP0_none a, astToStringP0List_none]

theorem astToStringP0Rows_none (l : ASTRows) :
    astToStringP0Rows (fun _ => none) l = astToStringRows l := by
  cases l with
  | rnil => rfl
  | rcons r t =>
    cases t with
    | rnil => simp only [astToStringP0Rows, astToStringRows, astToStringP0List_none]
    | rcons r2 u =>
      have e1 : astToStringP0Rows (fun _ => none) (ASTRows.rcons r (ASTRows.rcons r2 u)) =
          "[" ++ astToStringP0List (fun _ => none) r ++ "]," ++
            astToStringP0Rows (fun _ => none) (ASTRows.rcons r2 u) := rfl
      have e2 : astToStringRows (ASTRows.rcons r (ASTRows.rcons r2 u)) =
          "[" ++ astToStringList r ++ "]," ++ astToStringRows (ASTRows.rcons r2 u) := rfl
      rw [e1, e2, astToStringP0List_none r, astToStringP0Rows_none]

end

/-! ## Claims settled by direct computation -/

/-- Claim C1 (code behavior at the claimed inputs).  The claim says parsing
`"x=5"` yields an AssignmentExpression; in the code, `parseComparison`'s loop
already consumes every `Equals` token, so the promotion guard in
`parseAssignment` never sees one and `"x=5"` actually parses to a
`ComparisonExpression` with operator `=` and an `Identifier` left operand,
while `"2=3"` parses to the comparison the claim describes. -/
theorem claim1_code_behavior :
    parseString "x=5" =
      .ast (some (.comparisonExpression "=" (.identifier "x") (.numberLiteral "5"))) ∧
    parseString "2=3" =
      .ast (some (.comparisonExpression "=" (.numberLiteral "2") (.numberLiteral "3"))) :=
  ⟨rfl, rfl⟩

/-- Claim C4 counterexample: at the two-argument `\frac` node for 1/2, an
oracle describing a successful nerdamer simplification (returning the
simplified text `1/2`) makes the part_000 serializer return `1/2` while the
current serializer returns `(1)/(2)`, so the two functions are not
extensionally equal. -/
theorem claim4_counterexample :
    astToStringP0 (fun _ => some "1/2")
      (.functionCall "\\frac" (.cons (.numberLiteral "1") (.cons (.numberLiteral "2") .nil)))
      = "1/2" ∧
    astToString
      (.functionCall "\\frac" (.cons (.numberLiteral "1") (.cons (.numberLiteral "2") .nil)))
      = "(1)/(2)" ∧
    astToStringP0 (fun _ => some "1/2")
      (.functionCall "\\frac" (.cons (.numberLiteral "1") (.cons (.numberLiteral "2") .nil)))
      ≠ astToString
      (.functionCall "\\frac" (.cons (.numberLiteral "1") (.cons (.numberLiteral "2") .nil))) :=
  ⟨rfl, rfl, by decide⟩

/-- Claim C4 (amended): the two serializers agree on every AST containing no
two-argument `\frac` call, whatever the external simplifier does; and they
agree on every AST whenever the external nerdamer call throws (the `catch`
fallback), which is the only case the repository's own code determines. -/
theorem claim4_theorem :
    (∀ (simplifyFrac : String → Option String) (node : AST), hasFrac2 node = false →
      astToStringP0 simplifyFrac node = astToString node) ∧
    (∀ node : AST, astToStringP0 (fun _ => none) node = astToString node) :=
  ⟨fun f node h => astToStringP0_eq f node h, fun node => astToStringP0_none node⟩

/-- Witness for C4: a concrete assignment-free tree where the oracle is the
identity and the two serializers agree. -/
theorem claim4_witness :
    hasFrac2 (AST.binaryExpression "+" (.numberLiteral "1") (.identifier "x")) = false ∧
    astToStringP0 (fun s => some s)
        (AST.binaryExpression "+" (.numberLiteral "1") (.identifier "x")) =
      astToString (AST.binaryExpression "+" (.numberLiteral "1") (.identifier "x")) :=
  ⟨rfl, claim4_theorem.1 (fun s => some s)
    (AST.binaryExpression "+" (.numberLiteral "1") (.identifier "x")) rfl⟩

/-- Claim C6: the exponent production folds left, so `"2^3^4"` parses to
`(2^3)^4`; and the canonicalizer parenthesizes a `^` child of a `^` parent
exactly in right-child position, so this left-leaning tree renders back to
`"2^3^4"` with no parentheses. -/
theorem claim6_exponent :
    parseString "2^3^4" =
      .ast (some (.binaryExpression "^"
        (.binaryExpression "^" (.numberLiteral "2") (.numberLiteral "3"))
        (.numberLiteral "4"))) ∧
    astToString (.binaryExpression "^"
        (.binaryExpression "^" (.numberLiteral "2") (.numberLiteral "3"))
        (.numberLiteral "4")) = "2^3^4" ∧
    ∀ (a b c d : AST) (position : String),
      needsParentheses (.binaryExpression "^" a b) (.binaryExpression "^" c d) position =
        decide (position = "right") :=
  ⟨rfl, rfl, fun a b c d position => by
    have e : needsParentheses (.binaryExpression "^" a b) (.binaryExpression "^" c d) position
        = (decide (position = "right") && decide (("^" : String) = "^")) := rfl
    rw [e]
    by_cases h : position = "right"
    · simp [h]
    · simp [h]⟩

/-- Claim C7: a unary operand is parsed at primary precedence only, so
`"-2^2"` parses as `(-2)^2`, not `-(2^2)`. -/
theorem claim7_unary_power :
    parseString "-2^2" =
      .ast (some (.binaryExpression "^"
        (.unaryExpression "-" (.numberLiteral "2")) (.numberLiteral "2"))) :=
  rfl

/-- Claim C8: `"\frac{1}{2}"` parses to a two-argument `\frac` FunctionCall
and renders as `"(1)/(2)"` with both operands unconditionally
parenthesized. -/
theorem claim8_frac :
    parseString "\\frac{1}{2}" =
      .ast (some (.functionCall "\\frac"
        (.cons (.numberLiteral "1") (.cons (.numberLiteral "2") .nil)))) ∧
    astToString (.functionCall "\\frac"
        (.cons (.numberLiteral "1") (.cons (.numberLiteral "2") .nil))) = "(1)/(2)" :=
  ⟨rfl, rfl⟩

/-- Claim C9: parsing `"\frac{1}"` fails; the raised message is exactly the
accumulated missing-denominator diagnostic, which names the `\frac` macro and
mentions the missing brace-delimited denominator (分母) group. -/
theorem claim9_frac_missing_denominator :
    parseString "\\frac{1}" =
      .failure "\\frac コマンドの分母が見つかりません。\x7b式\x7d の形式が必要です。" ∧
    containsSub "\\frac" "\\frac コマンドの分母が見つかりません。\x7b式\x7d の形式が必要です。" ∧
    containsSub "分母" "\\frac コマンドの分母が見つかりません。\x7b式\x7d の形式が必要です。" := by
  refine ⟨rfl, ⟨[], ?_⟩, ⟨"\\frac コマンドの".data, ?_⟩⟩
  · exact ⟨" コマンドの分母が見つかりません。\x7b式\x7d の形式が必要です。".data, by decide⟩
  · exact ⟨"が見つかりません。\x7b式\x7d の形式が必要です。".data, by decide⟩

/-- Claim C10: parsing `"1+2)"` fails with the trailing-tokens diagnostic
(the thrown message is the newline-joined diagnostic list, here that single
diagnostic), even though the `"1+2"` prefix on its own parses fine. -/
theorem claim10_trailing_tokens :
    parseString "1+2)" =
      .failure "解析が完了しましたが、未処理のトークンが残っています: ) トークン: ) (RParen)" ∧
    parseString "1+2" =
      .ast (some (.binaryExpression "+" (.numberLiteral "1") (.numberLiteral "2"))) :=
  ⟨rfl, rfl⟩

/-! ## Well-formedness of lexer output -/

/-- The shape of a `processNumber` result: digits and at most one dot
(`hasDot` tells whether a dot was already consumed before). -/
def numTailOK : Bool → List Char → Bool
  | _, [] => true
  | hasDot, c :: cs =>
    if c.isDigit then numTailOK hasDot cs
    else if c = '.' && !hasDot then numTailOK true cs
    else false

/-- The value of a `Number` token: digits with at most one dot, nonempty,
starting with a digit or with a dot followed by a digit. -/
def validNumB (v : String) : Bool :=
  numTailOK false v.data &&
  (match v.data with
   | [] => false
   | c :: rest =>
     c.isDigit ||
     (c = '.' && (match rest with
        | c2 :: _ => c2.isDigit
        | [] => false)))

/-- The value of an `Identifier` token: nonempty, an identifier-start
character followed by identifier characters. -/
def validIdentB (v : String) : Bool :=
  match v.data with
  | [] => false
  | c :: rest => identStart c && rest.all identChar

/-- Which token values the lexer can produce for each token type. -/
def tokenWF (t : Token) : Bool :=
  match t.type with
  | .number => validNumB t.value
  | .identifier => validIdentB t.value
  | .command => true
  | .plus => t.value = "+"
  | .minus => t.value = "-"
  | .multiply => t.value = "*"
  | .divide => t.value = "/"
  | .power => t.value = "^"
  | .equals => t.value = "="
  | .lparen => t.value = "("
  | .rparen => t.value = ")"
  | .lbracket => t.value = "["
  | .rbracket => t.value = "]"
  | .lbrace => t.value = "\x7b"
  | .rbrace => t.value = "\x7d"
  | .comma => t.value = ","
  | .semicolon => t.value = ";"
  | .dot => t.value = "."
  | .lessThan => t.value = "<"
  | .greaterThan => t.value = ">"
  | .lessEqual => t.value = "<="
  | .greaterEqual => t.value = ">="
  | .notEqual => t.value = "!="
  | .unknown => true
  | .eof => true

/-! ## Lexer lemmas -/

theorem skipWhitespace_spec (cs : List Char) :
    ∃ ws, cs = ws ++ skipWhitespace cs ∧ (∀ c ∈ ws, jsWhitespace c = true) ∧
      (∀ c, (skipWhitespace cs).head? = some c → jsWhitespace c = false) := by
  induction cs with
  | nil => exact ⟨[], rfl, by simp, by simp [skipWhitespace]⟩
  | cons c cs ih =>
    by_cases h : jsWhitespace c
    · obtain ⟨ws, h1, h2, h3⟩ := ih
      refine ⟨c :: ws, ?_, ?_, ?_⟩
      · simpa [skipWhitespace, h] using h1
      · intro x hx
        rcases List.mem_cons.mp hx with hx | hx
        · exact hx ▸ h
        · exact h2 x hx
      · intro x hx
        rw [skipWhitespace, if_pos h] at hx
        exact h3 x hx
    · refine ⟨[], by simp [skipWhitespace, h], by simp, ?_⟩
      intro x hx
      rw [skipWhitespace, if_neg h] at hx
      simp at hx
      rw [hx] at h
      simpa using h

theorem processNumber_spec (cs : List Char) :
    ∀ hd, cs = (processNumber hd cs).1 ++ (processNumber hd cs).2 ∧
      numTailOK hd (processNumber hd cs).1 = true ∧
      (∀ c ∈ (processNumber hd cs).1, (c.isDigit || c = '.') = true) := by
  induction cs with
  | nil => intro hd; exact ⟨rfl, rfl, by simp [processNumber]⟩
  | cons c cs ih =>
    intro hd
    by_cases h1 : c.isDigit
    · obtain ⟨ha, hb, hc⟩ := ih hd
      refine ⟨?_, ?_, ?_⟩
      · simpa [processNumber, h1] using congrArg (c :: ·) ha
      · simp only [processNumber, if_pos h1]
        simpa [numTailOK, h1] using hb
      · simp only [processNumber, if_pos h1]
        intro x hx
        rcases List.mem_cons.mp hx with hx | hx
        · simp [hx, h1]
        · exact hc x hx
    · by_cases h2 : c = '.' && !hd
      · obtain ⟨ha, hb, hc⟩ := ih true
        have hdot : c = '.' := by
          by_contra hc
          simp [hc] at h2
        refine ⟨?_, ?_, ?_⟩
        · simp only [processNumber, if_neg h1, if_pos h2]
          simpa using congrArg (c :: ·) ha
        · simp only [processNumber, if_neg h1, if_pos h2]
          simpa [numTailOK, h1, h2] using hb
        · simp only [processNumber, if_neg h1, if_pos h2]
          intro x hx
          rcases List.mem_cons.mp hx with hx | hx
          · simp [hx, hdot]
          · exact hc x hx
      · exact ⟨by simp [processNumber, h1, h2], by simp [processNumber, h1, h2, numTailOK], by
          simp [processNumber, h1, h2]⟩

theorem processIdentifier_spec (cs : List Char) :
    cs = (processIdentifier cs).1 ++ (processIdentifier cs).2 ∧
      (∀ c ∈ (processIdentifier cs).1, identChar c = true) := by
  induction cs with
  | nil => exact ⟨rfl, by simp [processIdentifier]⟩
  | cons c cs ih =>
    by_cases h : identChar c
    · obtain ⟨ha, hb⟩ := ih
      refine ⟨by simpa [processIdentifier, h] using congrArg (c :: ·) ha, ?_⟩
      simp only [processIdentifier, if_pos h]
      intro x hx
      rcases List.mem_cons.mp hx with hx | hx
      · exact hx ▸ h
      · exact hb x hx
    · exact ⟨by simp [processIdentifier, h], by simp [processIdentifier, h]⟩

theorem processCommandName_spec (cs : List Char) :
    cs = (processCommandName cs).1 ++ (processCommandName cs).2 ∧
      (∀ c ∈ (processCommandName cs).1, asciiLetter c = true) := by
  induction cs with
  | nil => exact ⟨rfl, by simp [processCommandName]⟩
  | cons c cs ih =>
    by_cases h : asciiLetter c
    · obtain ⟨ha, hb⟩ := ih
      refine ⟨by simpa [processCommandName, h] using congrArg (c :: ·) ha, ?_⟩
      simp only [processCommandName, if_pos h]
      intro x hx
      rcases List.mem_cons.mp hx with hx | hx
      · exact hx ▸ h
      · exact hb x hx
    · exact ⟨by simp [processCommandName, h], by simp [processCommandName, h]⟩

theorem getNextToken_nil {cs : List Char} (h : skipWhitespace cs = []) :
    getNextToken cs = (⟨.eof, ""⟩, []) := by
  unfold getNextToken
  rw [h]

theorem getNextToken_cons {cs : List Char} {c : Char} {rest : List Char}
    (h : skipWhitespace cs = c :: rest) :
    getNextToken cs =
      if c.isDigit || (c = '.' && (rest.head?.map Char.isDigit).getD false) then
        let r := processNumber false (c :: rest)
        (⟨.number, String.mk r.1⟩, r.2)
      else if identStart c then
        let r := processIdentifier (c :: rest)
        (⟨.identifier, String.mk r.1⟩, r.2)
      else if c = '\\' then
        let r := processCommandName rest
        (⟨.command, String.mk ('\\' :: r.1)⟩, r.2)
      else processOperator c rest := by
  unfold getNextToken
  rw [h]

theorem unmatchedChar_parts {c : Char} (h : unmatchedChar c = true) :
    jsWhitespace c = false ∧ c.isDigit = false ∧ identStart c = false ∧
      ¬(c = '\\') ∧ operatorType c = none ∧ ¬(c = '!') := by
  simp only [unmatchedChar, Bool.and_eq_true, Bool.not_eq_true', Option.isNone_iff_eq_none,
    decide_eq_false_iff_not, decide_eq_true_eq] at h
  tauto

theorem asciiLetter_identStart {c : Char} (h : asciiLetter c = true) :
    identStart c = true := by
  unfold asciiLetter at h
  unfold identStart
  rw [h]
  rfl

theorem operatorType_spec {c : Char} {ty : TokenType} (h : operatorType c = some ty) :
    tokenWF ⟨ty, String.mk [c]⟩ = true ∧ ty ≠ .eof := by
  delta operatorType at h
  by_cases h0 : c = '+'
  · rw [if_pos h0] at h
    injection h with h'
    subst h'
    subst h0
    exact ⟨rfl, by decide⟩
  · rw [if_neg h0] at h
    by_cases h1 : c = '-'
    · rw [if_pos h1] at h
      injection h with h'
      subst h'
      subst h1
      exact ⟨rfl, by decide⟩
    · rw [if_neg h1] at h
      by_cases h2 : c = '*'
      · rw [if_pos h2] at h
        injection h with h'
        subst h'
        subst h2
        exact ⟨rfl, by decide⟩
      · rw [if_neg h2] at h
        by_cases h3 : c = '/'
        · rw [if_pos h3] at h
          injection h with h'
          subst h'
          subst h3
          exact ⟨rfl, by decide⟩
        · rw [if_neg h3] at h
          by_cases h4 : c = '^'
          · rw [if_pos h4] at h
            injection h with h'
            subst h'
            subst h4
            exact ⟨rfl, by decide⟩
          · rw [if_neg h4] at h
            by_cases h5 : c = '='
            · rw [if_pos h5] at h
              injection h with h'
              subst h'
              subst h5
              exact ⟨rfl, by decide⟩
            · rw [if_neg h5] at h
              by_cases h6 : c = '('
              · rw [if_pos h6] at h
                injection h with h'
                subst h'
                subst h6
                exact ⟨rfl, by decide⟩
              · rw [if_neg h6] at h
                by_cases h7 : c = ')'
                · rw [if_pos h7] at h
                  injection h with h'
                  subst h'
                  subst h7
                  exact ⟨rfl, by decide⟩
                · rw [if_neg h7] at h
                  by_cases h8 : c = '['
                  · rw [if_pos h8] at h
                    injection h with h'
                    subst h'
                    subst h8
                    exact ⟨rfl, by decide⟩
                  · rw [if_neg h8] at h
                    by_cases h9 : c = ']'
                    · rw [if_pos h9] at h
                      injection h with h'
                      subst h'
                      subst h9
                      exact ⟨rfl, by decide⟩
                    · rw [if_neg h9] at h
                      by_cases h10 : c = '{'
                      · rw [if_pos h10] at h
                        injection h with h'
                        subst h'
                        subst h10
                        exact ⟨rfl, by decide⟩
                      · rw [if_neg h10] at h
                        by_cases h11 : c = '}'
                        · rw [if_pos h11] at h
                          injection h with h'
                          subst h'
                          subst h11
                          exact ⟨rfl, by decide⟩
                        · rw [if_neg h11] at h
                          by_cases h12 : c = ','
                          · rw [if_pos h12] at h
                            injection h with h'
                            subst h'
                            subst h12
                            exact ⟨rfl, by decide⟩
                          · rw [if_neg h12] at h
                            by_cases h13 : c = ';'
                            · rw [if_pos h13] at h
                              injection h with h'
                              subst h'
                              subst h13
                              exact ⟨rfl, by decide⟩
                            · rw [if_neg h13] at h
                              by_cases h14 : c = '.'
                              · rw [if_pos h14] at h
                                injection h with h'
                                subst h'
                                subst h14
                                exact ⟨rfl, by decide⟩
                              · rw [if_neg h14] at h
                                by_cases h15 : c = '<'
                                · rw [if_pos h15] at h
                                  injection h with h'
                                  subst h'
                                  subst h15
                                  exact ⟨rfl, by decide⟩
                                · rw [if_neg h15] at h
                                  by_cases h16 : c = '>'
                                  · rw [if_pos h16] at h
                                    injection h with h'
                                    subst h'
                                    subst h16
                                    exact ⟨rfl, by decide⟩
                                  · rw [if_neg h16] at h
                                    cases h

theorem data_mk (l : List Char) : (String.mk l).data = l := rfl

theorem processNumber_entry {c : Char} {rest : List Char}
    (h : (c.isDigit || (c = '.' && (rest.head?.map Char.isDigit).getD false)) = true) :
    ∃ v1, (processNumber false (c :: rest)).1 = c :: v1 := by
  by_cases hcd : c.isDigit = true
  · exact ⟨(processNumber false rest).1, by simp [processNumber, hcd]⟩
  · have hdot : c = '.' := by
      rcases Bool.or_eq_true_iff.mp h with h' | h'
      · exact absurd h' hcd
      · rcases Bool.and_eq_true_iff.mp h' with ⟨h1, _⟩
        exact of_decide_eq_true h1
    subst hdot
    exact ⟨(processNumber true rest).1, by
      simp [processNumber, hcd]⟩

theorem validNumB_entry {c : Char} {rest : List Char}
    (h : (c.isDigit || (c = '.' && (rest.head?.map Char.isDigit).getD false)) = true) :
    validNumB (String.mk (processNumber false (c :: rest)).1) = true := by
  have pb := (processNumber_spec (c :: rest) false).2.1
  by_cases hcd : c.isDigit = true
  · have hv : processNumber false (c :: rest)
        = (c :: (processNumber false rest).1, (processNumber false rest).2) := by
      simp [processNumber, hcd]
    rw [hv] at pb ⊢
    simp only [validNumB, data_mk]
    rw [pb]
    simp [hcd]
  · have hdot : c = '.' := by
      rcases Bool.or_eq_true_iff.mp h with h' | h'
      · exact absurd h' hcd
      · rcases Bool.and_eq_true_iff.mp h' with ⟨h1, _⟩
        exact of_decide_eq_true h1
    subst hdot
    rcases rest with _ | ⟨d, rest2⟩
    · simp at h
    · have hdd : d.isDigit = true := by
        rcases Bool.or_eq_true_iff.mp h with h' | h'
        · exact absurd h' hcd
        · rcases Bool.and_eq_true_iff.mp h' with ⟨_, h2⟩
          simpa using h2
      have hv : processNumber false ('.' :: d :: rest2)
          = ('.' :: d :: (processNumber true rest2).1, (processNumber true rest2).2) := by
        simp [processNumber, hcd, hdd]
      rw [hv] at pb ⊢
      simp only [validNumB, data_mk]
      rw [pb]
      simp [hdd]

theorem validIdentB_entry {c : Char} {rest : List Char} (h : identStart c = true) :
    validIdentB (String.mk (processIdentifier (c :: rest)).1) = true := by
  have hic : identChar c = true := by simp [identChar, h]
  have hv : processIdentifier (c :: rest)
      = (c :: (processIdentifier rest).1, (processIdentifier rest).2) := by
    simp [processIdentifier, hic]
  have hall := (processIdentifier_spec rest).2
  rw [hv]
  simp only [validIdentB, data_mk, h, Bool.true_and]
  rw [List.all_eq_true]
  intro x hx
  exact hall x hx

/-- One `getNextToken` step: some prefix of the input is consumed; the token
produced is well formed; EOF is produced exactly on all-whitespace input (and
then consumes everything); a non-EOF token consumes at least one character;
and if the consumed prefix holds a character no rule matches, the produced
token is the `Unknown` token for that character. -/
theorem getNextToken_spec (cs : List Char) :
    ∃ pre, cs = pre ++ (getNextToken cs).2 ∧
      tokenWF (getNextToken cs).1 = true ∧
      ((getNextToken cs).1.type = .eof →
        (∀ c ∈ cs, jsWhitespace c = true) ∧ (getNextToken cs).2 = []) ∧
      ((getNextToken cs).1.type ≠ .eof → 0 < pre.length) ∧
      (∀ c ∈ pre, unmatchedChar c = true →
        (getNextToken cs).1 = ⟨.unknown, String.mk [c]⟩) := by
  obtain ⟨ws, hws1, hws2, hws3⟩ := skipWhitespace_spec cs
  cases hsw : skipWhitespace cs with
  | nil =>
    rw [hsw] at hws1
    simp only [List.append_nil] at hws1
    rw [getNextToken_nil hsw]
    refine ⟨cs, by simp, rfl, fun _ => ⟨fun x hx => hws2 x (hws1 ▸ hx), rfl⟩,
      fun hne => absurd rfl hne, ?_⟩
    intro x hx hu
    have h1 := hws2 x (hws1 ▸ hx)
    have h2 := (unmatchedChar_parts hu).1
    rw [h1] at h2
    cases h2
  | cons c rest =>
    rw [hsw] at hws1
    have hcw : jsWhitespace c = false := hws3 c (by rw [hsw]; rfl)
    rw [getNextToken_cons hsw]
    by_cases hnum : (c.isDigit || (c = '.' && (rest.head?.map Char.isDigit).getD false)) = true
    · rw [if_pos hnum]
      obtain ⟨v1, hv1⟩ := processNumber_entry hnum
      have pa := (processNumber_spec (c :: rest) false).1
      have pc := (processNumber_spec (c :: rest) false).2.2
      refine ⟨ws ++ (processNumber false (c :: rest)).1, ?_, ?_, ?_, ?_, ?_⟩
      · rw [hws1, List.append_assoc]
        exact congrArg (ws ++ ·) pa
      · exact validNumB_entry hnum
      · intro h
        exact TokenType.noConfusion h
      · intro _
        rw [hv1]
        simp
      · intro x hx hu
        obtain ⟨hpw, hpd, hpi, hpb, hpo, hpe⟩ := unmatchedChar_parts hu
        rcases List.mem_append.mp hx with hxw | hxv
        · exact absurd (hws2 x hxw) (by simp [hpw])
        · have hdd := pc x hxv
          rcases Bool.or_eq_true_iff.mp hdd with hd | hdot
          · rw [hd] at hpd
            cases hpd
          · have hx' : x = '.' := of_decide_eq_true hdot
            rw [hx'] at hpo
            exact absurd hpo (by decide)
    · rw [if_neg hnum]
      by_cases hid : identStart c = true
      · rw [if_pos hid]
        have pa := (processIdentifier_spec (c :: rest)).1
        have pc := (processIdentifier_spec (c :: rest)).2
        have hic : identChar c = true := by simp [identChar, hid]
        have hv : processIdentifier (c :: rest)
            = (c :: (processIdentifier rest).1, (processIdentifier rest).2) := by
          simp [processIdentifier, hic]
        refine ⟨ws ++ (processIdentifier (c :: rest)).1, ?_, ?_, ?_, ?_, ?_⟩
        · rw [hws1, List.append_assoc]
          exact congrArg (ws ++ ·) pa
        · exact validIdentB_entry hid
        · intro h
          exact TokenType.noConfusion h
        · intro _
          rw [hv]
          simp
        · intro x hx hu
          obtain ⟨hpw, hpd, hpi, hpb, hpo, hpe⟩ := unmatchedChar_parts hu
          rcases List.mem_append.mp hx with hxw | hxv
          · exact absurd (hws2 x hxw) (by simp [hpw])
          · have hxi := pc x hxv
            simp only [identChar, Bool.or_eq_true] at hxi
            rcases hxi with h1 | h1
            · rw [h1] at hpi
              cases hpi
            · rw [h1] at hpd
              cases hpd
      · rw [if_neg hid]
        by_cases hbs : c = '\\'
        · rw [if_pos hbs]
          have pa := (processCommandName_spec rest).1
          have pc := (processCommandName_spec rest).2
          refine ⟨ws ++ c :: (processCommandName rest).1, ?_, rfl, ?_, ?_, ?_⟩
          · rw [hws1, List.append_assoc]
            exact congrArg (ws ++ ·) (congrArg (c :: ·) pa)
          · intro h
            exact TokenType.noConfusion h
          · intro _
            simp
          · intro x hx hu
            obtain ⟨hpw, hpd, hpi, hpb, hpo, hpe⟩ := unmatchedChar_parts hu
            rcases List.mem_append.mp hx with hxw | hxv
            · exact absurd (hws2 x hxw) (by simp [hpw])
            · rcases List.mem_cons.mp hxv with hxc | hxv2
              · exact absurd (hxc.trans hbs) hpb
              · exact absurd (asciiLetter_identStart (pc x hxv2)) (by simp [hpi])
        · rw [if_neg hbs]
          by_cases h1 : (c = '<' && rest.head? = some '=') = true
          · obtain ⟨hc', hr⟩ := Bool.and_eq_true_iff.mp h1
            have hc'' : c = '<' := of_decide_eq_true hc'
            have hr' : rest.head? = some '=' := of_decide_eq_true hr
            obtain ⟨rest2, hrest⟩ : ∃ t, rest = '=' :: t := by
              cases rest with
              | nil => cases hr'
              | cons a t =>
                simp only [List.head?] at hr'
                exact ⟨t, by rw [Option.some.injEq] at hr'; rw [hr']⟩
            have hpo' : processOperator c rest = (⟨.lessEqual, "<="⟩, rest.tail) := by
              unfold processOperator
              rw [if_pos h1]
            rw [hpo']
            refine ⟨ws ++ [c, '='], ?_, rfl, ?_, ?_, ?_⟩
            · rw [hws1, hrest, List.append_assoc]
              rfl
            · intro h
              exact TokenType.noConfusion h
            · intro _
              simp
            · intro x hx hu
              obtain ⟨hpw, hpd, hpi, hpb, hpo, hpe⟩ := unmatchedChar_parts hu
              rcases List.mem_append.mp hx with hxw | hxv
              · exact absurd (hws2 x hxw) (by simp [hpw])
              · rcases List.mem_cons.mp hxv with hxc | hxv2
                · rw [hxc, hc''] at hpo
                  exact absurd hpo (by decide)
                · have hxe : x = '=' := by simpa using hxv2
                  rw [hxe] at hpo
                  exact absurd hpo (by decide)
          · by_cases h2 : (c = '>' && rest.head? = some '=') = true
            · obtain ⟨hc', hr⟩ := Bool.and_eq_true_iff.mp h2
              have hc'' : c = '>' := of_decide_eq_true hc'
              have hr' : rest.head? = some '=' := of_decide_eq_true hr
              obtain ⟨rest2, hrest⟩ : ∃ t, rest = '=' :: t := by
                cases rest with
                | nil => cases hr'
                | cons a t =>
                  simp only [List.head?] at hr'
                  exact ⟨t, by rw [Option.some.injEq] at hr'; rw [hr']⟩
              have hpo' : processOperator c rest = (⟨.greaterEqual, ">="⟩, rest.tail) := by
                unfold processOperator
                rw [if_neg h1, if_pos h2]
              rw [hpo']
              refine ⟨ws ++ [c, '='], ?_, rfl, ?_, ?_, ?_⟩
              · rw [hws1, hrest, List.append_assoc]
                rfl
              · intro h
                exact TokenType.noConfusion h
              · intro _
                simp
              · intro x hx hu
                obtain ⟨hpw, hpd, hpi, hpb, hpo, hpe⟩ := unmatchedChar_parts hu
                rcases List.mem_append.mp hx with hxw | hxv
                · exact absurd (hws2 x hxw) (by simp [hpw])
                · rcases List.mem_cons.mp hxv with hxc | hxv2
                  · rw [hxc, hc''] at hpo
                    exact absurd hpo (by decide)
                  · have hxe : x = '=' := by simpa using hxv2
                    rw [hxe] at hpo
                    exact absurd hpo (by decide)
            · by_cases h3 : (c = '!' && rest.head? = some '=') = true
              · obtain ⟨hc', hr⟩ := Bool.and_eq_true_iff.mp h3
                have hc'' : c = '!' := of_decide_eq_true hc'
                have hr' : rest.head? = some '=' := of_decide_eq_true hr
                obtain ⟨rest2, hrest⟩ : ∃ t, rest = '=' :: t := by
                  cases rest with
                  | nil => cases hr'
                  | cons a t =>
                    simp only [List.head?] at hr'
                    exact ⟨t, by rw [Option.some.injEq] at hr'; rw [hr']⟩
                have hpo' : processOperator c rest = (⟨.notEqual, "!="⟩, rest.tail) := by
                  unfold processOperator
                  rw [if_neg h1, if_neg h2, if_pos h3]
                rw [hpo']
                refine ⟨ws ++ [c, '='], ?_, rfl, ?_, ?_, ?_⟩
                · rw [hws1, hrest, List.append_assoc]
                  rfl
                · intro h
                  exact TokenType.noConfusion h
                · intro _
                  simp
                · intro x hx hu
                  obtain ⟨hpw, hpd, hpi, hpb, hpo, hpe⟩ := unmatchedChar_parts hu
                  rcases List.mem_append.mp hx with hxw | hxv
                  · exact absurd (hws2 x hxw) (by simp [hpw])
                  · rcases List.mem_cons.mp hxv with hxc | hxv2
                    · exact absurd (hxc.trans hc'') hpe
                    · have hxe : x = '=' := by simpa using hxv2
                      rw [hxe] at hpo
                      exact absurd hpo (by decide)
              · cases hop : operatorType c with
                | some ty =>
                  have hpo' : processOperator c rest = (⟨ty, String.mk [c]⟩, rest) := by
                    unfold processOperator
                    rw [if_neg h1, if_neg h2, if_neg h3, hop]
                  rw [hpo']
                  obtain ⟨hwf, hne⟩ := operatorType_spec hop
                  refine ⟨ws ++ [c], ?_, hwf, ?_, ?_, ?_⟩
                  · rw [hws1, List.append_assoc]
                    rfl
                  · intro h
                    exact absurd h hne
                  · intro _
                    simp
                  · intro x hx hu
                    obtain ⟨hpw, hpd, hpi, hpb, hpo, hpe⟩ := unmatchedChar_parts hu
                    rcases List.mem_append.mp hx with hxw | hxv
                    · exact absurd (hws2 x hxw) (by simp [hpw])
                    · have hxc : x = c := by simpa using hxv
                      rw [hxc] at hpo
                      rw [hpo] at hop
                      cases hop
                | none =>
                  have hpo' : processOperator c rest = (⟨.unknown, String.mk [c]⟩, rest) := by
                    unfold processOperator
                    rw [if_neg h1, if_neg h2, if_neg h3, hop]
                  rw [hpo']
                  refine ⟨ws ++ [c], ?_, rfl, ?_, ?_, ?_⟩
                  · rw [hws1, List.append_assoc]
                    rfl
                  · intro h
                    exact TokenType.noConfusion h
                  · intro _
                    simp
                  · intro x hx hu
                    rcases List.mem_append.mp hx with hxw | hxv
                    · exact absurd (hws2 x hxw)
                        (by simp [(unmatchedChar_parts hu).1])
                    · have hxc : x = c := by simpa using hxv
                      rw [hxc]

theorem tokenizeAux_spec (fuel : Nat) :
    ∀ cs : List Char, cs.length < fuel →
      (∀ t ∈ tokenizeAux fuel cs, tokenWF t = true ∧ t.type ≠ .eof) ∧
      (∀ c ∈ cs, unmatchedChar c = true →
        (⟨.unknown, String.mk [c]⟩ : Token) ∈ tokenizeAux fuel cs) := by
  induction fuel with
  | zero =>
    intro cs h
    exact absurd h (Nat.not_lt_zero _)
  | succ f ih =>
    intro cs hlen
    obtain ⟨pre, hpre, hwf, heof, hne, hunk⟩ := getNextToken_spec cs
    by_cases ht : (getNextToken cs).1.type = .eof
    · have hz : tokenizeAux (f + 1) cs = [] := by
        have e : tokenizeAux (f + 1) cs
            = if (getNextToken cs).1.type = .eof then []
              else (getNextToken cs).1 :: tokenizeAux f (getNextToken cs).2 := rfl
        rw [e, if_pos ht]
      rw [hz]
      constructor
      · intro t htmem
        simp at htmem
      · intro c hc hu
        have h1 := (heof ht).1 c hc
        have h2 := (unmatchedChar_parts hu).1
        rw [h1] at h2
        cases h2
    · have heq : tokenizeAux (f + 1) cs
          = (getNextToken cs).1 :: tokenizeAux f (getNextToken cs).2 := by
        have e : tokenizeAux (f + 1) cs
            = if (getNextToken cs).1.type = .eof then []
              else (getNextToken cs).1 :: tokenizeAux f (getNextToken cs).2 := rfl
        rw [e, if_neg ht]
      have hlen2 : (getNextToken cs).2.length < f := by
        have h1 : 0 < pre.length := hne ht
        have h2 : cs.length = pre.length + (getNextToken cs).2.length := by
          conv_lhs => rw [hpre]
          simp
        omega
      obtain ⟨ihA, ihB⟩ := ih (getNextToken cs).2 hlen2
      rw [heq]
      constructor
      · intro t htmem
        rcases List.mem_cons.mp htmem with h | h
        · exact ⟨h ▸ hwf, h ▸ ht⟩
        · exact ihA t h
      · intro c hc hu
        rw [hpre] at hc
        rcases List.mem_append.mp hc with h | h
        · exact (hunk c h hu) ▸ List.mem_cons_self _ _
        · exact List.mem_cons_of_mem _ (ihB c h hu)

/-- Claim C5: `tokenize` is total by construction (it is a plain function of
the input string); every character that no whitespace, number, identifier,
command or operator rule matches shows up in the output as an `Unknown` token
carrying that character's literal text; and no `EOF` token ever appears in
the returned sequence. -/
theorem claim5_tokenize_total (s : String) :
    (∀ c ∈ s.data, unmatchedChar c = true →
      (⟨.unknown, String.mk [c]⟩ : Token) ∈ tokenize s) ∧
    (∀ t ∈ tokenize s, t.type ≠ .eof) := by
  obtain ⟨hA, hB⟩ := tokenizeAux_spec (s.toList.length + 1) s.toList (Nat.lt_succ_self _)
  exact ⟨fun c hc hu => hB c hc hu, fun t ht => (hA t ht).2⟩

/-- Witness for C5 at the concrete input `"2@π"`: the unmatched character `@`
comes out as an `Unknown` token. -/
theorem claim5_witness :
    (⟨.unknown, String.mk ['@']⟩ : Token) ∈ tokenize "2@π" :=
  (claim5_tokenize_total "2@π").1 '@' (by decide) (by decide)

/-- All tokens the lexer returns have lexically well-formed values. -/
theorem tokenize_tokenWF (s : String) : ∀ t ∈ tokenize s, tokenWF t = true :=
  fun t ht =>
    ((tokenizeAux_spec (s.toList.length + 1) s.toList (Nat.lt_succ_self _)).1 t ht).1

/-! ## Shape invariants of parser output

`shapeB` captures exactly the trees the parser can return from a run that
recorded no diagnostics on lexer-produced tokens: leaf values are lexically
valid, operators come from the operator token set, each operand sits at a
level at least as tight as the production that parsed it, no node is the JS
`null`, and no node is an `AssignmentExpression` (claim C2). -/

def isBinOpStr (op : String) : Bool :=
  op = "+" || op = "-" || op = "*" || op = "/" || op = "^"

/-- The grammar level of a binary operator: 4 additive, 3 term, 2 exponent. -/
def opLvl (op : String) : Nat :=
  if op = "+" || op = "-" then 4
  else if op = "*" || op = "/" then 3
  else if op = "^" then 2
  else 0

def isCompOpStr (op : String) : Bool :=
  op = "<" || op = ">" || op = "<=" || op = ">=" || op = "=" || op = "!="

/-- The loosest production that can produce the node (1 = primary,
2 = exponent, 3 = term, 4 = additive, 5 = comparison). -/
def lvl : AST → Nat
  | .binaryExpression op _ _ => opLvl op
  | .comparisonExpression _ _ _ => 5
  | .assignmentExpression _ _ _ => 6
  | _ => 1

mutual

def shapeB : AST → Bool
  | .numberLiteral v => validNumB v
  | .identifier v => validIdentB v
  | .binaryExpression op l r =>
    isBinOpStr op && shapeB l && shapeB r &&
      decide (lvl l ≤ opLvl op) && decide (lvl r + 1 ≤ opLvl op)
  | .unaryExpression op u => (op = "+" || op = "-") && shapeB u && decide (lvl u ≤ 1)
  | .comparisonExpression op l r =>
    isCompOpStr op && shapeB l && shapeB r && decide (lvl l ≤ 5) && decide (lvl r ≤ 4)
  | .assignmentExpression _ _ _ => false
  | .parenthesizedExpression e => shapeB e && decide (lvl e ≤ 5)
  | .functionCall _ args => shapeBL args
  | .arrayExpression es => shapeBL es
  | .matrixExpression rows => shapeBR rows
  | .null => false

def shapeBL : ASTList → Bool
  | .nil => true
  | .cons a t => shapeB a && decide (lvl a ≤ 5) && shapeBL t

def shapeBR : ASTRows → Bool
  | .rnil => true
  | .rcons r t => shapeBL r && shapeBR t

end

/-! ## Parser invariants -/

/-- Diagnostics only ever grow, by appending at the end. -/
def errsGrow (s s' : PState) : Prop :=
  ∃ es, s'.errors = s.errors ++ es

/-- The cursor only moves forward: the new remainder is a suffix. -/
def restSuffix (s s' : PState) : Prop :=
  ∃ pre, s.rest = pre ++ s'.rest

/-- Every remaining token is lexically well formed. -/
def tokensWF (s : PState) : Prop :=
  ∀ t ∈ s.rest, tokenWF t = true

/-- The stored child for an optional node contains no assignment. -/
def noAssignO (r : Option AST) : Prop :=
  containsAssignment (optAST r) = false

/-- A successful, diagnostic-free parse at level `L` returns a non-null,
shape-correct node at that level. -/
def wfAtO (L : Nat) (r : Option AST) : Prop :=
  ∃ t, r = some t ∧ shapeB t = true ∧ lvl t ≤ L

/-- Postcondition of a node-valued parser method at level `L`. -/
def PostA (L : Nat) (s : PState) : PRes (Option AST) → Prop
  | .ok r s' => errsGrow s s' ∧ restSuffix s s' ∧ noAssignO r ∧
      (tokensWF s → s'.errors = s.errors → wfAtO L r)
  | .exn s' => errsGrow s s' ∧ restSuffix s s'
  | .out => True

/-- Postcondition of a loop at level `L` carrying an accumulated `node`. -/
def PostLoop (L : Nat) (node : Option AST) (s : PState) : PRes (Option AST) → Prop
  | .ok r s' => errsGrow s s' ∧ restSuffix s s' ∧ (noAssignO node → noAssignO r) ∧
      (tokensWF s → s'.errors = s.errors → wfAtO L node → wfAtO L r)
  | .exn s' => errsGrow s s' ∧ restSuffix s s'
  | .out => True

/-- Postcondition of an argument-list loop. -/
def PostL (s : PState) : PRes ASTList → Prop
  | .ok args s' => errsGrow s s' ∧ restSuffix s s' ∧ containsAssignmentList args = false ∧
      (tokensWF s → s'.errors = s.errors → shapeBL args = true)
  | .exn s' => errsGrow s s' ∧ restSuffix s s'
  | .out => True

/-- After `parseComparison` (or its loop) returns normally, the current token
is never one of the comparison kinds: the loop consumed them all. -/
def okPeekNC : PRes (Option AST) → Prop
  | .ok _ s' => isCompType (peekType s') = false
  | _ => True

theorem errsGrow_rfl (s : PState) : errsGrow s s := ⟨[], by simp⟩

theorem errsGrow_trans {s1 s2 s3 : PState} (h1 : errsGrow s1 s2) (h2 : errsGrow s2 s3) :
    errsGrow s1 s3 := by
  obtain ⟨a, ha⟩ := h1
  obtain ⟨b, hb⟩ := h2
  exact ⟨a ++ b, by rw [hb, ha, List.append_assoc]⟩

theorem restSuffix_rfl (s : PState) : restSuffix s s := ⟨[], by simp⟩

theorem restSuffix_trans {s1 s2 s3 : PState} (h1 : restSuffix s1 s2) (h2 : restSuffix s2 s3) :
    restSuffix s1 s3 := by
  obtain ⟨a, ha⟩ := h1
  obtain ⟨b, hb⟩ := h2
  exact ⟨a ++ b, by rw [ha, hb, List.append_assoc]⟩

theorem tokensWF_mono {s s' : PState} (h : tokensWF s) (hs : restSuffix s s') : tokensWF s' := by
  obtain ⟨pre, hpre⟩ := hs
  intro t ht
  exact h t (by rw [hpre]; exact List.mem_append_right _ ht)

theorem errsGrow_squeeze {s1 s2 s3 : PState} (h1 : errsGrow s1 s2) (h2 : errsGrow s2 s3)
    (h : s3.errors = s1.errors) : s2.errors = s1.errors := by
  obtain ⟨a, ha⟩ := h1
  obtain ⟨b, hb⟩ := h2
  rw [hb, ha] at h
  have hlen := congrArg List.length h
  simp only [List.length_append] at hlen
  have ha0 : a = [] := List.length_eq_zero.mp (by omega)
  rw [ha, ha0]
  simp

/-! Pointwise equations for `addError` and `consume` on destructured states;
all of them hold by definitional unfolding. -/

theorem addError_nil (m : String) (E : List String) :
    addError m ⟨[], E⟩ = ⟨[], E ++ [m]⟩ := rfl

theorem addError_cons (m : String) (a : Token) (t : List Token) (E : List String) :
    addError m ⟨a :: t, E⟩ =
      ⟨a :: t, E ++ [m ++ " トークン: " ++ a.value ++ " (" ++ a.type.str ++ ")"]⟩ := rfl

/-- `addError` keeps the cursor and appends exactly one message. -/
theorem addError_spec (m : String) (s : PState) :
    (addError m s).rest = s.rest ∧ ∃ m', (addError m s).errors = s.errors ++ [m'] := by
  unfold addError
  cases peekT s <;> exact ⟨rfl, _, rfl⟩

theorem consume_none_nil (E : List String) :
    consume none ⟨[], E⟩ =
      (none, addError "予期せぬ入力の終わりです。undefinedが必要です。" ⟨[], E⟩) := rfl

theorem consume_exp_nil (ty : TokenType) (E : List String) :
    consume (some ty) ⟨[], E⟩ =
      (none, addError ("予期せぬ入力の終わりです。" ++ ty.str ++ "が必要です。") ⟨[], E⟩) := rfl

theorem consume_none_cons (a : Token) (t : List Token) (E : List String) :
    consume none ⟨a :: t, E⟩ = (some a, ⟨t, E⟩) := rfl

theorem consume_exp_cons_eq {ty : TokenType} {a : Token} (t : List Token) (E : List String)
    (ht : a.type = ty) :
    consume (some ty) ⟨a :: t, E⟩ = (some a, ⟨t, E⟩) := by
  simp [consume, peekT, ht]

theorem consume_exp_cons_ne {ty : TokenType} {a : Token} (t : List Token) (E : List String)
    (ht : ¬ a.type = ty) :
    consume (some ty) ⟨a :: t, E⟩ =
      (none, addError (ty.str ++ "が必要ですが、" ++ a.type.str ++ "が見つかりました。")
        ⟨a :: t, E⟩) := by
  simp [consume, peekT, ht]

/-- `consume` accumulates at most diagnostics and only moves forward. -/
theorem consume_grow (e : Option TokenType) (s : PState) :
    errsGrow s (consume e s).2 ∧ restSuffix s (consume e s).2 := by
  obtain ⟨rest, E⟩ := s
  cases rest with
  | nil =>
    cases e with
    | none =>
      rw [consume_none_nil, addError_nil]
      exact ⟨⟨_, rfl⟩, ⟨[], rfl⟩⟩
    | some ty =>
      rw [consume_exp_nil, addError_nil]
      exact ⟨⟨_, rfl⟩, ⟨[], rfl⟩⟩
  | cons a t =>
    cases e with
    | none =>
      rw [consume_none_cons]
      exact ⟨⟨[], by simp⟩, ⟨[a], rfl⟩⟩
    | some ty =>
      by_cases ht : a.type = ty
      · rw [consume_exp_cons_eq t E ht]
        exact ⟨⟨[], by simp⟩, ⟨[a], rfl⟩⟩
      · rw [consume_exp_cons_ne t E ht, addError_cons]
        exact ⟨⟨_, rfl⟩, ⟨[], rfl⟩⟩

/-- A `consume` that did not record an error consumed exactly the current
token, which matched the expectation. -/
theorem consume_ok {e : Option TokenType} {s : PState}
    (h : (consume e s).2.errors = s.errors) :
    ∃ a t, s.rest = a :: t ∧ consume e s = (some a, ⟨t, s.errors⟩) ∧
      (∀ ty, e = some ty → a.type = ty) := by
  obtain ⟨rest, E⟩ := s
  cases rest with
  | nil =>
    cases e with
    | none =>
      rw [consume_none_nil, addError_nil] at h
      simp at h
    | some ty =>
      rw [consume_exp_nil, addError_nil] at h
      simp at h
  | cons a t =>
    cases e with
    | none =>
      exact ⟨a, t, rfl, consume_none_cons a t E, fun ty hty => by cases hty⟩
    | some ty =>
      by_cases ht : a.type = ty
      · exact ⟨a, t, rfl, consume_exp_cons_eq t E ht, fun ty2 hty => by cases hty; exact ht⟩
      · rw [consume_exp_cons_ne t E ht, addError_cons] at h
        simp at h

/-- Postcondition of the matrix row/column loop, carrying the accumulated
current row and rows. -/
def PostMat (row : ASTList) (rows : ASTRows) (s : PState) : PRes (Option AST) → Prop
  | .ok r s' => errsGrow s s' ∧ restSuffix s s' ∧
      (containsAssignmentList row = false → containsAssignmentRows rows = false →
        noAssignO r) ∧
      (tokensWF s → s'.errors = s.errors → shapeBL row = true → shapeBR rows = true →
        wfAtO 1 r)
  | .exn s' => errsGrow s s' ∧ restSuffix s s'
  | .out => True

theorem wfAtO_mono {L L' : Nat} (h : L ≤ L') {r : Option AST} (hw : wfAtO L r) :
    wfAtO L' r := by
  obtain ⟨t, h1, h2, h3⟩ := hw
  exact ⟨t, h1, h2, le_trans h3 h⟩

/-- Dropping the consumed head token preserves a method's postcondition. -/
theorem PostA_cons {L : Nat} {a : Token} {t : List Token} {E : List String}
    {res : PRes (Option AST)} (h : PostA L ⟨t, E⟩ res) : PostA L ⟨a :: t, E⟩ res := by
  cases res with
  | ok r s' =>
    obtain ⟨⟨es, hg⟩, ⟨pre, hs⟩, hna, hwf⟩ := h
    refine ⟨⟨es, hg⟩, ⟨a :: pre, congrArg (a :: ·) hs⟩, hna, ?_⟩
    intro htk herr
    exact hwf (fun x hx => htk x (List.mem_cons_of_mem a hx)) herr
  | exn s' =>
    obtain ⟨⟨es, hg⟩, ⟨pre, hs⟩⟩ := h
    exact ⟨⟨es, hg⟩, ⟨a :: pre, congrArg (a :: ·) hs⟩⟩
  | out => trivial

theorem PostL_cons {a : Token} {t : List Token} {E : List String}
    {res : PRes ASTList} (h : PostL ⟨t, E⟩ res) : PostL ⟨a :: t, E⟩ res := by
  cases res with
  | ok r s' =>
    obtain ⟨⟨es, hg⟩, ⟨pre, hs⟩, hna, hwf⟩ := h
    refine ⟨⟨es, hg⟩, ⟨a :: pre, congrArg (a :: ·) hs⟩, hna, ?_⟩
    intro htk herr
    exact hwf (fun x hx => htk x (List.mem_cons_of_mem a hx)) herr
  | exn s' =>
    obtain ⟨⟨es, hg⟩, ⟨pre, hs⟩⟩ := h
    exact ⟨⟨es, hg⟩, ⟨a :: pre, congrArg (a :: ·) hs⟩⟩
  | out => trivial

theorem containsAssignmentList_append (l1 l2 : ASTList) :
    containsAssignmentList (l1.append l2) =
      (containsAssignmentList l1 || containsAssignmentList l2) := by
  cases l1 with
  | nil => simp [ASTList.append, containsAssignmentList]
  | cons a t =>
    simp [ASTList.append, containsAssignmentList,
      containsAssignmentList_append t l2, Bool.or_assoc]

theorem shapeBL_append (l1 l2 : ASTList) :
    shapeBL (l1.append l2) = (shapeBL l1 && shapeBL l2) := by
  cases l1 with
  | nil => simp [ASTList.append, shapeBL]
  | cons a t =>
    simp [ASTList.append, shapeBL, shapeBL_append t l2, Bool.and_assoc]

theorem containsAssignmentRows_push (rows : ASTRows) (r : ASTList) :
    containsAssignmentRows (rows.push r) =
      (containsAssignmentRows rows || containsAssignmentList r) := by
  cases rows with
  | rnil => simp [ASTRows.push, containsAssignmentRows]
  | rcons h t =>
    simp [ASTRows.push, containsAssignmentRows,
      containsAssignmentRows_push t r, Bool.or_assoc]

theorem shapeBR_push (rows : ASTRows) (r : ASTList) :
    shapeBR (rows.push r) = (shapeBR rows && shapeBL r) := by
  cases rows with
  | rnil => simp [ASTRows.push, shapeBR]
  | rcons h t =>
    simp [ASTRows.push, shapeBR, shapeBR_push t r, Bool.and_assoc]

/-- The value of a comparison-kind token is a comparison operator string. -/
theorem compTok_value {ty : TokenType} {v : String} (hty : isCompType (some ty) = true)
    (hwf : tokenWF ⟨ty, v⟩ = true) : isCompOpStr v = true := by
  cases ty <;>
    first
      | exact absurd hty (by decide)
      | (have hv := of_decide_eq_true hwf; subst hv; decide)

/-- The value of a `Plus`/`Minus` token. -/
theorem addTok_value {ty : TokenType} {v : String}
    (hty : ty = TokenType.plus ∨ ty = TokenType.minus)
    (hwf : tokenWF ⟨ty, v⟩ = true) : v = "+" ∨ v = "-" := by
  rcases hty with h | h <;> subst h
  · exact Or.inl (of_decide_eq_true hwf)
  · exact Or.inr (of_decide_eq_true hwf)

/-- The value of a `Multiply`/`Divide` token. -/
theorem termTok_value {ty : TokenType} {v : String}
    (hty : ty = TokenType.multiply ∨ ty = TokenType.divide)
    (hwf : tokenWF ⟨ty, v⟩ = true) : v = "*" ∨ v = "/" := by
  rcases hty with h | h <;> subst h
  · exact Or.inl (of_decide_eq_true hwf)
  · exact Or.inr (of_decide_eq_true hwf)

/-- The value of a `Power` token. -/
theorem powTok_value {ty : TokenType} {v : String} (hty : ty = TokenType.power)
    (hwf : tokenWF ⟨ty, v⟩ = true) : v = "^" := by
  subst hty
  exact of_decide_eq_true hwf

/-- An appended diagnostic never cancels out. -/
theorem errs_append_ne {E es : List String} {m : String}
    (h : (E ++ [m]) ++ es = E) : False := by
  have hlen := congrArg List.length h
  simp only [List.length_append, List.length_cons, List.length_nil] at hlen
  omega

theorem optAST_some (a : AST) : optAST (some a) = a := rfl

theorem optAST_none : optAST none = AST.null := rfl

theorem addOp_facts {v : String} (h : v = "+" ∨ v = "-") :
    isBinOpStr v = true ∧ opLvl v = 4 := by
  rcases h with h | h <;> subst h <;> exact ⟨by decide, by decide⟩

theorem termOp_facts {v : String} (h : v = "*" ∨ v = "/") :
    isBinOpStr v = true ∧ opLvl v = 3 := by
  rcases h with h | h <;> subst h <;> exact ⟨by decide, by decide⟩

theorem powOp_facts {v : String} (h : v = "^") :
    isBinOpStr v = true ∧ opLvl v = 2 := by
  subst h
  exact ⟨by decide, by decide⟩

theorem errsGrow_cons (a : Token) (t : List Token) (E : List String) :
    errsGrow ⟨a :: t, E⟩ ⟨t, E⟩ := ⟨[], by simp⟩

theorem restSuffix_cons (a : Token) (t : List Token) (E : List String) :
    restSuffix ⟨a :: t, E⟩ ⟨t, E⟩ := ⟨[a], rfl⟩

theorem compLoopStep (fuel : Nat)
    (ihAdd : ∀ s, PostA 4 s (parseAdditive fuel s))
    (ihCompL : ∀ node s, PostLoop 5 node s (compLoop fuel node s) ∧
      okPeekNC (compLoop fuel node s)) :
    ∀ node s, PostLoop 5 node s (compLoop (fuel + 1) node s) ∧
      okPeekNC (compLoop (fuel + 1) node s) := by
  intro node s
  obtain ⟨rest, E⟩ := s
  by_cases hc : isCompType (peekType ⟨rest, E⟩) = true
  · cases rest with
    | nil => simp [peekType, peekT, isCompType] at hc
    | cons a t =>
      have e1 : compLoop (fuel + 1) node ⟨a :: t, E⟩ =
          match parseAdditive fuel ⟨t, E⟩ with
          | .ok right s2 =>
            compLoop fuel
              (some (.comparisonExpression a.value (optAST node) (optAST right))) s2
          | .exn s2 => .exn s2
          | .out => .out := by
        simp only [compLoop]
        rw [if_pos hc, consume_none_cons]
      rcases hPA : parseAdditive fuel ⟨t, E⟩ with ⟨right, s2⟩ | s2 | _
      · have e2 : compLoop (fuel + 1) node ⟨a :: t, E⟩ =
            compLoop fuel
              (some (.comparisonExpression a.value (optAST node) (optAST right))) s2 := by
          rw [e1, hPA]
        rw [e2]
        have hA := ihAdd ⟨t, E⟩
        rw [hPA] at hA
        obtain ⟨hg1, hs1, hna1, hwf1⟩ := hA
        obtain ⟨hL, hpk⟩ :=
          ihCompL (some (.comparisonExpression a.value (optAST node) (optAST right))) s2
        refine ⟨?_, hpk⟩
        rcases hres : compLoop fuel
            (some (.comparisonExpression a.value (optAST node) (optAST right))) s2
          with ⟨r, s3⟩ | s3 | _
        · rw [hres] at hL
          obtain ⟨hg2, hs2, hna2, hwf2⟩ := hL
          refine ⟨errsGrow_trans (errsGrow_trans (errsGrow_cons a t E) hg1) hg2,
            restSuffix_trans (restSuffix_trans (restSuffix_cons a t E) hs1) hs2, ?_, ?_⟩
          · intro hnn
            apply hna2
            simp only [noAssignO, optAST_some, containsAssignment]
            simp only [noAssignO] at hnn hna1
            simp [hnn, hna1]
          · intro htk herr hwfn
            have hS2 : s2.errors = E := errsGrow_squeeze hg1 hg2 herr
            have htk2 : tokensWF ⟨t, E⟩ := fun x hx => htk x (List.mem_cons_of_mem a hx)
            have hwfr : wfAtO 4 right := hwf1 htk2 hS2
            have hta : tokenWF a = true := htk a (List.mem_cons_self a t)
            obtain ⟨aty, av⟩ := a
            have hcomp : isCompOpStr av = true :=
              compTok_value (by simpa [peekType, peekT] using hc) hta
            obtain ⟨nt, hnt, hsnt, hlnt⟩ := hwfn
            obtain ⟨rt, hrt, hsrt, hlrt⟩ := hwfr
            apply hwf2 (tokensWF_mono htk2 hs1) (by rw [herr, hS2])
            refine ⟨.comparisonExpression av (optAST node) (optAST right), rfl, ?_,
              by simp [lvl]⟩
            rw [hnt, hrt]
            simp only [optAST_some]
            simp [shapeB, hcomp, hsnt, hsrt, hlnt, hlrt]
        · rw [hres] at hL
          obtain ⟨hg2, hs2⟩ := hL
          exact ⟨errsGrow_trans (errsGrow_trans (errsGrow_cons a t E) hg1) hg2,
            restSuffix_trans (restSuffix_trans (restSuffix_cons a t E) hs1) hs2⟩
        · trivial
      · have e2 : compLoop (fuel + 1) node ⟨a :: t, E⟩ = .exn s2 := by
          rw [e1, hPA]
        rw [e2]
        have hA := ihAdd ⟨t, E⟩
        rw [hPA] at hA
        obtain ⟨hg1, hs1⟩ := hA
        exact ⟨⟨errsGrow_trans (errsGrow_cons a t E) hg1,
          restSuffix_trans (restSuffix_cons a t E) hs1⟩, trivial⟩
      · have e2 : compLoop (fuel + 1) node ⟨a :: t, E⟩ = .out := by
          rw [e1, hPA]
        rw [e2]
        exact ⟨trivial, trivial⟩
  · have e1 : compLoop (fuel + 1) node ⟨rest, E⟩ = .ok node ⟨rest, E⟩ := by
      simp only [compLoop]
      rw [if_neg hc]
    rw [e1]
    refine ⟨⟨errsGrow_rfl _, restSuffix_rfl _, fun h => h, fun _ _ h => h⟩, ?_⟩
    simpa [okPeekNC] using hc

theorem addLoopStep (fuel : Nat)
    (ihTerm : ∀ s, PostA 3 s (parseTerm fuel s))
    (ihAddL : ∀ node s, PostLoop 4 node s (addLoop fuel node s)) :
    ∀ node s, PostLoop 4 node s (addLoop (fuel + 1) node s) := by
  intro node s
  obtain ⟨rest, E⟩ := s
  by_cases hc : (decide (peekType (⟨rest, E⟩ : PState) = some TokenType.plus) ||
      decide (peekType (⟨rest, E⟩ : PState) = some TokenType.minus)) = true
  · cases rest with
    | nil => simp [peekType, peekT] at hc
    | cons a t =>
      have hty : a.type = TokenType.plus ∨ a.type = TokenType.minus := by
        rcases Bool.or_eq_true_iff.mp hc with h | h
        · exact Or.inl (by simpa [peekType, peekT] using of_decide_eq_true h)
        · exact Or.inr (by simpa [peekType, peekT] using of_decide_eq_true h)
      have e1 : addLoop (fuel + 1) node ⟨a :: t, E⟩ =
          match parseTerm fuel ⟨t, E⟩ with
          | .ok right s2 =>
            addLoop fuel
              (some (.binaryExpression a.value (optAST node) (optAST right))) s2
          | .exn s2 => .exn s2
          | .out => .out := by
        simp only [addLoop]
        rw [if_pos hc, consume_none_cons]
      rcases hPA : parseTerm fuel ⟨t, E⟩ with ⟨right, s2⟩ | s2 | _
      · have e2 : addLoop (fuel + 1) node ⟨a :: t, E⟩ =
            addLoop fuel
              (some (.binaryExpression a.value (optAST node) (optAST right))) s2 := by
          rw [e1, hPA]
        rw [e2]
        have hA := ihTerm ⟨t, E⟩
        rw [hPA] at hA
        obtain ⟨hg1, hs1, hna1, hwf1⟩ := hA
        have hL := ihAddL (some (.binaryExpression a.value (optAST node) (optAST right))) s2
        rcases hres : addLoop fuel
            (some (.binaryExpression a.value (optAST node) (optAST right))) s2
          with ⟨r, s3⟩ | s3 | _
        · rw [hres] at hL
          obtain ⟨hg2, hs2, hna2, hwf2⟩ := hL
          refine ⟨errsGrow_trans (errsGrow_trans (errsGrow_cons a t E) hg1) hg2,
            restSuffix_trans (restSuffix_trans (restSuffix_cons a t E) hs1) hs2, ?_, ?_⟩
          · intro hnn
            apply hna2
            simp only [noAssignO, optAST_some, containsAssignment]
            simp only [noAssignO] at hnn hna1
            simp [hnn, hna1]
          · intro htk herr hwfn
            have hS2 : s2.errors = E := errsGrow_squeeze hg1 hg2 herr
            have htk2 : tokensWF ⟨t, E⟩ := fun x hx => htk x (List.mem_cons_of_mem a hx)
            have hwfr : wfAtO 3 right := hwf1 htk2 hS2
            have hta : tokenWF a = true := htk a (List.mem_cons_self a t)
            obtain ⟨aty, av⟩ := a
            have hv : av = "+" ∨ av = "-" := addTok_value hty hta
            obtain ⟨hbin, hov⟩ := addOp_facts hv
            obtain ⟨nt, hnt, hsnt, hlnt⟩ := hwfn
            obtain ⟨rt, hrt, hsrt, hlrt⟩ := hwfr
            have hlrtb : lvl rt + 1 ≤ 4 := by omega
            apply hwf2 (tokensWF_mono htk2 hs1) (by rw [herr, hS2])
            refine ⟨.binaryExpression av (optAST node) (optAST right), rfl, ?_,
              by simp [lvl, hov]⟩
            rw [hnt, hrt]
            simp only [optAST_some]
            simp [shapeB, hbin, hov, hsnt, hsrt, hlnt, hlrtb]
        · rw [hres] at hL
          obtain ⟨hg2, hs2⟩ := hL
          exact ⟨errsGrow_trans (errsGrow_trans (errsGrow_cons a t E) hg1) hg2,
            restSuffix_trans (restSuffix_trans (restSuffix_cons a t E) hs1) hs2⟩
        · trivial
      · have e2 : addLoop (fuel + 1) node ⟨a :: t, E⟩ = .exn s2 := by
          rw [e1, hPA]
        rw [e2]
        have hA := ihTerm ⟨t, E⟩
        rw [hPA] at hA
        obtain ⟨hg1, hs1⟩ := hA
        exact ⟨errsGrow_trans (errsGrow_cons a t E) hg1,
          restSuffix_trans (restSuffix_cons a t E) hs1⟩
      · have e2 : addLoop (fuel + 1) node ⟨a :: t, E⟩ = .out := by
          rw [e1, hPA]
        rw [e2]
        trivial
  · have e1 : addLoop (fuel + 1) node ⟨rest, E⟩ = .ok node ⟨rest, E⟩ := by
      simp only [addLoop]
      rw [if_neg hc]
    rw [e1]
    exact ⟨errsGrow_rfl _, restSuffix_rfl _, fun h => h, fun _ _ h => h⟩

theorem termLoopStep (fuel : Nat)
    (ihExp : ∀ s, PostA 2 s (parseExponent fuel s))
    (ihTermL : ∀ node s, PostLoop 3 node s (termLoop fuel node s)) :
    ∀ node s, PostLoop 3 node s (termLoop (fuel + 1) node s) := by
  intro node s
  obtain ⟨rest, E⟩ := s
  by_cases hc : (decide (peekType (⟨rest, E⟩ : PState) = some TokenType.multiply) ||
      decide (peekType (⟨rest, E⟩ : PState) = some TokenType.divide)) = true
  · cases rest with
    | nil => simp [peekType, peekT] at hc
    | cons a t =>
      have hty : a.type = TokenType.multiply ∨ a.type = TokenType.divide := by
        rcases Bool.or_eq_true_iff.mp hc with h | h
        · exact Or.inl (by simpa [peekType, peekT] using of_decide_eq_true h)
        · exact Or.inr (by simpa [peekType, peekT] using of_decide_eq_true h)
      have e1 : termLoop (fuel + 1) node ⟨a :: t, E⟩ =
          match parseExponent fuel ⟨t, E⟩ with
          | .ok right s2 =>
            termLoop fuel
              (some (.binaryExpression a.value (optAST node) (optAST right))) s2
          | .exn s2 => .exn s2
          | .out => .out := by
        simp only [termLoop]
        rw [if_pos hc, consume_none_cons]
      rcases hPA : parseExponent fuel ⟨t, E⟩ with ⟨right, s2⟩ | s2 | _
      · have e2 : termLoop (fuel + 1) node ⟨a :: t, E⟩ =
            termLoop fuel
              (some (.binaryExpression a.value (optAST node) (optAST right))) s2 := by
          rw [e1, hPA]
        rw [e2]
        have hA := ihExp ⟨t, E⟩
        rw [hPA] at hA
        obtain ⟨hg1, hs1, hna1, hwf1⟩ := hA
        have hL := ihTermL (some (.binaryExpression a.value (optAST node) (optAST right))) s2
        rcases hres : termLoop fuel
            (some (.binaryExpression a.value (optAST node) (optAST right))) s2
          with ⟨r, s3⟩ | s3 | _
        · rw [hres] at hL
          obtain ⟨hg2, hs2, hna2, hwf2⟩ := hL
          refine ⟨errsGrow_trans (errsGrow_trans (errsGrow_cons a t E) hg1) hg2,
            restSuffix_trans (restSuffix_trans (restSuffix_cons a t E) hs1) hs2, ?_, ?_⟩
          · intro hnn
            apply hna2
            simp only [noAssignO, optAST_some, containsAssignment]
            simp only [noAssignO] at hnn hna1
            simp [hnn, hna1]
          · intro htk herr hwfn
            have hS2 : s2.errors = E := errsGrow_squeeze hg1 hg2 herr
            have htk2 : tokensWF ⟨t, E⟩ := fun x hx => htk x (List.mem_cons_of_mem a hx)
            have hwfr : wfAtO 2 right := hwf1 htk2 hS2
            have hta : tokenWF a = true := htk a (List.mem_cons_self a t)
            obtain ⟨aty, av⟩ := a
            have hv : av = "*" ∨ av = "/" := termTok_value hty hta
            obtain ⟨hbin, hov⟩ := termOp_facts hv
            obtain ⟨nt, hnt, hsnt, hlnt⟩ := hwfn
            obtain ⟨rt, hrt, hsrt, hlrt⟩ := hwfr
            have hlrtb : lvl rt + 1 ≤ 3 := by omega
            apply hwf2 (tokensWF_mono htk2 hs1) (by rw [herr, hS2])
            refine ⟨.binaryExpression av (optAST node) (optAST right), rfl, ?_,
              by simp [lvl, hov]⟩
            rw [hnt, hrt]
            simp only [optAST_some]
            simp [shapeB, hbin, hov, hsnt, hsrt, hlnt, hlrtb]
        · rw [hres] at hL
          obtain ⟨hg2, hs2⟩ := hL
          exact ⟨errsGrow_trans (errsGrow_trans (errsGrow_cons a t E) hg1) hg2,
            restSuffix_trans (restSuffix_trans (restSuffix_cons a t E) hs1) hs2⟩
        · trivial
      · have e2 : termLoop (fuel + 1) node ⟨a :: t, E⟩ = .exn s2 := by
          rw [e1, hPA]
        rw [e2]
        have hA := ihExp ⟨t, E⟩
        rw [hPA] at hA
        obtain ⟨hg1, hs1⟩ := hA
        exact ⟨errsGrow_trans (errsGrow_cons a t E) hg1,
          restSuffix_trans (restSuffix_cons a t E) hs1⟩
      · have e2 : termLoop (fuel + 1) node ⟨a :: t, E⟩ = .out := by
          rw [e1, hPA]
        rw [e2]
        trivial
  · have e1 : termLoop (fuel + 1) node ⟨rest, E⟩ = .ok node ⟨rest, E⟩ := by
      simp only [termLoop]
      rw [if_neg hc]
    rw [e1]
    exact ⟨errsGrow_rfl _, restSuffix_rfl _, fun h => h, fun _ _ h => h⟩

theorem expLoopStep (fuel : Nat)
    (ihPrim : ∀ s, PostA 1 s (parsePrimary fuel s))
    (ihExpL : ∀ node s, PostLoop 2 node s (expLoop fuel node s)) :
    ∀ node s, PostLoop 2 node s (expLoop (fuel + 1) node s) := by
  intro node s
  obtain ⟨rest, E⟩ := s
  by_cases hc : peekType (⟨rest, E⟩ : PState) = some TokenType.power
  · cases rest with
    | nil => simp [peekType, peekT] at hc
    | cons a t =>
      have hty : a.type = TokenType.power := by
        simpa [peekType, peekT] using hc
      have e1 : expLoop (fuel + 1) node ⟨a :: t, E⟩ =
          match parsePrimary fuel ⟨t, E⟩ with
          | .ok right s2 =>
            expLoop fuel
              (some (.binaryExpression a.value (optAST node) (optAST right))) s2
          | .exn s2 => .exn s2
          | .out => .out := by
        simp only [expLoop]
        rw [if_pos hc, consume_none_cons]
      rcases hPA : parsePrimary fuel ⟨t, E⟩ with ⟨right, s2⟩ | s2 | _
      · have e2 : expLoop (fuel + 1) node ⟨a :: t, E⟩ =
            expLoop fuel
              (some (.binaryExpression a.value (optAST node) (optAST right))) s2 := by
          rw [e1, hPA]
        rw [e2]
        have hA := ihPrim ⟨t, E⟩
        rw [hPA] at hA
        obtain ⟨hg1, hs1, hna1, hwf1⟩ := hA
        have hL := ihExpL (some (.binaryExpression a.value (optAST node) (optAST right))) s2
        rcases hres : expLoop fuel
            (some (.binaryExpression a.value (optAST node) (optAST right))) s2
          with ⟨r, s3⟩ | s3 | _
        · rw [hres] at hL
          obtain ⟨hg2, hs2, hna2, hwf2⟩ := hL
          refine ⟨errsGrow_trans (errsGrow_trans (errsGrow_cons a t E) hg1) hg2,
            restSuffix_trans (restSuffix_trans (restSuffix_cons a t E) hs1) hs2, ?_, ?_⟩
          · intro hnn
            apply hna2
            simp only [noAssignO, optAST_some, containsAssignment]
            simp only [noAssignO] at hnn hna1
            simp [hnn, hna1]
          · intro htk herr hwfn
            have hS2 : s2.errors = E := errsGrow_squeeze hg1 hg2 herr
            have htk2 : tokensWF ⟨t, E⟩ := fun x hx => htk x (List.mem_cons_of_mem a hx)
            have hwfr : wfAtO 1 right := hwf1 htk2 hS2
            have hta : tokenWF a = true := htk a (List.mem_cons_self a t)
            obtain ⟨aty, av⟩ := a
            have hv : av = "^" := powTok_value hty hta
            obtain ⟨hbin, hov⟩ := powOp_facts hv
            obtain ⟨nt, hnt, hsnt, hlnt⟩ := hwfn
            obtain ⟨rt, hrt, hsrt, hlrt⟩ := hwfr
            have hlrtb : lvl rt + 1 ≤ 2 := by omega
            apply hwf2 (tokensWF_mono htk2 hs1) (by rw [herr, hS2])
            refine ⟨.binaryExpression av (optAST node) (optAST right), rfl, ?_,
              by simp [lvl, hov]⟩
            rw [hnt, hrt]
            simp only [optAST_some]
            simp [shapeB, hbin, hov, hsnt, hsrt, hlnt, hlrtb]
        · rw [hres] at hL
          obtain ⟨hg2, hs2⟩ := hL
          exact ⟨errsGrow_trans (errsGrow_trans (errsGrow_cons a t E) hg1) hg2,
            restSuffix_trans (restSuffix_trans (restSuffix_cons a t E) hs1) hs2⟩
        · trivial
      · have e2 : expLoop (fuel + 1) node ⟨a :: t, E⟩ = .exn s2 := by
          rw [e1, hPA]
        rw [e2]
        have hA := ihPrim ⟨t, E⟩
        rw [hPA] at hA
        obtain ⟨hg1, hs1⟩ := hA
        exact ⟨errsGrow_trans (errsGrow_cons a t E) hg1,
          restSuffix_trans (restSuffix_cons a t E) hs1⟩
      · have e2 : expLoop (fuel + 1) node ⟨a :: t, E⟩ = .out := by
          rw [e1, hPA]
        rw [e2]
        trivial
  · have e1 : expLoop (fuel + 1) node ⟨rest, E⟩ = .ok node ⟨rest, E⟩ := by
      simp only [expLoop]
      rw [if_neg hc]
    rw [e1]
    exact ⟨errsGrow_rfl _, restSuffix_rfl _, fun h => h, fun _ _ h => h⟩

theorem compStep (fuel : Nat)
    (ihAdd : ∀ s, PostA 4 s (parseAdditive fuel s))
    (ihCompL : ∀ node s, PostLoop 5 node s (compLoop fuel node s) ∧
      okPeekNC (compLoop fuel node s)) :
    ∀ s, PostA 5 s (parseComparison (fuel + 1) s) ∧
      okPeekNC (parseComparison (fuel + 1) s) := by
  intro s
  have e1 : parseComparison (fuel + 1) s =
      match parseAdditive fuel s with
      | .ok node s1 => compLoop fuel node s1
      | .exn s1 => .exn s1
      | .out => .out := by
    simp only [parseComparison]
  rcases hPA : parseAdditive fuel s with ⟨node, s1⟩ | s1 | _
  · have e2 : parseComparison (fuel + 1) s = compLoop fuel node s1 := by
      rw [e1, hPA]
    rw [e2]
    have hA := ihAdd s
    rw [hPA] at hA
    obtain ⟨hg1, hs1x, hna1, hwf1⟩ := hA
    obtain ⟨hL, hpk⟩ := ihCompL node s1
    refine ⟨?_, hpk⟩
    rcases hres : compLoop fuel node s1 with ⟨r, s3⟩ | s3 | _
    · rw [hres] at hL
      obtain ⟨hg2, hs2, hna2, hwf2⟩ := hL
      refine ⟨errsGrow_trans hg1 hg2, restSuffix_trans hs1x hs2, hna2 hna1, ?_⟩
      intro htk herr
      have hS1 : s1.errors = s.errors := errsGrow_squeeze hg1 hg2 herr
      exact hwf2 (tokensWF_mono htk hs1x) (by rw [herr, hS1])
        (wfAtO_mono (by omega) (hwf1 htk hS1))
    · rw [hres] at hL
      obtain ⟨hg2, hs2⟩ := hL
      exact ⟨errsGrow_trans hg1 hg2, restSuffix_trans hs1x hs2⟩
    · trivial
  · have e2 : parseComparison (fuel + 1) s = .exn s1 := by
      rw [e1, hPA]
    rw [e2]
    have hA := ihAdd s
    rw [hPA] at hA
    exact ⟨hA, trivial⟩
  · have e2 : parseComparison (fuel + 1) s = .out := by
      rw [e1, hPA]
    rw [e2]
    exact ⟨trivial, trivial⟩

theorem addStep (fuel : Nat)
    (ihSub : ∀ s, PostA 3 s (parseTerm fuel s))
    (ihLoop : ∀ node s, PostLoop 4 node s (addLoop fuel node s)) :
    ∀ s, PostA 4 s (parseAdditive (fuel + 1) s) := by
  intro s
  have e1 : parseAdditive (fuel + 1) s =
      match parseTerm fuel s with
      | .ok node s1 => addLoop fuel node s1
      | .exn s1 => .exn s1
      | .out => .out := by
    simp only [parseAdditive]
  rcases hPA : parseTerm fuel s with ⟨node, s1⟩ | s1 | _
  · have e2 : parseAdditive (fuel + 1) s = addLoop fuel node s1 := by
      rw [e1, hPA]
    rw [e2]
    have hA := ihSub s
    rw [hPA] at hA
    obtain ⟨hg1, hs1x, hna1, hwf1⟩ := hA
    have hL := ihLoop node s1
    rcases hres : addLoop fuel node s1 with ⟨r, s3⟩ | s3 | _
    · rw [hres] at hL
      obtain ⟨hg2, hs2, hna2, hwf2⟩ := hL
      refine ⟨errsGrow_trans hg1 hg2, restSuffix_trans hs1x hs2, hna2 hna1, ?_⟩
      intro htk herr
      have hS1 : s1.errors = s.errors := errsGrow_squeeze hg1 hg2 herr
      exact hwf2 (tokensWF_mono htk hs1x) (by rw [herr, hS1])
        (wfAtO_mono (by omega) (hwf1 htk hS1))
    · rw [hres] at hL
      obtain ⟨hg2, hs2⟩ := hL
      exact ⟨errsGrow_trans hg1 hg2, restSuffix_trans hs1x hs2⟩
    · trivial
  · have e2 : parseAdditive (fuel + 1) s = .exn s1 := by
      rw [e1, hPA]
    rw [e2]
    have hA := ihSub s
    rw [hPA] at hA
    exact hA
  · have e2 : parseAdditive (fuel + 1) s = .out := by
      rw [e1, hPA]
    rw [e2]
    trivial

theorem termStep (fuel : Nat)
    (ihSub : ∀ s, PostA 2 s (parseExponent fuel s))
    (ihLoop : ∀ node s, PostLoop 3 node s (termLoop fuel node s)) :
    ∀ s, PostA 3 s (parseTerm (fuel + 1) s) := by
  intro s
  have e1 : parseTerm (fuel + 1) s =
      match parseExponent fuel s with
      | .ok node s1 => termLoop fuel node s1
      | .exn s1 => .exn s1
      | .out => .out := by
    simp only [parseTerm]
  rcases hPA : parseExponent fuel s with ⟨node, s1⟩ | s1 | _
  · have e2 : parseTerm (fuel + 1) s = termLoop fuel node s1 := by
      rw [e1, hPA]
    rw [e2]
    have hA := ihSub s
    rw [hPA] at hA
    obtain ⟨hg1, hs1x, hna1, hwf1⟩ := hA
    have hL := ihLoop node s1
    rcases hres : termLoop fuel node s1 with ⟨r, s3⟩ | s3 | _
    · rw [hres] at hL
      obtain ⟨hg2, hs2, hna2, hwf2⟩ := hL
      refine ⟨errsGrow_trans hg1 hg2, restSuffix_trans hs1x hs2, hna2 hna1, ?_⟩
      intro htk herr
      have hS1 : s1.errors = s.errors := errsGrow_squeeze hg1 hg2 herr
      exact hwf2 (tokensWF_mono htk hs1x) (by rw [herr, hS1])
        (wfAtO_mono (by omega) (hwf1 htk hS1))
    · rw [hres] at hL
      obtain ⟨hg2, hs2⟩ := hL
      exact ⟨errsGrow_trans hg1 hg2, restSuffix_trans hs1x hs2⟩
    · trivial
  · have e2 : parseTerm (fuel + 1) s = .exn s1 := by
      rw [e1, hPA]
    rw [e2]
    have hA := ihSub s
    rw [hPA] at hA
    exact hA
  · have e2 : parseTerm (fuel + 1) s = .out := by
      rw [e1, hPA]
    rw [e2]
    trivial

theorem expStep (fuel : Nat)
    (ihSub : ∀ s, PostA 1 s (parsePrimary fuel s))
    (ihLoop : ∀ node s, PostLoop 2 node s (expLoop fuel node s)) :
    ∀ s, PostA 2 s (parseExponent (fuel + 1) s) := by
  intro s
  have e1 : parseExponent (fuel + 1) s =
      match parsePrimary fuel s with
      | .ok node s1 => expLoop fuel node s1
      | .exn s1 => .exn s1
      | .out => .out := by
    simp only [parseExponent]
  rcases hPA : parsePrimary fuel s with ⟨node, s1⟩ | s1 | _
  · have e2 : parseExponent (fuel + 1) s = expLoop fuel node s1 := by
      rw [e1, hPA]
    rw [e2]
    have hA := ihSub s
    rw [hPA] at hA
    obtain ⟨hg1, hs1x, hna1, hwf1⟩ := hA
    have hL := ihLoop node s1
    rcases hres : expLoop fuel node s1 with ⟨r, s3⟩ | s3 | _
    · rw [hres] at hL
      obtain ⟨hg2, hs2, hna2, hwf2⟩ := hL
      refine ⟨errsGrow_trans hg1 hg2, restSuffix_trans hs1x hs2, hna2 hna1, ?_⟩
      intro htk herr
      have hS1 : s1.errors = s.errors := errsGrow_squeeze hg1 hg2 herr
      exact hwf2 (tokensWF_mono htk hs1x) (by rw [herr, hS1])
        (wfAtO_mono (by omega) (hwf1 htk hS1))
    · rw [hres] at hL
      obtain ⟨hg2, hs2⟩ := hL
      exact ⟨errsGrow_trans hg1 hg2, restSuffix_trans hs1x hs2⟩
    · trivial
  · have e2 : parseExponent (fuel + 1) s = .exn s1 := by
      rw [e1, hPA]
    rw [e2]
    have hA := ihSub s
    rw [hPA] at hA
    exact hA
  · have e2 : parseExponent (fuel + 1) s = .out := by
      rw [e1, hPA]
    rw [e2]
    trivial

theorem assignStep (fuel : Nat)
    (ihComp : ∀ s, PostA 5 s (parseComparison fuel s) ∧
      okPeekNC (parseComparison fuel s)) :
    ∀ s, PostA 5 s (parseAssignment (fuel + 1) s) := by
  intro s
  have e1 : parseAssignment (fuel + 1) s =
      match parseComparison fuel s with
      | .ok node s1 =>
        match node with
        | none => .exn s1
        | some n =>
          if isIdentifier n = true ∧ peekType s1 = some TokenType.equals then
            match consume none s1 with
            | (some opTok, s2) =>
              match parseAssignment fuel s2 with
              | .ok right s3 =>
                .ok (some (.assignmentExpression opTok.value n (optAST right))) s3
              | .exn s3 => .exn s3
              | .out => .out
            | (none, s2) => .exn s2
          else .ok (some n) s1
      | .exn s1 => .exn s1
      | .out => .out := by
    simp only [parseAssignment]
  rcases hPC : parseComparison fuel s with ⟨node, s1⟩ | s1 | _
  · obtain ⟨hP, hpk⟩ := ihComp s
    rw [hPC] at hP hpk
    cases node with
    | none =>
      have e2 : parseAssignment (fuel + 1) s = .exn s1 := by
        rw [e1, hPC]
      rw [e2]
      obtain ⟨hg, hs, _, _⟩ := hP
      exact ⟨hg, hs⟩
    | some n =>
      have hguard : ¬(isIdentifier n = true ∧ peekType s1 = some TokenType.equals) := by
        rintro ⟨_, hpeek⟩
        have hpk2 : isCompType (peekType s1) = false := hpk
        rw [hpeek] at hpk2
        exact absurd hpk2 (by decide)
      have e2 : parseAssignment (fuel + 1) s =
          (if isIdentifier n = true ∧ peekType s1 = some TokenType.equals then
            match consume none s1 with
            | (some opTok, s2) =>
              match parseAssignment fuel s2 with
              | .ok right s3 =>
                .ok (some (.assignmentExpression opTok.value n (optAST right))) s3
              | .exn s3 => .exn s3
              | .out => .out
            | (none, s2) => .exn s2
          else .ok (some n) s1) := by
        rw [e1, hPC]
      rw [e2, if_neg hguard]
      exact hP
  · have e2 : parseAssignment (fuel + 1) s = .exn s1 := by
      rw [e1, hPC]
    rw [e2]
    have hA := (ihComp s).1
    rw [hPC] at hA
    exact hA
  · have e2 : parseAssignment (fuel + 1) s = .out := by
      rw [e1, hPC]
    rw [e2]
    trivial

theorem exprStep (fuel : Nat)
    (ihAssign : ∀ s, PostA 5 s (parseAssignment fuel s)) :
    ∀ s, PostA 5 s (parseExpression (fuel + 1) s) := by
  intro s
  have e1 : parseExpression (fuel + 1) s = parseAssignment fuel s := by
    simp only [parseExpression]
  rw [e1]
  exact ihAssign s

theorem matClose_post (row : ASTList) (rows : ASTRows) (s : PState) :
    PostMat row rows s (matClose row rows s) := by
  have e1 : matClose row rows s =
      .ok (some (.matrixExpression
        (match row with | .nil => rows | _ => rows.push row)))
        (consume (some TokenType.rbrace) s).2 := rfl
  rw [e1]
  obtain ⟨hg, hs⟩ := consume_grow (some TokenType.rbrace) s
  refine ⟨hg, hs, ?_, ?_⟩
  · intro hrow hrows
    simp only [noAssignO, optAST_some, containsAssignment]
    cases row with
    | nil => exact hrows
    | cons a t =>
      rw [containsAssignmentRows_push]
      simp [hrows, hrow]
  · intro _ _ hrowS hrowsS
    cases row with
    | nil =>
      exact ⟨.matrixExpression rows, rfl, by simpa [shapeB] using hrowsS, by simp [lvl]⟩
    | cons a t =>
      refine ⟨.matrixExpression (rows.push (.cons a t)), rfl, ?_, by simp [lvl]⟩
      simp only [shapeB]
      rw [shapeBR_push]
      simp [hrowsS, hrowS]

theorem matLoopStep (fuel : Nat)
    (ihExpr : ∀ s, PostA 5 s (parseExpression fuel s))
    (ihMatL : ∀ row rows s, PostMat row rows s (matLoop fuel row rows s)) :
    ∀ row rows s, PostMat row rows s (matLoop (fuel + 1) row rows s) := by
  intro row rows s
  obtain ⟨rest, E⟩ := s
  cases rest with
  | nil =>
    have e1 : matLoop (fuel + 1) row rows ⟨[], E⟩ = matClose row rows ⟨[], E⟩ := rfl
    rw [e1]
    exact matClose_post row rows ⟨[], E⟩
  | cons a t =>
    by_cases hrb : a.type = TokenType.rbrace
    · have e1 : matLoop (fuel + 1) row rows ⟨a :: t, E⟩ = matClose row rows ⟨a :: t, E⟩ := by
        simp only [matLoop, peekT, List.head?]
        rw [if_pos hrb]
      rw [e1]
      exact matClose_post row rows ⟨a :: t, E⟩
    · by_cases hcm : a.type = TokenType.comma
      · have e1 : matLoop (fuel + 1) row rows ⟨a :: t, E⟩ =
            match parseExpression fuel ⟨t, E⟩ with
            | .ok e s2 => matLoop fuel (row.append (.cons (optAST e) .nil)) rows s2
            | .exn s2 => .exn s2
            | .out => .out := by
          simp only [matLoop, peekT, List.head?]
          rw [if_neg hrb, if_pos hcm, consume_exp_cons_eq t E hcm]
        rcases hPE : parseExpression fuel ⟨t, E⟩ with ⟨e, s2⟩ | s2 | _
        · have e2 : matLoop (fuel + 1) row rows ⟨a :: t, E⟩ =
              matLoop fuel (row.append (.cons (optAST e) .nil)) rows s2 := by
            rw [e1, hPE]
          rw [e2]
          have hA := ihExpr ⟨t, E⟩
          rw [hPE] at hA
          obtain ⟨hg1, hs1, hna1, hwf1⟩ := hA
          have hL := ihMatL (row.append (.cons (optAST e) .nil)) rows s2
          rcases hres : matLoop fuel (row.append (.cons (optAST e) .nil)) rows s2
            with ⟨r, s3⟩ | s3 | _
          · rw [hres] at hL
            obtain ⟨hg2, hs2, hna2, hwf2⟩ := hL
            refine ⟨errsGrow_trans (errsGrow_trans (errsGrow_cons a t E) hg1) hg2,
              restSuffix_trans (restSuffix_trans (restSuffix_cons a t E) hs1) hs2, ?_, ?_⟩
            · intro hrow hrows
              apply hna2 ?_ hrows
              rw [containsAssignmentList_append]
              simp only [noAssignO] at hna1
              simp [containsAssignmentList, hrow, hna1]
            · intro htk herr hrowS hrowsS
              have hS2 : s2.errors = E := errsGrow_squeeze hg1 hg2 herr
              have htk2 : tokensWF ⟨t, E⟩ := fun x hx => htk x (List.mem_cons_of_mem a hx)
              have hwfe : wfAtO 5 e := hwf1 htk2 hS2
              obtain ⟨et, het, hset, hlet⟩ := hwfe
              apply hwf2 (tokensWF_mono htk2 hs1) (by rw [herr, hS2]) ?_ hrowsS
              rw [shapeBL_append, het]
              simp only [shapeBL, optAST_some]
              simp [hrowS, hset, hlet]
          · rw [hres] at hL
            obtain ⟨hg2, hs2⟩ := hL
            exact ⟨errsGrow_trans (errsGrow_trans (errsGrow_cons a t E) hg1) hg2,
              restSuffix_trans (restSuffix_trans (restSuffix_cons a t E) hs1) hs2⟩
          · trivial
        · have e2 : matLoop (fuel + 1) row rows ⟨a :: t, E⟩ = .exn s2 := by
            rw [e1, hPE]
          rw [e2]
          have hA := ihExpr ⟨t, E⟩
          rw [hPE] at hA
          obtain ⟨hg1, hs1⟩ := hA
          exact ⟨errsGrow_trans (errsGrow_cons a t E) hg1,
            restSuffix_trans (restSuffix_cons a t E) hs1⟩
        · have e2 : matLoop (fuel + 1) row rows ⟨a :: t, E⟩ = .out := by
            rw [e1, hPE]
          rw [e2]
          trivial
      · by_cases hsc : a.type = TokenType.semicolon
        · have e1 : matLoop (fuel + 1) row rows ⟨a :: t, E⟩ =
              match parseExpression fuel ⟨t, E⟩ with
              | .ok e s2 => matLoop fuel (.cons (optAST e) .nil) (rows.push row) s2
              | .exn s2 => .exn s2
              | .out => .out := by
            simp only [matLoop, peekT, List.head?]
            rw [if_neg hrb, if_neg hcm, if_pos hsc, consume_exp_cons_eq t E hsc]
          rcases hPE : parseExpression fuel ⟨t, E⟩ with ⟨e, s2⟩ | s2 | _
          · have e2 : matLoop (fuel + 1) row rows ⟨a :: t, E⟩ =
                matLoop fuel (.cons (optAST e) .nil) (rows.push row) s2 := by
              rw [e1, hPE]
            rw [e2]
            have hA := ihExpr ⟨t, E⟩
            rw [hPE] at hA
            obtain ⟨hg1, hs1, hna1, hwf1⟩ := hA
            have hL := ihMatL (.cons (optAST e) .nil) (rows.push row) s2
            rcases hres : matLoop fuel (.cons (optAST e) .nil) (rows.push row) s2
              with ⟨r, s3⟩ | s3 | _
            · rw [hres] at hL
              obtain ⟨hg2, hs2, hna2, hwf2⟩ := hL
              refine ⟨errsGrow_trans (errsGrow_trans (errsGrow_cons a t E) hg1) hg2,
                restSuffix_trans (restSuffix_trans (restSuffix_cons a t E) hs1) hs2, ?_, ?_⟩
              · intro hrow hrows
                apply hna2 ?_ ?_
                · simp only [noAssignO] at hna1
                  simp [containsAssignmentList, hna1]
                · rw [containsAssignmentRows_push]
                  simp [hrows, hrow]
              · intro htk herr hrowS hrowsS
                have hS2 : s2.errors = E := errsGrow_squeeze hg1 hg2 herr
                have htk2 : tokensWF ⟨t, E⟩ := fun x hx => htk x (List.mem_cons_of_mem a hx)
                have hwfe : wfAtO 5 e := hwf1 htk2 hS2
                obtain ⟨et, het, hset, hlet⟩ := hwfe
                apply hwf2 (tokensWF_mono htk2 hs1) (by rw [herr, hS2]) ?_ ?_
                · rw [het]
                  simp only [shapeBL, optAST_some]
                  simp [hset, hlet]
                · rw [shapeBR_push]
                  simp [hrowsS, hrowS]
            · rw [hres] at hL
              obtain ⟨hg2, hs2⟩ := hL
              exact ⟨errsGrow_trans (errsGrow_trans (errsGrow_cons a t E) hg1) hg2,
                restSuffix_trans (restSuffix_trans (restSuffix_cons a t E) hs1) hs2⟩
            · trivial
          · have e2 : matLoop (fuel + 1) row rows ⟨a :: t, E⟩ = .exn s2 := by
              rw [e1, hPE]
            rw [e2]
            have hA := ihExpr ⟨t, E⟩
            rw [hPE] at hA
            obtain ⟨hg1, hs1⟩ := hA
            exact ⟨errsGrow_trans (errsGrow_cons a t E) hg1,
              restSuffix_trans (restSuffix_cons a t E) hs1⟩
          · have e2 : matLoop (fuel + 1) row rows ⟨a :: t, E⟩ = .out := by
              rw [e1, hPE]
            rw [e2]
            trivial
        · have e1 : matLoop (fuel + 1) row rows ⟨a :: t, E⟩ =
              matLoop fuel row rows
                ⟨t, E ++ [("行列内で予期せぬトークンです: " ++ a.type.str) ++ " トークン: " ++
                  a.value ++ " (" ++ a.type.str ++ ")"]⟩ := by
            simp only [matLoop, peekT, List.head?]
            rw [if_neg hrb, if_neg hcm, if_neg hsc, addError_cons, consume_none_cons]
          rw [e1]
          have hL := ihMatL row rows
            ⟨t, E ++ [("行列内で予期せぬトークンです: " ++ a.type.str) ++ " トークン: " ++
              a.value ++ " (" ++ a.type.str ++ ")"]⟩
          rcases hres : matLoop fuel row rows
              ⟨t, E ++ [("行列内で予期せぬトークンです: " ++ a.type.str) ++ " トークン: " ++
                a.value ++ " (" ++ a.type.str ++ ")"]⟩
            with ⟨r, s3⟩ | s3 | _
          · rw [hres] at hL
            obtain ⟨hg2, hs2, hna2, hwf2⟩ := hL
            refine ⟨errsGrow_trans ⟨_, rfl⟩ hg2,
              restSuffix_trans (restSuffix_cons a t E) hs2, hna2, ?_⟩
            intro htk herr hrowS hrowsS
            obtain ⟨es, hes⟩ := hg2
            rw [herr] at hes
            exact absurd hes.symm errs_append_ne
          · rw [hres] at hL
            obtain ⟨hg2, hs2⟩ := hL
            exact ⟨errsGrow_trans ⟨_, rfl⟩ hg2, restSuffix_trans (restSuffix_cons a t E) hs2⟩
          · trivial

theorem commaStep (fuel : Nat)
    (ihExpr : ∀ s, PostA 5 s (parseExpression fuel s))
    (ihComma : ∀ s, PostL s (commaItems fuel s)) :
    ∀ s, PostL s (commaItems (fuel + 1) s) := by
  intro s
  by_cases hc : peekType s = some TokenType.comma
  · have e1 : commaItems (fuel + 1) s =
        match parseExpression fuel (consume (some TokenType.comma) s).2 with
        | .ok e s2 =>
          match commaItems fuel s2 with
          | .ok es s3 => .ok (.cons (optAST e) es) s3
          | .exn s3 => .exn s3
          | .out => .out
        | .exn s2 => .exn s2
        | .out => .out := by
      simp only [commaItems]
      rw [if_pos hc]
    obtain ⟨hg0, hs0⟩ := consume_grow (some TokenType.comma) s
    rcases hPE : parseExpression fuel (consume (some TokenType.comma) s).2
      with ⟨e, s2⟩ | s2 | _
    · have hA := ihExpr (consume (some TokenType.comma) s).2
      rw [hPE] at hA
      obtain ⟨hg1, hs1, hna1, hwf1⟩ := hA
      have e1b : commaItems (fuel + 1) s =
          match commaItems fuel s2 with
          | .ok es s3 => .ok (.cons (optAST e) es) s3
          | .exn s3 => .exn s3
          | .out => .out := by
        rw [e1, hPE]
      rcases hR : commaItems fuel s2 with ⟨es, s3⟩ | s3 | _
      · have e2 : commaItems (fuel + 1) s = .ok (.cons (optAST e) es) s3 := by
          rw [e1b, hR]
        rw [e2]
        have hL := ihComma s2
        rw [hR] at hL
        obtain ⟨hg2, hs2, hna2, hwf2⟩ := hL
        refine ⟨errsGrow_trans (errsGrow_trans hg0 hg1) hg2,
          restSuffix_trans (restSuffix_trans hs0 hs1) hs2, ?_, ?_⟩
        · simp only [noAssignO] at hna1
          simp [containsAssignmentList, hna1, hna2]
        · intro htk herr
          have hS2 : s2.errors = s.errors :=
            errsGrow_squeeze (errsGrow_trans hg0 hg1) hg2 herr
          have hSc : (consume (some TokenType.comma) s).2.errors = s.errors :=
            errsGrow_squeeze hg0 hg1 hS2
          have hwfe : wfAtO 5 e := hwf1 (tokensWF_mono htk hs0) (by rw [hS2, hSc])
          have hses : shapeBL es = true :=
            hwf2 (tokensWF_mono (tokensWF_mono htk hs0) hs1) (by rw [herr, hS2])
          obtain ⟨et, het, hset, hlet⟩ := hwfe
          rw [het]
          simp only [shapeBL, optAST_some]
          simp [hses, hset, hlet]
      · have e2 : commaItems (fuel + 1) s = .exn s3 := by
          rw [e1b, hR]
        rw [e2]
        have hL := ihComma s2
        rw [hR] at hL
        obtain ⟨hg2, hs2⟩ := hL
        exact ⟨errsGrow_trans (errsGrow_trans hg0 hg1) hg2,
          restSuffix_trans (restSuffix_trans hs0 hs1) hs2⟩
      · have e2 : commaItems (fuel + 1) s = .out := by
          rw [e1b, hR]
        rw [e2]
        trivial
    · have e2 : commaItems (fuel + 1) s = .exn s2 := by
        rw [e1, hPE]
      rw [e2]
      have hA := ihExpr (consume (some TokenType.comma) s).2
      rw [hPE] at hA
      obtain ⟨hg1, hs1⟩ := hA
      exact ⟨errsGrow_trans hg0 hg1, restSuffix_trans hs0 hs1⟩
    · have e2 : commaItems (fuel + 1) s = .out := by
        rw [e1, hPE]
      rw [e2]
      trivial
  · have e1 : commaItems (fuel + 1) s = .ok .nil s := by
      simp only [commaItems]
      rw [if_neg hc]
    rw [e1]
    exact ⟨errsGrow_rfl _, restSuffix_rfl _, rfl, fun _ _ => rfl⟩

theorem braceStep (fuel : Nat)
    (ihExpr : ∀ s, PostA 5 s (parseExpression fuel s))
    (ihBrace : ∀ s, PostL s (braceArgs fuel s)) :
    ∀ s, PostL s (braceArgs (fuel + 1) s) := by
  intro s
  by_cases hc : peekType s = some TokenType.lbrace
  · have e1 : braceArgs (fuel + 1) s =
        match parseExpression fuel (consume (some TokenType.lbrace) s).2 with
        | .ok a s2 =>
          match braceArgs fuel (consume (some TokenType.rbrace) s2).2 with
          | .ok args s3 => .ok (.cons (optAST a) args) s3
          | .exn s3 => .exn s3
          | .out => .out
        | .exn s2 => .exn s2
        | .out => .out := by
      simp only [braceArgs]
      rw [if_pos hc]
    obtain ⟨hg0, hs0⟩ := consume_grow (some TokenType.lbrace) s
    rcases hPE : parseExpression fuel (consume (some TokenType.lbrace) s).2
      with ⟨a, s2⟩ | s2 | _
    · have hA := ihExpr (consume (some TokenType.lbrace) s).2
      rw [hPE] at hA
      obtain ⟨hg1, hs1, hna1, hwf1⟩ := hA
      obtain ⟨hgr, hsr⟩ := consume_grow (some TokenType.rbrace) s2
      have e1b : braceArgs (fuel + 1) s =
          match braceArgs fuel (consume (some TokenType.rbrace) s2).2 with
          | .ok args s3 => .ok (.cons (optAST a) args) s3
          | .exn s3 => .exn s3
          | .out => .out := by
        rw [e1, hPE]
      rcases hR : braceArgs fuel (consume (some TokenType.rbrace) s2).2
        with ⟨args, s3⟩ | s3 | _
      · have e2 : braceArgs (fuel + 1) s = .ok (.cons (optAST a) args) s3 := by
          rw [e1b, hR]
        rw [e2]
        have hL := ihBrace (consume (some TokenType.rbrace) s2).2
        rw [hR] at hL
        obtain ⟨hg2, hs2, hna2, hwf2⟩ := hL
        refine ⟨errsGrow_trans (errsGrow_trans (errsGrow_trans hg0 hg1) hgr) hg2,
          restSuffix_trans (restSuffix_trans (restSuffix_trans hs0 hs1) hsr) hs2, ?_, ?_⟩
        · simp only [noAssignO] at hna1
          simp [containsAssignmentList, hna1, hna2]
        · intro htk herr
          have h1 : (consume (some TokenType.rbrace) s2).2.errors = s.errors :=
            errsGrow_squeeze (errsGrow_trans (errsGrow_trans hg0 hg1) hgr) hg2 herr
          have h2 : s2.errors = s.errors :=
            errsGrow_squeeze (errsGrow_trans hg0 hg1) hgr h1
          have h3 : (consume (some TokenType.lbrace) s).2.errors = s.errors :=
            errsGrow_squeeze hg0 hg1 h2
          have hwfe : wfAtO 5 a := hwf1 (tokensWF_mono htk hs0) (by rw [h2, h3])
          have hses : shapeBL args = true :=
            hwf2 (tokensWF_mono (tokensWF_mono (tokensWF_mono htk hs0) hs1) hsr)
              (by rw [herr, h1])
          obtain ⟨et, het, hset, hlet⟩ := hwfe
          rw [het]
          simp only [shapeBL, optAST_some]
          simp [hses, hset, hlet]
      · have e2 : braceArgs (fuel + 1) s = .exn s3 := by
          rw [e1b, hR]
        rw [e2]
        have hL := ihBrace (consume (some TokenType.rbrace) s2).2
        rw [hR] at hL
        obtain ⟨hg2, hs2⟩ := hL
        exact ⟨errsGrow_trans (errsGrow_trans (errsGrow_trans hg0 hg1) hgr) hg2,
          restSuffix_trans (restSuffix_trans (restSuffix_trans hs0 hs1) hsr) hs2⟩
      · have e2 : braceArgs (fuel + 1) s = .out := by
          rw [e1b, hR]
        rw [e2]
        trivial
    · have e2 : braceArgs (fuel + 1) s = .exn s2 := by
        rw [e1, hPE]
      rw [e2]
      have hA := ihExpr (consume (some TokenType.lbrace) s).2
      rw [hPE] at hA
      obtain ⟨hg1, hs1⟩ := hA
      exact ⟨errsGrow_trans hg0 hg1, restSuffix_trans hs0 hs1⟩
    · have e2 : braceArgs (fuel + 1) s = .out := by
        rw [e1, hPE]
      rw [e2]
      trivial
  · have e1 : braceArgs (fuel + 1) s = .ok .nil s := by
      simp only [braceArgs]
      rw [if_neg hc]
    rw [e1]
    exact ⟨errsGrow_rfl _, restSuffix_rfl _, rfl, fun _ _ => rfl⟩

theorem arrStep (fuel : Nat)
    (ihExpr : ∀ s, PostA 5 s (parseExpression fuel s))
    (ihComma : ∀ s, PostL s (commaItems fuel s)) :
    ∀ s, PostA 1 s (parseArrayExpression (fuel + 1) s) := by
  intro s
  obtain ⟨hg0, hs0⟩ := consume_grow (some TokenType.lbracket) s
  by_cases hc : peekType (consume (some TokenType.lbracket) s).2 = some TokenType.rbracket
  · have e1 : parseArrayExpression (fuel + 1) s =
        .ok (some (.arrayExpression .nil))
          (consume (some TokenType.rbracket) (consume (some TokenType.lbracket) s).2).2 := by
      simp only [parseArrayExpression]
      rw [if_pos hc]
    rw [e1]
    obtain ⟨hg1, hs1⟩ :=
      consume_grow (some TokenType.rbracket) (consume (some TokenType.lbracket) s).2
    refine ⟨errsGrow_trans hg0 hg1, restSuffix_trans hs0 hs1, rfl, ?_⟩
    intro _ _
    exact ⟨.arrayExpression .nil, rfl, rfl, by simp [lvl]⟩
  · have e1 : parseArrayExpression (fuel + 1) s =
        match parseExpression fuel (consume (some TokenType.lbracket) s).2 with
        | .ok e s2 =>
          match commaItems fuel s2 with
          | .ok es s3 =>
            .ok (some (.arrayExpression (.cons (optAST e) es)))
              (consume (some TokenType.rbracket) s3).2
          | .exn s3 => .exn s3
          | .out => .out
        | .exn s2 => .exn s2
        | .out => .out := by
      simp only [parseArrayExpression]
      rw [if_neg hc]
    rcases hPE : parseExpression fuel (consume (some TokenType.lbracket) s).2
      with ⟨e, s2⟩ | s2 | _
    · have hA := ihExpr (consume (some TokenType.lbracket) s).2
      rw [hPE] at hA
      obtain ⟨hg1, hs1, hna1, hwf1⟩ := hA
      have e1b : parseArrayExpression (fuel + 1) s =
          match commaItems fuel s2 with
          | .ok es s3 =>
            .ok (some (.arrayExpression (.cons (optAST e) es)))
              (consume (some TokenType.rbracket) s3).2
          | .exn s3 => .exn s3
          | .out => .out := by
        rw [e1, hPE]
      rcases hR : commaItems fuel s2 with ⟨es, s3⟩ | s3 | _
      · have e2 : parseArrayExpression (fuel + 1) s =
            .ok (some (.arrayExpression (.cons (optAST e) es)))
              (consume (some TokenType.rbracket) s3).2 := by
          rw [e1b, hR]
        rw [e2]
        have hL := ihComma s2
        rw [hR] at hL
        obtain ⟨hg2, hs2, hna2, hwf2⟩ := hL
        obtain ⟨hg3, hs3⟩ := consume_grow (some TokenType.rbracket) s3
        refine ⟨errsGrow_trans (errsGrow_trans (errsGrow_trans hg0 hg1) hg2) hg3,
          restSuffix_trans (restSuffix_trans (restSuffix_trans hs0 hs1) hs2) hs3, ?_, ?_⟩
        · simp only [noAssignO, optAST_some, containsAssignment]
          simp only [noAssignO] at hna1
          simp [containsAssignmentList, hna1, hna2]
        · intro htk herr
          have h1 : s3.errors = s.errors :=
            errsGrow_squeeze (errsGrow_trans (errsGrow_trans hg0 hg1) hg2) hg3 herr
          have h2 : s2.errors = s.errors :=
            errsGrow_squeeze (errsGrow_trans hg0 hg1) hg2 h1
          have h3 : (consume (some TokenType.lbracket) s).2.errors = s.errors :=
            errsGrow_squeeze hg0 hg1 h2
          have hwfe : wfAtO 5 e := hwf1 (tokensWF_mono htk hs0) (by rw [h2, h3])
          have hses : shapeBL es = true :=
            hwf2 (tokensWF_mono (tokensWF_mono htk hs0) hs1) (by rw [h1, h2])
          obtain ⟨et, het, hset, hlet⟩ := hwfe
          refine ⟨.arrayExpression (.cons (optAST e) es), rfl, ?_, by simp [lvl]⟩
          rw [het]
          simp only [shapeB, shapeBL, optAST_some]
          simp [hses, hset, hlet]
      · have e2 : parseArrayExpression (fuel + 1) s = .exn s3 := by
          rw [e1b, hR]
        rw [e2]
        have hL := ihComma s2
        rw [hR] at hL
        obtain ⟨hg2, hs2⟩ := hL
        exact ⟨errsGrow_trans (errsGrow_trans hg0 hg1) hg2,
          restSuffix_trans (restSuffix_trans hs0 hs1) hs2⟩
      · have e2 : parseArrayExpression (fuel + 1) s = .out := by
          rw [e1b, hR]
        rw [e2]
        trivial
    · have e2 : parseArrayExpression (fuel + 1) s = .exn s2 := by
        rw [e1, hPE]
      rw [e2]
      have hA := ihExpr (consume (some TokenType.lbracket) s).2
      rw [hPE] at hA
      obtain ⟨hg1, hs1⟩ := hA
      exact ⟨errsGrow_trans hg0 hg1, restSuffix_trans hs0 hs1⟩
    · have e2 : parseArrayExpression (fuel + 1) s = .out := by
        rw [e1, hPE]
      rw [e2]
      trivial

theorem matStep (fuel : Nat)
    (ihExpr : ∀ s, PostA 5 s (parseExpression fuel s))
    (ihMatL : ∀ row rows s, PostMat row rows s (matLoop fuel row rows s)) :
    ∀ s, PostA 1 s (parseMatrixExpression (fuel + 1) s) := by
  intro s
  obtain ⟨hg0, hs0⟩ := consume_grow (some TokenType.lbrace) s
  by_cases hc : peekType (consume (some TokenType.lbrace) s).2 = some TokenType.rbrace
  · have e1 : parseMatrixExpression (fuel + 1) s =
        .ok (some (.matrixExpression .rnil))
          (consume (some TokenType.rbrace) (consume (some TokenType.lbrace) s).2).2 := by
      simp only [parseMatrixExpression]
      rw [if_pos hc]
    rw [e1]
    obtain ⟨hg1, hs1⟩ :=
      consume_grow (some TokenType.rbrace) (consume (some TokenType.lbrace) s).2
    refine ⟨errsGrow_trans hg0 hg1, restSuffix_trans hs0 hs1, rfl, ?_⟩
    intro _ _
    exact ⟨.matrixExpression .rnil, rfl, rfl, by simp [lvl]⟩
  · have e1 : parseMatrixExpression (fuel + 1) s =
        match parseExpression fuel (consume (some TokenType.lbrace) s).2 with
        | .ok e s2 => matLoop fuel (.cons (optAST e) .nil) .rnil s2
        | .exn s2 => .exn s2
        | .out => .out := by
      simp only [parseMatrixExpression]
      rw [if_neg hc]
    rcases hPE : parseExpression fuel (consume (some TokenType.lbrace) s).2
      with ⟨e, s2⟩ | s2 | _
    · have e2 : parseMatrixExpression (fuel + 1) s =
          matLoop fuel (.cons (optAST e) .nil) .rnil s2 := by
        rw [e1, hPE]
      rw [e2]
      have hA := ihExpr (consume (some TokenType.lbrace) s).2
      rw [hPE] at hA
      obtain ⟨hg1, hs1, hna1, hwf1⟩ := hA
      have hL := ihMatL (.cons (optAST e) .nil) .rnil s2
      rcases hres : matLoop fuel (.cons (optAST e) .nil) .rnil s2 with ⟨r, s3⟩ | s3 | _
      · rw [hres] at hL
        obtain ⟨hg2, hs2, hna2, hwf2⟩ := hL
        refine ⟨errsGrow_trans (errsGrow_trans hg0 hg1) hg2,
          restSuffix_trans (restSuffix_trans hs0 hs1) hs2, ?_, ?_⟩
        · apply hna2 ?_ rfl
          simp only [noAssignO] at hna1
          simp [containsAssignmentList, hna1]
        · intro htk herr
          have h2 : s2.errors = s.errors :=
            errsGrow_squeeze (errsGrow_trans hg0 hg1) hg2 herr
          have h3 : (consume (some TokenType.lbrace) s).2.errors = s.errors :=
            errsGrow_squeeze hg0 hg1 h2
          have hwfe : wfAtO 5 e := hwf1 (tokensWF_mono htk hs0) (by rw [h2, h3])
          obtain ⟨et, het, hset, hlet⟩ := hwfe
          apply hwf2 (tokensWF_mono (tokensWF_mono htk hs0) hs1) (by rw [herr, h2]) ?_ rfl
          rw [het]
          simp only [shapeBL, optAST_some]
          simp [hset, hlet]
      · rw [hres] at hL
        obtain ⟨hg2, hs2⟩ := hL
        exact ⟨errsGrow_trans (errsGrow_trans hg0 hg1) hg2,
          restSuffix_trans (restSuffix_trans hs0 hs1) hs2⟩
      · trivial
    · have e2 : parseMatrixExpression (fuel + 1) s = .exn s2 := by
        rw [e1, hPE]
      rw [e2]
      have hA := ihExpr (consume (some TokenType.lbrace) s).2
      rw [hPE] at hA
      obtain ⟨hg1, hs1⟩ := hA
      exact ⟨errsGrow_trans hg0 hg1, restSuffix_trans hs0 hs1⟩
    · have e2 : parseMatrixExpression (fuel + 1) s = .out := by
        rw [e1, hPE]
      rw [e2]
      trivial

theorem fracStep (fuel : Nat)
    (ihExpr : ∀ s, PostA 5 s (parseExpression fuel s)) :
    ∀ s, PostA 1 s (parseFracCommand (fuel + 1) s) := by
  intro s
  by_cases hc : peekType s = some TokenType.lbrace
  · have e1 : parseFracCommand (fuel + 1) s =
        match parseExpression fuel (consume (some TokenType.lbrace) s).2 with
        | .ok numerator s2 =>
          if peekType (consume (some TokenType.rbrace) s2).2 = some TokenType.lbrace then
            match parseExpression fuel
                (consume (some TokenType.lbrace) (consume (some TokenType.rbrace) s2).2).2 with
            | .ok denominator s3 =>
              .ok (some (.functionCall "\\frac"
                (.cons (optAST numerator) (.cons (optAST denominator) .nil))))
                (consume (some TokenType.rbrace) s3).2
            | .exn s3 => .exn s3
            | .out => .out
          else
            .ok none (addError "\\frac コマンドの分母が見つかりません。\x7b式\x7d の形式が必要です。"
              (consume (some TokenType.rbrace) s2).2)
        | .exn s2 => .exn s2
        | .out => .out := by
      simp only [parseFracCommand]
      rw [if_pos hc]
    obtain ⟨hg0, hs0⟩ := consume_grow (some TokenType.lbrace) s
    rcases hPE : parseExpression fuel (consume (some TokenType.lbrace) s).2
      with ⟨num, s2⟩ | s2 | _
    · have hA := ihExpr (consume (some TokenType.lbrace) s).2
      rw [hPE] at hA
      obtain ⟨hg1, hs1, hna1, hwf1⟩ := hA
      obtain ⟨hgr, hsr⟩ := consume_grow (some TokenType.rbrace) s2
      have e1b : parseFracCommand (fuel + 1) s =
          (if peekType (consume (some TokenType.rbrace) s2).2 = some TokenType.lbrace then
            match parseExpression fuel
                (consume (some TokenType.lbrace) (consume (some TokenType.rbrace) s2).2).2 with
            | .ok denominator s3 =>
              .ok (some (.functionCall "\\frac"
                (.cons (optAST num) (.cons (optAST denominator) .nil))))
                (consume (some TokenType.rbrace) s3).2
            | .exn s3 => .exn s3
            | .out => .out
          else
            .ok none (addError "\\frac コマンドの分母が見つかりません。\x7b式\x7d の形式が必要です。"
              (consume (some TokenType.rbrace) s2).2)) := by
        rw [e1, hPE]
      by_cases hc2 : peekType (consume (some TokenType.rbrace) s2).2 = some TokenType.lbrace
      · have e2a : parseFracCommand (fuel + 1) s =
            match parseExpression fuel
                (consume (some TokenType.lbrace) (consume (some TokenType.rbrace) s2).2).2 with
            | .ok denominator s3 =>
              .ok (some (.functionCall "\\frac"
                (.cons (optAST num) (.cons (optAST denominator) .nil))))
                (consume (some TokenType.rbrace) s3).2
            | .exn s3 => .exn s3
            | .out => .out := by
          rw [e1b, if_pos hc2]
        obtain ⟨hgl2, hsl2⟩ :=
          consume_grow (some TokenType.lbrace) (consume (some TokenType.rbrace) s2).2
        rcases hPD : parseExpression fuel
            (consume (some TokenType.lbrace) (consume (some TokenType.rbrace) s2).2).2
          with ⟨den, s3⟩ | s3 | _
        · have e3 : parseFracCommand (fuel + 1) s =
              .ok (some (.functionCall "\\frac"
                (.cons (optAST num) (.cons (optAST den) .nil))))
                (consume (some TokenType.rbrace) s3).2 := by
            rw [e2a, hPD]
          rw [e3]
          have hD := ihExpr
            (consume (some TokenType.lbrace) (consume (some TokenType.rbrace) s2).2).2
          rw [hPD] at hD
          obtain ⟨hg2, hs2, hna2, hwf2⟩ := hD
          obtain ⟨hgr2, hsr2⟩ := consume_grow (some TokenType.rbrace) s3
          refine ⟨errsGrow_trans (errsGrow_trans (errsGrow_trans (errsGrow_trans
              (errsGrow_trans hg0 hg1) hgr) hgl2) hg2) hgr2,
            restSuffix_trans (restSuffix_trans (restSuffix_trans (restSuffix_trans
              (restSuffix_trans hs0 hs1) hsr) hsl2) hs2) hsr2, ?_, ?_⟩
          · simp only [noAssignO, optAST_some, containsAssignment]
            simp only [noAssignO] at hna1 hna2
            simp [containsAssignmentList, hna1, hna2]
          · intro htk herr
            have h1 : s3.errors = s.errors :=
              errsGrow_squeeze (errsGrow_trans (errsGrow_trans (errsGrow_trans
                (errsGrow_trans hg0 hg1) hgr) hgl2) hg2) hgr2 herr
            have h2 : (consume (some TokenType.lbrace)
                (consume (some TokenType.rbrace) s2).2).2.errors = s.errors :=
              errsGrow_squeeze (errsGrow_trans (errsGrow_trans
                (errsGrow_trans hg0 hg1) hgr) hgl2) hg2 h1
            have h3 : (consume (some TokenType.rbrace) s2).2.errors = s.errors :=
              errsGrow_squeeze (errsGrow_trans (errsGrow_trans hg0 hg1) hgr) hgl2 h2
            have h4 : s2.errors = s.errors :=
              errsGrow_squeeze (errsGrow_trans hg0 hg1) hgr h3
            have h5 : (consume (some TokenType.lbrace) s).2.errors = s.errors :=
              errsGrow_squeeze hg0 hg1 h4
            have hwfn : wfAtO 5 num := hwf1 (tokensWF_mono htk hs0) (by rw [h4, h5])
            have hwfd : wfAtO 5 den :=
              hwf2 (tokensWF_mono (tokensWF_mono (tokensWF_mono
                (tokensWF_mono htk hs0) hs1) hsr) hsl2) (by rw [h1, h2])
            obtain ⟨nt, hnt, hsnt, hlnt⟩ := hwfn
            obtain ⟨dt, hdt, hsdt, hldt⟩ := hwfd
            refine ⟨.functionCall "\\frac" (.cons (optAST num) (.cons (optAST den) .nil)),
              rfl, ?_, by simp [lvl]⟩
            rw [hnt, hdt]
            simp only [shapeB, shapeBL, optAST_some]
            simp [hsnt, hsdt, hlnt, hldt]
        · have e3 : parseFracCommand (fuel + 1) s = .exn s3 := by
            rw [e2a, hPD]
          rw [e3]
          have hD := ihExpr
            (consume (some TokenType.lbrace) (consume (some TokenType.rbrace) s2).2).2
          rw [hPD] at hD
          obtain ⟨hg2, hs2⟩ := hD
          exact ⟨errsGrow_trans (errsGrow_trans (errsGrow_trans
              (errsGrow_trans hg0 hg1) hgr) hgl2) hg2,
            restSuffix_trans (restSuffix_trans (restSuffix_trans
              (restSuffix_trans hs0 hs1) hsr) hsl2) hs2⟩
        · have e3 : parseFracCommand (fuel + 1) s = .out := by
            rw [e2a, hPD]
          rw [e3]
          trivial
      · have e2b : parseFracCommand (fuel + 1) s =
            .ok none (addError "\\frac コマンドの分母が見つかりません。\x7b式\x7d の形式が必要です。"
              (consume (some TokenType.rbrace) s2).2) := by
          rw [e1b, if_neg hc2]
        rw [e2b]
        obtain ⟨hre, m', hrm⟩ := addError_spec
          "\\frac コマンドの分母が見つかりません。\x7b式\x7d の形式が必要です。"
          (consume (some TokenType.rbrace) s2).2
        refine ⟨errsGrow_trans (errsGrow_trans (errsGrow_trans hg0 hg1) hgr) ⟨[m'], hrm⟩,
          restSuffix_trans (restSuffix_trans (restSuffix_trans hs0 hs1) hsr)
            ⟨[], by simp [hre]⟩, rfl, ?_⟩
        intro htk herr
        obtain ⟨es, hes⟩ := errsGrow_trans (errsGrow_trans hg0 hg1) hgr
        rw [hrm, hes] at herr
        have hl := congrArg List.length herr
        simp only [List.length_append, List.length_cons, List.length_nil] at hl
        exact absurd hl (by omega)
    · have e2 : parseFracCommand (fuel + 1) s = .exn s2 := by
        rw [e1, hPE]
      rw [e2]
      have hA := ihExpr (consume (some TokenType.lbrace) s).2
      rw [hPE] at hA
      obtain ⟨hg1, hs1⟩ := hA
      exact ⟨errsGrow_trans hg0 hg1, restSuffix_trans hs0 hs1⟩
    · have e2 : parseFracCommand (fuel + 1) s = .out := by
        rw [e1, hPE]
      rw [e2]
      trivial
  · have e1 : parseFracCommand (fuel + 1) s =
        .ok none (addError "\\frac コマンドの分子が見つかりません。\x7b式\x7d の形式が必要です。" s) := by
      simp only [parseFracCommand]
      rw [if_neg hc]
    rw [e1]
    obtain ⟨hre, m', hrm⟩ := addError_spec
      "\\frac コマンドの分子が見つかりません。\x7b式\x7d の形式が必要です。" s
    refine ⟨⟨[m'], hrm⟩, ⟨[], by simp [hre]⟩, rfl, ?_⟩
    intro _ herr
    rw [hrm] at herr
    have hl := congrArg List.length herr
    simp only [List.length_append, List.length_cons, List.length_nil] at hl
    exact absurd hl (by omega)

theorem primaryStep (fuel : Nat)
    (ihExpr : ∀ s, PostA 5 s (parseExpression fuel s))
    (ihPrim : ∀ s, PostA 1 s (parsePrimary fuel s))
    (ihFrac : ∀ s, PostA 1 s (parseFracCommand fuel s))
    (ihBrace : ∀ s, PostL s (braceArgs fuel s))
    (ihComma : ∀ s, PostL s (commaItems fuel s))
    (ihArr : ∀ s, PostA 1 s (parseArrayExpression fuel s))
    (ihMat : ∀ s, PostA 1 s (parseMatrixExpression fuel s)) :
    ∀ s, PostA 1 s (parsePrimary (fuel + 1) s) := by
  intro s
  obtain ⟨rest, E⟩ := s
  cases rest with
  | nil =>
    have e1 : parsePrimary (fuel + 1) ⟨[], E⟩ =
        .ok none ⟨[], E ++ ["予期せぬ入力の終わりです。式が必要です。"]⟩ := rfl
    rw [e1]
    refine ⟨⟨_, rfl⟩, ⟨[], rfl⟩, rfl, ?_⟩
    intro _ herr
    have herr2 : E ++ ["予期せぬ入力の終わりです。式が必要です。"] = E := herr
    have hl := congrArg List.length herr2
    simp only [List.length_append, List.length_cons, List.length_nil] at hl
    exact absurd hl (by omega)
  | cons a t =>
    by_cases hN : a.type = TokenType.number
    · have e1 : parsePrimary (fuel + 1) ⟨a :: t, E⟩ =
          .ok (some (.numberLiteral a.value)) ⟨t, E⟩ := by
        simp only [parsePrimary, peekT, List.head?]
        rw [if_pos hN, consume_none_cons]
      rw [e1]
      refine ⟨errsGrow_cons a t E, restSuffix_cons a t E, rfl, ?_⟩
      intro htk _
      have hta := htk a (List.mem_cons_self a t)
      obtain ⟨aty, av⟩ := a
      have hN2 : aty = TokenType.number := hN
      subst hN2
      exact ⟨.numberLiteral av, rfl, hta, by simp [lvl]⟩
    · by_cases hI : a.type = TokenType.identifier
      · have e1 : parsePrimary (fuel + 1) ⟨a :: t, E⟩ =
            .ok (some (.identifier a.value)) ⟨t, E⟩ := by
          simp only [parsePrimary, peekT, List.head?]
          rw [if_neg hN, if_pos hI, consume_none_cons]
        rw [e1]
        refine ⟨errsGrow_cons a t E, restSuffix_cons a t E, rfl, ?_⟩
        intro htk _
        have hta := htk a (List.mem_cons_self a t)
        obtain ⟨aty, av⟩ := a
        have hI2 : aty = TokenType.identifier := hI
        subst hI2
        exact ⟨.identifier av, rfl, hta, by simp [lvl]⟩
      · by_cases hC : a.type = TokenType.command
        · by_cases hfr : a.value = "\\frac"
          · have e1 : parsePrimary (fuel + 1) ⟨a :: t, E⟩ =
                parseFracCommand fuel ⟨t, E⟩ := by
              simp only [parsePrimary, peekT, List.head?]
              rw [if_neg hN, if_neg hI, if_pos hC, consume_none_cons]
              try dsimp only
              rw [if_pos hfr]
            rw [e1]
            exact PostA_cons (ihFrac ⟨t, E⟩)
          · by_cases hbr : peekType (⟨t, E⟩ : PState) = some TokenType.lbrace
            · have e1 : parsePrimary (fuel + 1) ⟨a :: t, E⟩ =
                  match braceArgs fuel ⟨t, E⟩ with
                  | .ok args s2 => .ok (some (.functionCall a.value args)) s2
                  | .exn s2 => .exn s2
                  | .out => .out := by
                simp only [parsePrimary, peekT, List.head?]
                rw [if_neg hN, if_neg hI, if_pos hC, consume_none_cons]
                try dsimp only
                rw [if_neg hfr, if_pos hbr]
              rcases hR : braceArgs fuel ⟨t, E⟩ with ⟨args, s2⟩ | s2 | _
              · have e2 : parsePrimary (fuel + 1) ⟨a :: t, E⟩ =
                    .ok (some (.functionCall a.value args)) s2 := by
                  rw [e1, hR]
                rw [e2]
                have hL := ihBrace ⟨t, E⟩
                rw [hR] at hL
                obtain ⟨hg2, hs2, hna2, hwf2⟩ := hL
                refine ⟨errsGrow_trans (errsGrow_cons a t E) hg2,
                  restSuffix_trans (restSuffix_cons a t E) hs2, ?_, ?_⟩
                · simp only [noAssignO, optAST_some, containsAssignment]
                  exact hna2
                · intro htk herr
                  have htk2 : tokensWF ⟨t, E⟩ := fun x hx => htk x (List.mem_cons_of_mem a hx)
                  have hses := hwf2 htk2 herr
                  refine ⟨.functionCall a.value args, rfl, ?_, by simp [lvl]⟩
                  simpa [shapeB] using hses
              · have e2 : parsePrimary (fuel + 1) ⟨a :: t, E⟩ = .exn s2 := by
                  rw [e1, hR]
                rw [e2]
                have hL := ihBrace ⟨t, E⟩
                rw [hR] at hL
                obtain ⟨hg2, hs2⟩ := hL
                exact ⟨errsGrow_trans (errsGrow_cons a t E) hg2,
                  restSuffix_trans (restSuffix_cons a t E) hs2⟩
              · have e2 : parsePrimary (fuel + 1) ⟨a :: t, E⟩ = .out := by
                  rw [e1, hR]
                rw [e2]
                trivial
            · by_cases hpr : peekType (⟨t, E⟩ : PState) = some TokenType.lparen
              · by_cases hrp : peekType (consume (some TokenType.lparen) (⟨t, E⟩ : PState)).2 =
                    some TokenType.rparen
                · have e1 : parsePrimary (fuel + 1) ⟨a :: t, E⟩ =
                      .ok (some (.functionCall a.value .nil))
                        (consume (some TokenType.rparen)
                          (consume (some TokenType.lparen) (⟨t, E⟩ : PState)).2).2 := by
                    simp only [parsePrimary, peekT, List.head?]
                    rw [if_neg hN, if_neg hI, if_pos hC, consume_none_cons]
                    try dsimp only
                    rw [if_neg hfr, if_neg hbr, if_pos hpr]
                    try dsimp only
                    rw [if_pos hrp]
                  rw [e1]
                  obtain ⟨hg1, hs1⟩ := consume_grow (some TokenType.lparen) (⟨t, E⟩ : PState)
                  obtain ⟨hg2, hs2⟩ := consume_grow (some TokenType.rparen)
                    (consume (some TokenType.lparen) (⟨t, E⟩ : PState)).2
                  refine ⟨errsGrow_trans (errsGrow_cons a t E) (errsGrow_trans hg1 hg2),
                    restSuffix_trans (restSuffix_cons a t E) (restSuffix_trans hs1 hs2),
                    rfl, ?_⟩
                  intro _ _
                  exact ⟨.functionCall a.value .nil, rfl, by simp [shapeB, shapeBL],
                    by simp [lvl]⟩
                · have e1 : parsePrimary (fuel + 1) ⟨a :: t, E⟩ =
                      match parseExpression fuel
                          (consume (some TokenType.lparen) (⟨t, E⟩ : PState)).2 with
                      | .ok a1 s2 =>
                        match commaItems fuel s2 with
                        | .ok args s3 =>
                          .ok (some (.functionCall a.value (.cons (optAST a1) args)))
                            (consume (some TokenType.rparen) s3).2
                        | .exn s3 => .exn s3
                        | .out => .out
                      | .exn s2 => .exn s2
                      | .out => .out := by
                    simp only [parsePrimary, peekT, List.head?]
                    rw [if_neg hN, if_neg hI, if_pos hC, consume_none_cons]
                    try dsimp only
                    rw [if_neg hfr, if_neg hbr, if_pos hpr]
                    try dsimp only
                    rw [if_neg hrp]
                  obtain ⟨hg1, hs1⟩ := consume_grow (some TokenType.lparen) (⟨t, E⟩ : PState)
                  rcases hPE : parseExpression fuel
                      (consume (some TokenType.lparen) (⟨t, E⟩ : PState)).2
                    with ⟨a1, s2⟩ | s2 | _
                  · have hA := ihExpr (consume (some TokenType.lparen) (⟨t, E⟩ : PState)).2
                    rw [hPE] at hA
                    obtain ⟨hg2, hs2, hna2, hwf2⟩ := hA
                    have e1b : parsePrimary (fuel + 1) ⟨a :: t, E⟩ =
                        match commaItems fuel s2 with
                        | .ok args s3 =>
                          .ok (some (.functionCall a.value (.cons (optAST a1) args)))
                            (consume (some TokenType.rparen) s3).2
                        | .exn s3 => .exn s3
                        | .out => .out := by
                      rw [e1, hPE]
                    rcases hR : commaItems fuel s2 with ⟨args, s3⟩ | s3 | _
                    · have e2 : parsePrimary (fuel + 1) ⟨a :: t, E⟩ =
                          .ok (some (.functionCall a.value (.cons (optAST a1) args)))
                            (consume (some TokenType.rparen) s3).2 := by
                        rw [e1b, hR]
                      rw [e2]
                      have hL := ihComma s2
                      rw [hR] at hL
                      obtain ⟨hg3, hs3, hna3, hwf3⟩ := hL
                      obtain ⟨hg4, hs4⟩ := consume_grow (some TokenType.rparen) s3
                      refine ⟨errsGrow_trans (errsGrow_cons a t E) (errsGrow_trans
                          (errsGrow_trans (errsGrow_trans hg1 hg2) hg3) hg4),
                        restSuffix_trans (restSuffix_cons a t E) (restSuffix_trans
                          (restSuffix_trans (restSuffix_trans hs1 hs2) hs3) hs4), ?_, ?_⟩
                      · simp only [noAssignO, optAST_some, containsAssignment]
                        simp only [noAssignO] at hna2
                        simp [containsAssignmentList, hna2, hna3]
                      · intro htk herr
                        have htk2 : tokensWF ⟨t, E⟩ :=
                          fun x hx => htk x (List.mem_cons_of_mem a hx)
                        have h1 : s3.errors = E :=
                          errsGrow_squeeze (errsGrow_trans (errsGrow_trans hg1 hg2) hg3)
                            hg4 herr
                        have h2 : s2.errors = E :=
                          errsGrow_squeeze (errsGrow_trans hg1 hg2) hg3 h1
                        have h3 : (consume (some TokenType.lparen) (⟨t, E⟩ : PState)).2.errors
                            = E := errsGrow_squeeze hg1 hg2 h2
                        have hwfe : wfAtO 5 a1 :=
                          hwf2 (tokensWF_mono htk2 hs1) (by rw [h2, h3])
                        have hses : shapeBL args = true :=
                          hwf3 (tokensWF_mono (tokensWF_mono htk2 hs1) hs2) (by rw [h1, h2])
                        obtain ⟨et, het, hset, hlet⟩ := hwfe
                        refine ⟨.functionCall a.value (.cons (optAST a1) args), rfl, ?_,
                          by simp [lvl]⟩
                        rw [het]
                        simp only [shapeB, shapeBL, optAST_some]
                        simp [hses, hset, hlet]
                    · have e2 : parsePrimary (fuel + 1) ⟨a :: t, E⟩ = .exn s3 := by
                        rw [e1b, hR]
                      rw [e2]
                      have hL := ihComma s2
                      rw [hR] at hL
                      obtain ⟨hg3, hs3⟩ := hL
                      exact ⟨errsGrow_trans (errsGrow_cons a t E)
                          (errsGrow_trans (errsGrow_trans hg1 hg2) hg3),
                        restSuffix_trans (restSuffix_cons a t E)
                          (restSuffix_trans (restSuffix_trans hs1 hs2) hs3)⟩
                    · have e2 : parsePrimary (fuel + 1) ⟨a :: t, E⟩ = .out := by
                        rw [e1b, hR]
                      rw [e2]
                      trivial
                  · have e2 : parsePrimary (fuel + 1) ⟨a :: t, E⟩ = .exn s2 := by
                      rw [e1, hPE]
                    rw [e2]
                    have hA := ihExpr (consume (some TokenType.lparen) (⟨t, E⟩ : PState)).2
                    rw [hPE] at hA
                    obtain ⟨hg2, hs2⟩ := hA
                    exact ⟨errsGrow_trans (errsGrow_cons a t E) (errsGrow_trans hg1 hg2),
                      restSuffix_trans (restSuffix_cons a t E) (restSuffix_trans hs1 hs2)⟩
                  · have e2 : parsePrimary (fuel + 1) ⟨a :: t, E⟩ = .out := by
                      rw [e1, hPE]
                    rw [e2]
                    trivial
              · have e1 : parsePrimary (fuel + 1) ⟨a :: t, E⟩ =
                    match parsePrimary fuel ⟨t, E⟩ with
                    | .ok a1 s2 =>
                      .ok (some (.functionCall a.value (.cons (optAST a1) .nil))) s2
                    | .exn s2 => .exn s2
                    | .out => .out := by
                  simp only [parsePrimary, peekT, List.head?]
                  rw [if_neg hN, if_neg hI, if_pos hC, consume_none_cons]
                  try dsimp only
                  rw [if_neg hfr, if_neg hbr, if_neg hpr]
                rcases hR : parsePrimary fuel ⟨t, E⟩ with ⟨a1, s2⟩ | s2 | _
                · have e2 : parsePrimary (fuel + 1) ⟨a :: t, E⟩ =
                      .ok (some (.functionCall a.value (.cons (optAST a1) .nil))) s2 := by
                    rw [e1, hR]
                  rw [e2]
                  have hA := ihPrim ⟨t, E⟩
                  rw [hR] at hA
                  obtain ⟨hg1, hs1, hna1, hwf1⟩ := hA
                  refine ⟨errsGrow_trans (errsGrow_cons a t E) hg1,
                    restSuffix_trans (restSuffix_cons a t E) hs1, ?_, ?_⟩
                  · simp only [noAssignO, optAST_some, containsAssignment]
                    simp only [noAssignO] at hna1
                    simp [containsAssignmentList, hna1]
                  · intro htk herr
                    have htk2 : tokensWF ⟨t, E⟩ :=
                      fun x hx => htk x (List.mem_cons_of_mem a hx)
                    have hwfo : wfAtO 1 a1 := hwf1 htk2 herr
                    obtain ⟨et, het, hset, hlet⟩ := hwfo
                    have hlet5 : lvl et ≤ 5 := by omega
                    refine ⟨.functionCall a.value (.cons (optAST a1) .nil), rfl, ?_,
                      by simp [lvl]⟩
                    rw [het]
                    simp only [shapeB, shapeBL, optAST_some]
                    simp [hset, hlet5]
                · have e2 : parsePrimary (fuel + 1) ⟨a :: t, E⟩ = .exn s2 := by
                    rw [e1, hR]
                  rw [e2]
                  have hA := ihPrim ⟨t, E⟩
                  rw [hR] at hA
                  obtain ⟨hg1, hs1⟩ := hA
                  exact ⟨errsGrow_trans (errsGrow_cons a t E) hg1,
                    restSuffix_trans (restSuffix_cons a t E) hs1⟩
                · have e2 : parsePrimary (fuel + 1) ⟨a :: t, E⟩ = .out := by
                    rw [e1, hR]
                  rw [e2]
                  trivial
        · by_cases hLp : a.type = TokenType.lparen
          · have e1 : parsePrimary (fuel + 1) ⟨a :: t, E⟩ =
                match parseExpression fuel ⟨t, E⟩ with
                | .ok expr s2 =>
                  .ok (some (.parenthesizedExpression (optAST expr)))
                    (consume (some TokenType.rparen) s2).2
                | .exn s2 => .exn s2
                | .out => .out := by
              simp only [parsePrimary, peekT, List.head?]
              rw [if_neg hN, if_neg hI, if_neg hC, if_pos hLp, consume_exp_cons_eq t E hLp]
            rcases hPE : parseExpression fuel ⟨t, E⟩ with ⟨expr, s2⟩ | s2 | _
            · have e2 : parsePrimary (fuel + 1) ⟨a :: t, E⟩ =
                  .ok (some (.parenthesizedExpression (optAST expr)))
                    (consume (some TokenType.rparen) s2).2 := by
                rw [e1, hPE]
              rw [e2]
              have hA := ihExpr ⟨t, E⟩
              rw [hPE] at hA
              obtain ⟨hg1, hs1, hna1, hwf1⟩ := hA
              obtain ⟨hg2, hs2⟩ := consume_grow (some TokenType.rparen) s2
              refine ⟨errsGrow_trans (errsGrow_cons a t E) (errsGrow_trans hg1 hg2),
                restSuffix_trans (restSuffix_cons a t E) (restSuffix_trans hs1 hs2), ?_, ?_⟩
              · simp only [noAssignO, optAST_some, containsAssignment]
                simp only [noAssignO] at hna1
                exact hna1
              · intro htk herr
                have htk2 : tokensWF ⟨t, E⟩ := fun x hx => htk x (List.mem_cons_of_mem a hx)
                have hS2 : s2.errors = E := errsGrow_squeeze hg1 hg2 herr
                have hwfe : wfAtO 5 expr := hwf1 htk2 hS2
                obtain ⟨et, het, hset, hlet⟩ := hwfe
                refine ⟨.parenthesizedExpression (optAST expr), rfl, ?_, by simp [lvl]⟩
                rw [het]
                simp only [shapeB, optAST_some]
                simp [hset, hlet]
            · have e2 : parsePrimary (fuel + 1) ⟨a :: t, E⟩ = .exn s2 := by
                rw [e1, hPE]
              rw [e2]
              have hA := ihExpr ⟨t, E⟩
              rw [hPE] at hA
              obtain ⟨hg1, hs1⟩ := hA
              exact ⟨errsGrow_trans (errsGrow_cons a t E) hg1,
                restSuffix_trans (restSuffix_cons a t E) hs1⟩
            · have e2 : parsePrimary (fuel + 1) ⟨a :: t, E⟩ = .out := by
                rw [e1, hPE]
              rw [e2]
              trivial
          · by_cases hB : a.type = TokenType.lbracket
            · have e1 : parsePrimary (fuel + 1) ⟨a :: t, E⟩ =
                  parseArrayExpression fuel ⟨a :: t, E⟩ := by
                simp only [parsePrimary, peekT, List.head?]
                rw [if_neg hN, if_neg hI, if_neg hC, if_neg hLp, if_pos hB]
              rw [e1]
              exact ihArr ⟨a :: t, E⟩
            · by_cases hBr : a.type = TokenType.lbrace
              · have e1 : parsePrimary (fuel + 1) ⟨a :: t, E⟩ =
                    parseMatrixExpression fuel ⟨a :: t, E⟩ := by
                  simp only [parsePrimary, peekT, List.head?]
                  rw [if_neg hN, if_neg hI, if_neg hC, if_neg hLp, if_neg hB, if_pos hBr]
                rw [e1]
                exact ihMat ⟨a :: t, E⟩
              · by_cases hpm : (decide (a.type = TokenType.plus) ||
                    decide (a.type = TokenType.minus)) = true
                · have e1 : parsePrimary (fuel + 1) ⟨a :: t, E⟩ =
                      match parsePrimary fuel ⟨t, E⟩ with
                      | .ok operand s2 =>
                        .ok (some (.unaryExpression a.value (optAST operand))) s2
                      | .exn s2 => .exn s2
                      | .out => .out := by
                    simp only [parsePrimary, peekT, List.head?]
                    rw [if_neg hN, if_neg hI, if_neg hC, if_neg hLp, if_neg hB, if_neg hBr,
                      if_pos hpm, consume_none_cons]
                  rcases hR : parsePrimary fuel ⟨t, E⟩ with ⟨operand, s2⟩ | s2 | _
                  · have e2 : parsePrimary (fuel + 1) ⟨a :: t, E⟩ =
                        .ok (some (.unaryExpression a.value (optAST operand))) s2 := by
                      rw [e1, hR]
                    rw [e2]
                    have hA := ihPrim ⟨t, E⟩
                    rw [hR] at hA
                    obtain ⟨hg1, hs1, hna1, hwf1⟩ := hA
                    refine ⟨errsGrow_trans (errsGrow_cons a t E) hg1,
                      restSuffix_trans (restSuffix_cons a t E) hs1, ?_, ?_⟩
                    · simp only [noAssignO, optAST_some, containsAssignment]
                      simp only [noAssignO] at hna1
                      exact hna1
                    · intro htk herr
                      have htk2 : tokensWF ⟨t, E⟩ :=
                        fun x hx => htk x (List.mem_cons_of_mem a hx)
                      have hwfo : wfAtO 1 operand := hwf1 htk2 herr
                      have hta := htk a (List.mem_cons_self a t)
                      have hty : a.type = TokenType.plus ∨ a.type = TokenType.minus := by
                        rcases Bool.or_eq_true_iff.mp hpm with h | h
                        · exact Or.inl (of_decide_eq_true h)
                        · exact Or.inr (of_decide_eq_true h)
                      obtain ⟨aty, av⟩ := a
                      have hv : av = "+" ∨ av = "-" := addTok_value hty hta
                      obtain ⟨ot, hot, hsot, hlot⟩ := hwfo
                      refine ⟨.unaryExpression av (optAST operand), rfl, ?_, by simp [lvl]⟩
                      rw [hot]
                      simp only [optAST_some]
                      rcases hv with h | h <;> subst h <;> simp [shapeB, hsot, hlot]
                  · have e2 : parsePrimary (fuel + 1) ⟨a :: t, E⟩ = .exn s2 := by
                      rw [e1, hR]
                    rw [e2]
                    have hA := ihPrim ⟨t, E⟩
                    rw [hR] at hA
                    obtain ⟨hg1, hs1⟩ := hA
                    exact ⟨errsGrow_trans (errsGrow_cons a t E) hg1,
                      restSuffix_trans (restSuffix_cons a t E) hs1⟩
                  · have e2 : parsePrimary (fuel + 1) ⟨a :: t, E⟩ = .out := by
                      rw [e1, hR]
                    rw [e2]
                    trivial
                · have e1 : parsePrimary (fuel + 1) ⟨a :: t, E⟩ =
                      .ok none ⟨t, E ++ [("予期せぬトークンです: " ++ a.type.str) ++
                        " トークン: " ++ a.value ++ " (" ++ a.type.str ++ ")"]⟩ := by
                    simp only [parsePrimary, peekT, List.head?]
                    rw [if_neg hN, if_neg hI, if_neg hC, if_neg hLp, if_neg hB, if_neg hBr,
                      if_neg hpm, addError_cons, consume_none_cons]
                  rw [e1]
                  refine ⟨⟨_, rfl⟩, ⟨[a], rfl⟩, rfl, ?_⟩
                  intro _ herr
                  have herr2 : E ++ [("予期せぬトークンです: " ++ a.type.str) ++
                      " トークン: " ++ a.value ++ " (" ++ a.type.str ++ ")"] = E := herr
                  have hl := congrArg List.length herr2
                  simp only [List.length_append, List.length_cons, List.length_nil] at hl
                  exact absurd hl (by omega)

/-- The combined invariant of every `Parser` method at a given fuel. -/
def ParserInv (fuel : Nat) : Prop :=
  (∀ s, PostA 5 s (parseExpression fuel s)) ∧
  (∀ s, PostA 5 s (parseAssignment fuel s)) ∧
  (∀ s, PostA 5 s (parseComparison fuel s) ∧ okPeekNC (parseComparison fuel s)) ∧
  (∀ node s, PostLoop 5 node s (compLoop fuel node s) ∧ okPeekNC (compLoop fuel node s)) ∧
  (∀ s, PostA 4 s (parseAdditive fuel s)) ∧
  (∀ node s, PostLoop 4 node s (addLoop fuel node s)) ∧
  (∀ s, PostA 3 s (parseTerm fuel s)) ∧
  (∀ node s, PostLoop 3 node s (termLoop fuel node s)) ∧
  (∀ s, PostA 2 s (parseExponent fuel s)) ∧
  (∀ node s, PostLoop 2 node s (expLoop fuel node s)) ∧
  (∀ s, PostA 1 s (parsePrimary fuel s)) ∧
  (∀ s, PostA 1 s (parseFracCommand fuel s)) ∧
  (∀ s, PostL s (braceArgs fuel s)) ∧
  (∀ s, PostL s (commaItems fuel s)) ∧
  (∀ s, PostA 1 s (parseArrayExpression fuel s)) ∧
  (∀ s, PostA 1 s (parseMatrixExpression fuel s)) ∧
  (∀ row rows s, PostMat row rows s (matLoop fuel row rows s))

theorem parserInv_zero : ParserInv 0 := by
  exact ⟨fun s => trivial, fun s => trivial, fun s => ⟨trivial, trivial⟩,
    fun node s => ⟨trivial, trivial⟩, fun s => trivial, fun node s => trivial,
    fun s => trivial, fun node s => trivial, fun s => trivial, fun node s => trivial,
    fun s => trivial, fun s => trivial, fun s => trivial, fun s => trivial,
    fun s => trivial, fun s => trivial, fun row rows s => trivial⟩

theorem parserInv_step (fuel : Nat) (ih : ParserInv fuel) : ParserInv (fuel + 1) := by
  obtain ⟨ihE, ihA, ihC, ihCL, ihAd, ihAL, ihT, ihTL, ihX, ihXL, ihP, ihF, ihB, ihCo,
    ihAr, ihM, ihML⟩ := ih
  refine ⟨?_, ?_, ?_, ?_, ?_, ?_, ?_, ?_, ?_, ?_, ?_, ?_, ?_, ?_, ?_, ?_, ?_⟩
  · exact exprStep fuel ihA
  · exact assignStep fuel ihC
  · exact compStep fuel ihAd ihCL
  · exact compLoopStep fuel ihAd ihCL
  · exact addStep fuel ihT ihAL
  · exact addLoopStep fuel ihT ihAL
  · exact termStep fuel ihX ihTL
  · exact termLoopStep fuel ihX ihTL
  · exact expStep fuel ihP ihXL
  · exact expLoopStep fuel ihP ihXL
  · exact primaryStep fuel ihE ihP ihF ihB ihCo ihAr ihM
  · exact fracStep fuel ihE
  · exact braceStep fuel ihE ihB
  · exact commaStep fuel ihE ihCo
  · exact arrStep fuel ihE ihCo
  · exact matStep fuel ihE ihML
  · exact matLoopStep fuel ihE ihML

theorem parserInv (fuel : Nat) : ParserInv fuel := by
  induction fuel with
  | zero => exact parserInv_zero
  | succ n ih => exact parserInv_step n ih

/-- A `parse` run that returns an AST came from a successful
`parseExpression` returning that same node. -/
theorem parse_ast_result {tokens : List Token} {r : Option AST}
    (h : parse tokens = .ast r) :
    ∃ s1, parseExpression (8 * tokens.length + 16) ⟨tokens, []⟩ = .ok r s1 := by
  simp only [parse] at h
  rcases hPE : parseExpression (8 * tokens.length + 16) ⟨tokens, []⟩
    with ⟨result, s1⟩ | s1 | _ <;> rw [hPE] at h
  · refine ⟨s1, ?_⟩
    dsimp only at h
    by_cases hrest : s1.rest = []
    · rw [if_pos hrest] at h
      by_cases herr : s1.errors = []
      · rw [if_pos herr] at h
        cases h
        rfl
      · rw [if_neg herr] at h
        exact absurd h (fun hx => ParseOutcome.noConfusion hx)
    · rw [if_neg hrest] at h
      by_cases herr : (addError ("解析が完了しましたが、未処理のトークンが残っています: " ++
          String.intercalate " " (s1.rest.map Token.value)) s1).errors = []
      · rw [if_pos herr] at h
        cases h
        rfl
      · rw [if_neg herr] at h
        exact absurd h (fun hx => ParseOutcome.noConfusion hx)
  · dsimp only at h
    by_cases herr : s1.errors = []
    · rw [if_pos herr] at h
      exact absurd h (fun hx => ParseOutcome.noConfusion hx)
    · rw [if_neg herr] at h
      exact absurd h (fun hx => ParseOutcome.noConfusion hx)
  · exact absurd h (fun hx => ParseOutcome.noConfusion hx)

/-- Claim C2: `parse` never returns an AST containing an
`AssignmentExpression` node, and whenever `parseComparison` returns
normally the next unconsumed token is not one of the comparison kinds
(`Equals` included), because the comparison loop consumes every one of
them — which makes the guard of the assignment construction in
`parseAssignment` unsatisfiable. -/
theorem claim2_no_assignment :
    (∀ (tokens : List Token) (r : Option AST),
      parse tokens = .ast r → containsAssignment (optAST r) = false) ∧
    (∀ fuel s, okPeekNC (parseComparison fuel s)) := by
  constructor
  · intro tokens r h
    obtain ⟨s1, hPE⟩ := parse_ast_result h
    have hinv := (parserInv (8 * tokens.length + 16)).1 ⟨tokens, []⟩
    rw [hPE] at hinv
    exact hinv.2.2.1
  · intro fuel s
    cases fuel with
    | zero => trivial
    | succ n =>
      have h := (parserInv (n + 1)).2.2.1 s
      exact h.2

/-- Claim C2 witness: the assignment-looking input `x=5` parses to a
comparison node, and the returned tree indeed contains no assignment. -/
theorem claim2_witness :
    containsAssignment (optAST (some
      (AST.comparisonExpression "=" (.identifier "x") (.numberLiteral "5")))) = false :=
  claim2_no_assignment.1 (tokenize "x=5")
    (some (AST.comparisonExpression "=" (.identifier "x") (.numberLiteral "5"))) rfl

/-! ## Round-trip analysis (claim C3) -/

/-- Did `parse` return an AST (as opposed to throwing)? -/
def isAstOutcome : ParseOutcome → Bool
  | .ast _ => true
  | _ => false

/-- Plain trees: nodes whose rendering is literal operand text and operator
characters — no function/array/matrix notation, no `\frac`, none of the
specially rewritten constants π, τ, φ, no assignment and no null. -/
def plainAST : AST → Bool
  | .numberLiteral _ => true
  | .identifier v => !(v = "π" || v = "τ" || v = "φ")
  | .binaryExpression _ l r => plainAST l && plainAST r
  | .unaryExpression _ u => plainAST u
  | .comparisonExpression _ l r => plainAST l && plainAST r
  | .parenthesizedExpression e => plainAST e
  | _ => false

/-- The token the lexer produces for each operator string. -/
def opToken (op : String) : Token :=
  if op = "+" then ⟨.plus, "+"⟩
  else if op = "-" then ⟨.minus, "-"⟩
  else if op = "*" then ⟨.multiply, "*"⟩
  else if op = "/" then ⟨.divide, "/"⟩
  else if op = "^" then ⟨.power, "^"⟩
  else if op = "<" then ⟨.lessThan, "<"⟩
  else if op = ">" then ⟨.greaterThan, ">"⟩
  else if op = "<=" then ⟨.lessEqual, "<="⟩
  else if op = ">=" then ⟨.greaterEqual, ">="⟩
  else if op = "=" then ⟨.equals, "="⟩
  else if op = "!=" then ⟨.notEqual, "!="⟩
  else ⟨.unknown, op⟩

/-- The token sequence the lexer produces for the rendering of a plain
shape-correct tree. -/
def toks : AST → List Token
  | .numberLiteral v => [⟨.number, v⟩]
  | .identifier v => [⟨.identifier, v⟩]
  | .binaryExpression op l r => toks l ++ opToken op :: toks r
  | .unaryExpression op u => opToken op :: toks u
  | .comparisonExpression op l r => toks l ++ opToken op :: toks r
  | .parenthesizedExpression e => ⟨.lparen, "("⟩ :: (toks e ++ [⟨.rparen, ")"⟩])
  | _ => []

/-- Node count of a tree. -/
def sizeT : AST → Nat
  | .binaryExpression _ l r => sizeT l + sizeT r + 1
  | .unaryExpression _ u => sizeT u + 1
  | .comparisonExpression _ l r => sizeT l + sizeT r + 1
  | .parenthesizedExpression e => sizeT e + 1
  | _ => 1

/-- The head token of the remainder is not of one of the listed kinds. -/
def headNotIn (rest : List Token) (bad : List TokenType) : Prop :=
  ∀ tok t2, rest = tok :: t2 → ¬ tok.type ∈ bad

/-- Follow sets: the token kinds consumed by the loops at or above a level. -/
def expBad : List TokenType := [.power]

def termBad : List TokenType := [.power, .multiply, .divide]

def addBad : List TokenType := [.power, .multiply, .divide, .plus, .minus]

def compBad : List TokenType :=
  [.power, .multiply, .divide, .plus, .minus,
   .lessThan, .greaterThan, .lessEqual, .greaterEqual, .equals, .notEqual]

/-- Token rendering of the tail of a left spine. -/
def pairsToks : List (String × AST) → List Token
  | [] => []
  | (op, r) :: ps => opToken op :: (toks r ++ pairsToks ps)

/-- Fold the spine tail back into left-associated `BinaryExpression`s. -/
def rebuildB (node : AST) : List (String × AST) → AST
  | [] => node
  | (op, r) :: ps => rebuildB (.binaryExpression op node r) ps

/-- Fold the spine tail back into left-associated `ComparisonExpression`s. -/
def rebuildC (node : AST) : List (String × AST) → AST
  | [] => node
  | (op, r) :: ps => rebuildC (.comparisonExpression op node r) ps

/-- Node count of a spine tail. -/
def sizePairs : List (String × AST) → Nat
  | [] => 0
  | (_, r) :: ps => sizeT r + 1 + sizePairs ps

/-- The characters a plain rendering can start with. -/
def startOK (c : Char) : Bool :=
  c.isDigit || c = '.' || identStart c || c = '(' || c = '+' || c = '-'

/-- The characters that can follow a plain rendering inside a larger one. -/
def followOKc : List Char → Prop
  | [] => True
  | c :: _ => c = '+' ∨ c = '-' ∨ c = '*' ∨ c = '/' ∨ c = '^' ∨ c = '<' ∨ c = '>' ∨
      c = '!' ∨ c = '=' ∨ c = ')'

theorem binOp_cases {op : String} (h : isBinOpStr op = true) :
    op = "+" ∨ op = "-" ∨ op = "*" ∨ op = "/" ∨ op = "^" := by
  simp only [isBinOpStr, Bool.or_eq_true_iff, decide_eq_true_eq] at h
  tauto

theorem compOp_cases {op : String} (h : isCompOpStr op = true) :
    op = "<" ∨ op = ">" ∨ op = "<=" ∨ op = ">=" ∨ op = "=" ∨ op = "!=" := by
  simp only [isCompOpStr, Bool.or_eq_true_iff, decide_eq_true_eq] at h
  tauto

theorem needsParenB_left {op childOp : String} {l1 l2 l r : AST}
    (hb : isBinOpStr op = true) (hbc : isBinOpStr childOp = true)
    (hlv : opLvl childOp ≤ opLvl op) :
    needsParentheses (.binaryExpression childOp l1 l2)
      (.binaryExpression op l r) "left" = false := by
  rcases binOp_cases hb with h|h|h|h|h <;> subst h <;>
    rcases binOp_cases hbc with h2|h2|h2|h2|h2 <;> subst h2 <;>
    first
      | rfl
      | exact absurd hlv (by decide)

theorem needsParenB_right {op childOp : String} {l1 l2 l r : AST}
    (hb : isBinOpStr op = true) (hbc : isBinOpStr childOp = true)
    (hlv : opLvl childOp + 1 ≤ opLvl op) :
    needsParentheses (.binaryExpression childOp l1 l2)
      (.binaryExpression op l r) "right" = false := by
  rcases binOp_cases hb with h|h|h|h|h <;> subst h <;>
    rcases binOp_cases hbc with h2|h2|h2|h2|h2 <;> subst h2 <;>
    first
      | rfl
      | exact absurd hlv (by decide)

theorem needsParen_left_false {op : String} {l r : AST}
    (hb : isBinOpStr op = true) (hsl : shapeB l = true) (hlv : lvl l ≤ opLvl op) :
    needsParentheses l (.binaryExpression op l r) "left" = false := by
  cases l with
  | binaryExpression childOp l1 l2 =>
    have hbc : isBinOpStr childOp = true := by
      simp only [shapeB, Bool.and_eq_true_iff] at hsl
      exact hsl.1.1.1.1
    exact needsParenB_left hb hbc (by simpa [lvl] using hlv)
  | numberLiteral v => rfl
  | identifier v => rfl
  | unaryExpression o u => rfl
  | functionCall n a => rfl
  | arrayExpression es => rfl
  | matrixExpression rs => rfl
  | comparisonExpression o a b => rfl
  | assignmentExpression o a b => rfl
  | parenthesizedExpression e => rfl
  | null => rfl

theorem needsParen_right_false {op : String} {l r : AST}
    (hb : isBinOpStr op = true) (hsr : shapeB r = true) (hlv : lvl r + 1 ≤ opLvl op) :
    needsParentheses r (.binaryExpression op l r) "right" = false := by
  cases r with
  | binaryExpression childOp l1 l2 =>
    have hbc : isBinOpStr childOp = true := by
      simp only [shapeB, Bool.and_eq_true_iff] at hsr
      exact hsr.1.1.1.1
    exact needsParenB_right hb hbc (by simpa [lvl] using hlv)
  | numberLiteral v => rfl
  | identifier v => rfl
  | unaryExpression o u => rfl
  | functionCall n a => rfl
  | arrayExpression es => rfl
  | matrixExpression rs => rfl
  | comparisonExpression o a b => rfl
  | assignmentExpression o a b => rfl
  | parenthesizedExpression e => rfl
  | null => rfl

theorem render_binary {op : String} {l r : AST}
    (hs : shapeB (.binaryExpression op l r) = true) :
    astToString (.binaryExpression op l r) = astToString l ++ op ++ astToString r := by
  simp only [shapeB, Bool.and_eq_true_iff, decide_eq_true_eq] at hs
  obtain ⟨⟨⟨⟨hb, hsl⟩, hsr⟩, hll⟩, hlr⟩ := hs
  have hL := @needsParen_left_false op l r hb hsl hll
  have hR := @needsParen_right_false op l r hb hsr hlr
  have e : astToString (.binaryExpression op l r) =
      (if needsParentheses l (.binaryExpression op l r) "left" = true
        then "(" ++ astToString l ++ ")" else astToString l) ++ op ++
      (if needsParentheses r (.binaryExpression op l r) "right" = true
        then "(" ++ astToString r ++ ")" else astToString r) := rfl
  rw [e, hL, hR]
  simp

theorem render_unary {op : String} {u : AST} (hs : shapeB (.unaryExpression op u) = true) :
    astToString (.unaryExpression op u) = op ++ astToString u := by
  simp only [shapeB, Bool.and_eq_true_iff, decide_eq_true_eq] at hs
  obtain ⟨⟨hop, hsu⟩, hlu⟩ := hs
  have hnp : needsParenthesesForUnary u = false := by
    cases u with
    | binaryExpression o a b =>
      exfalso
      have hbo : isBinOpStr o = true := by
        simp only [shapeB, Bool.and_eq_true_iff] at hsu
        exact hsu.1.1.1.1
      rcases binOp_cases hbo with h|h|h|h|h <;> subst h <;> simp [lvl, opLvl] at hlu
    | comparisonExpression o a b =>
      exfalso
      simp [lvl] at hlu
    | assignmentExpression o a b =>
      exact absurd hsu (by simp [shapeB])
    | numberLiteral v => rfl
    | identifier v => rfl
    | unaryExpression o a => rfl
    | functionCall n a => rfl
    | arrayExpression es => rfl
    | matrixExpression rs => rfl
    | parenthesizedExpression e => rfl
    | null => rfl
  have e : astToString (.unaryExpression op u) =
      (if needsParenthesesForUnary u = true then op ++ "(" ++ astToString u ++ ")"
       else op ++ astToString u) := rfl
  rw [e, hnp]
  simp

theorem render_comp (op : String) (l r : AST) :
    astToString (.comparisonExpression op l r) =
      astToString l ++ op ++ astToString r := rfl

theorem render_paren (e : AST) :
    astToString (.parenthesizedExpression e) = "(" ++ astToString e ++ ")" := rfl

theorem render_head : ∀ t, plainAST t = true → shapeB t = true →
    ∃ c cs, (astToString t).data = c :: cs ∧ startOK c = true := by
  intro t hp hs
  cases t with
  | numberLiteral v =>
    have hv : validNumB v = true := hs
    simp only [validNumB, Bool.and_eq_true_iff] at hv
    obtain ⟨_, h2⟩ := hv
    cases hd : v.data with
    | nil =>
      rw [hd] at h2
      simp at h2
    | cons c rest =>
      rw [hd] at h2
      simp only [] at h2
      refine ⟨c, rest, by simpa [astToString] using hd, ?_⟩
      rcases Bool.or_eq_true_iff.mp h2 with h | h
      · simp [startOK, h]
      · rcases Bool.and_eq_true_iff.mp h with ⟨h1, _⟩
        simp [startOK, of_decide_eq_true h1]
  | identifier v =>
    have hne : ¬(v = "π") ∧ ¬(v = "τ") ∧ ¬(v = "φ") := by
      simp only [plainAST, Bool.not_eq_true', Bool.or_eq_false_iff,
        decide_eq_false_iff_not] at hp
      tauto
    have e : astToString (.identifier v) = v := by
      have e0 : astToString (.identifier v) =
          (if v = "π" then "pi" else if v = "τ" then "2*pi"
           else if v = "φ" then "(1+sqrt(5))/2" else v) := rfl
      rw [e0, if_neg hne.1, if_neg hne.2.1, if_neg hne.2.2]
    have hv : validIdentB v = true := hs
    simp only [validIdentB] at hv
    cases hd : v.data with
    | nil =>
      rw [hd] at hv
      simp at hv
    | cons c rest =>
      rw [hd] at hv
      simp only [Bool.and_eq_true_iff] at hv
      exact ⟨c, rest, by rw [e, hd], by simp [startOK, hv.1]⟩
  | binaryExpression op l r =>
    have hp2 : plainAST l = true := by
      simp only [plainAST, Bool.and_eq_true_iff] at hp
      exact hp.1
    have hs2 : shapeB l = true := by
      simp only [shapeB, Bool.and_eq_true_iff] at hs
      exact hs.1.1.1.2
    obtain ⟨c, cs, hd, hok⟩ := render_head l hp2 hs2
    refine ⟨c, cs ++ (op ++ astToString r).data, ?_, hok⟩
    rw [render_binary hs]
    simp only [String.data_append, List.append_assoc]
    rw [hd]
    simp
  | unaryExpression op u =>
    have hop : op = "+" ∨ op = "-" := by
      simp only [shapeB, Bool.and_eq_true_iff, Bool.or_eq_true_iff,
        decide_eq_true_eq] at hs
      tauto
    rw [render_unary hs]
    rcases hop with h | h <;> subst h
    · exact ⟨'+', (astToString u).data, by simp [String.data_append], by decide⟩
    · exact ⟨'-', (astToString u).data, by simp [String.data_append], by decide⟩
  | comparisonExpression op l r =>
    have hp2 : plainAST l = true := by
      simp only [plainAST, Bool.and_eq_true_iff] at hp
      exact hp.1
    have hs2 : shapeB l = true := by
      simp only [shapeB, Bool.and_eq_true_iff] at hs
      exact hs.1.1.1.2
    obtain ⟨c, cs, hd, hok⟩ := render_head l hp2 hs2
    refine ⟨c, cs ++ (op ++ astToString r).data, ?_, hok⟩
    rw [render_comp]
    simp only [String.data_append, List.append_assoc]
    rw [hd]
    simp
  | parenthesizedExpression e =>
    exact ⟨'(', (astToString e).data ++ [')'], by simp [render_paren, String.data_append],
      by decide⟩
  | functionCall n a => exact absurd hp (by simp [plainAST])
  | arrayExpression es => exact absurd hp (by simp [plainAST])
  | matrixExpression rs => exact absurd hp (by simp [plainAST])
  | assignmentExpression o a b => exact absurd hp (by simp [plainAST])
  | null => exact absurd hp (by simp [plainAST])

/-- The numeric codepoints a JS whitespace character can have. -/
theorem ws_val_facts {c : Char} (hw : jsWhitespace c = true) :
    c.val.toNat = 32 ∨ c.val.toNat = 9 ∨ c.val.toNat = 10 ∨ c.val.toNat = 11 ∨
    c.val.toNat = 12 ∨ c.val.toNat = 13 ∨ c.val.toNat = 160 ∨ c.val.toNat = 5760 ∨
    (8192 ≤ c.val.toNat ∧ c.val.toNat ≤ 8202) ∨ c.val.toNat = 8232 ∨
    c.val.toNat = 8233 ∨ c.val.toNat = 8239 ∨ c.val.toNat = 8287 ∨
    c.val.toNat = 12288 ∨ c.val.toNat = 65279 := by
  simp only [jsWhitespace, Bool.or_eq_true_iff, decide_eq_true_eq, Char.ext_iff,
    Bool.and_eq_true_iff, Char.le_def, or_assoc] at hw
  rcases hw with w|w|w|w|w|w|w|w|⟨w1,w2⟩|w|w|w|w|w|w
  · exact Or.inl (congrArg UInt32.toNat w)
  · exact Or.inr (Or.inl (congrArg UInt32.toNat w))
  · exact Or.inr (Or.inr (Or.inl (congrArg UInt32.toNat w)))
  · exact Or.inr (Or.inr (Or.inr (Or.inl (congrArg UInt32.toNat w))))
  · exact Or.inr (Or.inr (Or.inr (Or.inr (Or.inl (congrArg UInt32.toNat w)))))
  · exact Or.inr (Or.inr (Or.inr (Or.inr (Or.inr (Or.inl (congrArg UInt32.toNat w))))))
  · exact Or.inr (Or.inr (Or.inr (Or.inr (Or.inr (Or.inr (Or.inl
      (congrArg UInt32.toNat w)))))))
  · exact Or.inr (Or.inr (Or.inr (Or.inr (Or.inr (Or.inr (Or.inr (Or.inl
      (congrArg UInt32.toNat w))))))))
  · exact Or.inr (Or.inr (Or.inr (Or.inr (Or.inr (Or.inr (Or.inr (Or.inr (Or.inl
      ⟨w1, w2⟩))))))))
  · exact Or.inr (Or.inr (Or.inr (Or.inr (Or.inr (Or.inr (Or.inr (Or.inr (Or.inr
      (Or.inl (congrArg UInt32.toNat w))))))))))
  · exact Or.inr (Or.inr (Or.inr (Or.inr (Or.inr (Or.inr (Or.inr (Or.inr (Or.inr
      (Or.inr (Or.inl (congrArg UInt32.toNat w)))))))))))
  · exact Or.inr (Or.inr (Or.inr (Or.inr (Or.inr (Or.inr (Or.inr (Or.inr (Or.inr
      (Or.inr (Or.inr (Or.inl (congrArg UInt32.toNat w))))))))))))
  · exact Or.inr (Or.inr (Or.inr (Or.inr (Or.inr (Or.inr (Or.inr (Or.inr (Or.inr
      (Or.inr (Or.inr (Or.inr (Or.inl (congrArg UInt32.toNat w)))))))))))))
  · exact Or.inr (Or.inr (Or.inr (Or.inr (Or.inr (Or.inr (Or.inr (Or.inr (Or.inr
      (Or.inr (Or.inr (Or.inr (Or.inr (Or.inl (congrArg UInt32.toNat w))))))))))))))
  · exact Or.inr (Or.inr (Or.inr (Or.inr (Or.inr (Or.inr (Or.inr (Or.inr (Or.inr
      (Or.inr (Or.inr (Or.inr (Or.inr (Or.inr (congrArg UInt32.toNat w))))))))))))))

/-- The numeric codepoint ranges of an identifier-start character. -/
theorem identStart_val_facts {c : Char} (h : identStart c = true) :
    (97 ≤ c.val.toNat ∧ c.val.toNat ≤ 122) ∨ (65 ≤ c.val.toNat ∧ c.val.toNat ≤ 90) ∨
    c.val.toNat = 960 ∨ c.val.toNat = 95 := by
  simp only [identStart, Bool.or_eq_true_iff, decide_eq_true_eq, Char.ext_iff,
    Bool.and_eq_true_iff, Char.le_def, or_assoc] at h
  rcases h with ⟨h1, h2⟩ | ⟨h1, h2⟩ | h | h
  · exact Or.inl ⟨h1, h2⟩
  · exact Or.inr (Or.inl ⟨h1, h2⟩)
  · exact Or.inr (Or.inr (Or.inl (congrArg UInt32.toNat h)))
  · exact Or.inr (Or.inr (Or.inr (congrArg UInt32.toNat h)))

theorem digit_val_facts {c : Char} (h : c.isDigit = true) :
    48 ≤ c.val.toNat ∧ c.val.toNat ≤ 57 := by
  simp only [Char.isDigit, Bool.and_eq_true_iff, decide_eq_true_eq, Char.le_def] at h
  exact ⟨h.1, h.2⟩

theorem digit_not_ws {c : Char} (h : c.isDigit = true) : jsWhitespace c = false := by
  rw [Bool.eq_false_iff]
  intro hw
  obtain ⟨h1, h2⟩ := digit_val_facts h
  rcases ws_val_facts hw with w|w|w|w|w|w|w|w|⟨w1,w2⟩|w|w|w|w|w|w <;> omega

theorem identStart_not_ws {c : Char} (h : identStart c = true) : jsWhitespace c = false := by
  rw [Bool.eq_false_iff]
  intro hw
  rcases identStart_val_facts h with ⟨h1, h2⟩ | ⟨h1, h2⟩ | h1 | h1 <;>
    rcases ws_val_facts hw with w|w|w|w|w|w|w|w|⟨w1,w2⟩|w|w|w|w|w|w <;> omega

theorem identStart_not_digit {c : Char} (h : identStart c = true) : c.isDigit = false := by
  rw [Bool.eq_false_iff]
  intro hd
  obtain ⟨h1, h2⟩ := digit_val_facts hd
  rcases identStart_val_facts h with ⟨w1, w2⟩ | ⟨w1, w2⟩ | w | w <;> omega

theorem identStart_ne_dot {c : Char} (h : identStart c = true) : ¬ c = '.' := by
  intro he
  subst he
  exact absurd h (by decide)

theorem identStart_ne_backslash {c : Char} (h : identStart c = true) : ¬ c = '\\' := by
  intro he
  subst he
  exact absurd h (by decide)

theorem startOK_ne_eq {c : Char} (h : startOK c = true) : ¬ c = '=' := by
  intro he
  subst he
  simp only [startOK, Bool.or_eq_true_iff, decide_eq_true_eq] at h
  rcases h with ((((h | h) | h) | h) | h) | h
  · exact absurd h (by decide)
  · exact absurd h (by decide)
  · exact absurd h (by decide)
  · exact absurd h (by decide)
  · exact absurd h (by decide)
  · exact absurd h (by decide)

theorem skipWhitespace_not {c : Char} (cs : List Char) (h : jsWhitespace c = false) :
    skipWhitespace (c :: cs) = c :: cs := by
  simp [skipWhitespace, h]

theorem processNumber_exact : ∀ (v : List Char) (hasDot : Bool) (ds : List Char),
    numTailOK hasDot v = true →
    (∀ c cs, ds = c :: cs → c.isDigit = false ∧ ¬ c = '.') →
    processNumber hasDot (v ++ ds) = (v, ds) := by
  intro v
  induction v with
  | nil =>
    intro hasDot ds _ hstop
    cases ds with
    | nil => rfl
    | cons c cs =>
      obtain ⟨h1, h2⟩ := hstop c cs rfl
      simp [processNumber, h1, h2]
  | cons c v ih =>
    intro hasDot ds hok hstop
    by_cases h1 : c.isDigit = true
    · have hok2 : numTailOK hasDot v = true := by simpa [numTailOK, h1] using hok
      simp [processNumber, h1, ih hasDot ds hok2 hstop]
    · have h1' : c.isDigit = false := by simpa using h1
      by_cases h2 : c = '.'
      · cases hasDot with
        | true =>
          exfalso
          simp [numTailOK, h1', h2] at hok
        | false =>
          have hok2 : numTailOK true v = true := by
            simpa [numTailOK, h1', h2] using hok
          simp [processNumber, h1', h2, ih true ds hok2 hstop]
      · exfalso
        simp [numTailOK, h1', h2] at hok

theorem processIdentifier_exact : ∀ (v ds : List Char),
    (∀ c ∈ v, identChar c = true) →
    (∀ c cs, ds = c :: cs → identChar c = false) →
    processIdentifier (v ++ ds) = (v, ds) := by
  intro v
  induction v with
  | nil =>
    intro ds _ hstop
    cases ds with
    | nil => rfl
    | cons c cs => simp [processIdentifier, hstop c cs rfl]
  | cons c v ih =>
    intro ds hall hstop
    have hc : identChar c = true := hall c (List.mem_cons_self c v)
    simp [processIdentifier, hc,
      ih ds (fun x hx => hall x (List.mem_cons_of_mem c hx)) hstop]

theorem tokenizeAux_step {cs : List Char} {tok : Token} {rest : List Char} (fuel : Nat)
    (h : getNextToken cs = (tok, rest)) (hne : ¬ tok.type = .eof) :
    tokenizeAux (fuel + 1) cs = tok :: tokenizeAux fuel rest := by
  have e : tokenizeAux (fuel + 1) cs =
      if (getNextToken cs).1.type = .eof then []
      else (getNextToken cs).1 :: tokenizeAux fuel (getNextToken cs).2 := rfl
  rw [e, h]
  dsimp only
  rw [if_neg hne]

theorem lexNum {v : String} (hv : validNumB v = true) (ds : List Char)
    (hstop : ∀ c cs, ds = c :: cs → c.isDigit = false ∧ ¬ c = '.') :
    getNextToken (v.data ++ ds) = (⟨.number, v⟩, ds) := by
  have hv2 := hv
  simp only [validNumB, Bool.and_eq_true_iff] at hv2
  obtain ⟨hok, h2⟩ := hv2
  cases hd : v.data with
  | nil =>
    rw [hd] at h2
    simp at h2
  | cons c rest =>
    rw [hd] at hok h2
    have hws : jsWhitespace c = false := by
      rcases Bool.or_eq_true_iff.mp h2 with h | h
      · exact digit_not_ws h
      · rcases Bool.and_eq_true_iff.mp h with ⟨h1, _⟩
        have hc : c = '.' := of_decide_eq_true h1
        subst hc
        decide
    rw [List.cons_append, getNextToken_cons (skipWhitespace_not (rest ++ ds) hws)]
    have hguard : (c.isDigit ||
        (c = '.' && (((rest ++ ds).head?).map Char.isDigit).getD false)) = true := by
      rcases Bool.or_eq_true_iff.mp h2 with h | h
      · simp [h]
      · rcases Bool.and_eq_true_iff.mp h with ⟨h1, h3⟩
        cases rest with
        | nil => simp at h3
        | cons c2 r2 =>
          simp only [] at h3
          simp [of_decide_eq_true h1, List.head?, h3]
    rw [if_pos hguard]
    have hpn : processNumber false (c :: (rest ++ ds)) = (c :: rest, ds) := by
      have := processNumber_exact (c :: rest) false ds hok hstop
      simpa using this
    simp only [hpn]
    have hmk : String.mk (c :: rest) = v := by rw [← hd]
    rw [hmk]

theorem lexIdent {v : String} (hv : validIdentB v = true) (ds : List Char)
    (hstop : ∀ c cs, ds = c :: cs → identChar c = false) :
    getNextToken (v.data ++ ds) = (⟨.identifier, v⟩, ds) := by
  have hv2 := hv
  simp only [validIdentB] at hv2
  cases hd : v.data with
  | nil =>
    rw [hd] at hv2
    simp at hv2
  | cons c rest =>
    rw [hd] at hv2
    simp only [Bool.and_eq_true_iff] at hv2
    obtain ⟨hstart, hrest⟩ := hv2
    have hws : jsWhitespace c = false := identStart_not_ws hstart
    rw [List.cons_append, getNextToken_cons (skipWhitespace_not (rest ++ ds) hws)]
    have hguard : (c.isDigit ||
        (c = '.' && (((rest ++ ds).head?).map Char.isDigit).getD false)) = false := by
      simp [identStart_not_digit hstart, identStart_ne_dot hstart]
    have hg2 : ¬ ((c.isDigit ||
        (c = '.' && (((rest ++ ds).head?).map Char.isDigit).getD false)) = true) := by
      rw [hguard]
      simp
    rw [if_neg hg2, if_pos hstart]
    have hall : ∀ x ∈ c :: rest, identChar x = true := by
      intro x hx
      rcases List.mem_cons.mp hx with hx | hx
      · subst hx
        simp [identChar, hstart]
      · exact (List.all_eq_true.mp hrest) x hx
    have hpi : processIdentifier (c :: (rest ++ ds)) = (c :: rest, ds) := by
      have := processIdentifier_exact (c :: rest) ds hall hstop
      simpa using this
    simp only [hpi]
    have hmk : String.mk (c :: rest) = v := by rw [← hd]
    rw [hmk]

theorem lexPlus (ds : List Char) : getNextToken ('+' :: ds) = (⟨.plus, "+"⟩, ds) := rfl

theorem lexMinus (ds : List Char) : getNextToken ('-' :: ds) = (⟨.minus, "-"⟩, ds) := rfl

theorem lexStar (ds : List Char) : getNextToken ('*' :: ds) = (⟨.multiply, "*"⟩, ds) := rfl

theorem lexSlash (ds : List Char) : getNextToken ('/' :: ds) = (⟨.divide, "/"⟩, ds) := rfl

theorem lexCaret (ds : List Char) : getNextToken ('^' :: ds) = (⟨.power, "^"⟩, ds) := rfl

theorem lexEqCh (ds : List Char) : getNextToken ('=' :: ds) = (⟨.equals, "="⟩, ds) := rfl

theorem lexLParen (ds : List Char) : getNextToken ('(' :: ds) = (⟨.lparen, "("⟩, ds) := rfl

theorem lexRParen (ds : List Char) : getNextToken (')' :: ds) = (⟨.rparen, ")"⟩, ds) := rfl

theorem lexLe (ds : List Char) :
    getNextToken ('<' :: '=' :: ds) = (⟨.lessEqual, "<="⟩, ds) := rfl

theorem lexGe (ds : List Char) :
    getNextToken ('>' :: '=' :: ds) = (⟨.greaterEqual, ">="⟩, ds) := rfl

theorem lexNe (ds : List Char) :
    getNextToken ('!' :: '=' :: ds) = (⟨.notEqual, "!="⟩, ds) := rfl

theorem lexLt (ds : List Char) (h : ∀ c cs, ds = c :: cs → ¬ c = '=') :
    getNextToken ('<' :: ds) = (⟨.lessThan, "<"⟩, ds) := by
  cases ds with
  | nil => rfl
  | cons c cs =>
    have hc := h c cs rfl
    have e : getNextToken ('<' :: c :: cs) = processOperator '<' (c :: cs) := rfl
    rw [e]
    simp only [processOperator]
    rw [if_neg (by simp [hc])]
    rw [if_neg (by simp), if_neg (by simp)]
    rfl

theorem lexGt (ds : List Char) (h : ∀ c cs, ds = c :: cs → ¬ c = '=') :
    getNextToken ('>' :: ds) = (⟨.greaterThan, ">"⟩, ds) := by
  cases ds with
  | nil => rfl
  | cons c cs =>
    have hc := h c cs rfl
    have e : getNextToken ('>' :: c :: cs) = processOperator '>' (c :: cs) := rfl
    rw [e]
    simp only [processOperator]
    rw [if_neg (by simp)]
    rw [if_neg (by simp [hc])]
    rw [if_neg (by simp)]
    rfl

theorem followOKc_of {c : Char} (rest : List Char)
    (h : c = '+' ∨ c = '-' ∨ c = '*' ∨ c = '/' ∨ c = '^' ∨ c = '<' ∨ c = '>' ∨
      c = '!' ∨ c = '=' ∨ c = ')') :
    followOKc (c :: rest) := h

theorem followOKc_numStop {ds : List Char} (h : followOKc ds) :
    ∀ c cs, ds = c :: cs → c.isDigit = false ∧ ¬ c = '.' := by
  intro c cs hd
  subst hd
  rcases h with h|h|h|h|h|h|h|h|h|h <;> subst h <;> exact ⟨by decide, by decide⟩

theorem followOKc_identStop {ds : List Char} (h : followOKc ds) :
    ∀ c cs, ds = c :: cs → identChar c = false := by
  intro c cs hd
  subst hd
  rcases h with h|h|h|h|h|h|h|h|h|h <;> subst h <;> decide

theorem lexOpTok {op : String} (hop : isBinOpStr op = true ∨ isCompOpStr op = true)
    (ds : List Char)
    (hne : op = "<" ∨ op = ">" → ∀ c cs, ds = c :: cs → ¬ c = '=') :
    getNextToken (op.data ++ ds) = (opToken op, ds) := by
  have hcases : op = "+" ∨ op = "-" ∨ op = "*" ∨ op = "/" ∨ op = "^" ∨
      op = "<" ∨ op = ">" ∨ op = "<=" ∨ op = ">=" ∨ op = "=" ∨ op = "!=" := by
    rcases hop with h | h
    · rcases binOp_cases h with h|h|h|h|h <;> tauto
    · rcases compOp_cases h with h|h|h|h|h|h <;> tauto
  rcases hcases with h|h|h|h|h|h|h|h|h|h|h <;> subst h
  · exact lexPlus ds
  · exact lexMinus ds
  · exact lexStar ds
  · exact lexSlash ds
  · exact lexCaret ds
  · exact lexLt ds (hne (Or.inl rfl))
  · exact lexGt ds (hne (Or.inr rfl))
  · exact lexLe ds
  · exact lexGe ds
  · exact lexEqCh ds
  · exact lexNe ds

theorem opToken_ne_eof {op : String}
    (hop : isBinOpStr op = true ∨ isCompOpStr op = true) :
    ¬ (opToken op).type = .eof := by
  have hcases : op = "+" ∨ op = "-" ∨ op = "*" ∨ op = "/" ∨ op = "^" ∨
      op = "<" ∨ op = ">" ∨ op = "<=" ∨ op = ">=" ∨ op = "=" ∨ op = "!=" := by
    rcases hop with h | h
    · rcases binOp_cases h with h|h|h|h|h <;> tauto
    · rcases compOp_cases h with h|h|h|h|h|h <;> tauto
  rcases hcases with h|h|h|h|h|h|h|h|h|h|h <;> subst h <;> decide

theorem lexRender : ∀ t, plainAST t = true → shapeB t = true →
    ∀ fuel ds, followOKc ds →
      tokenizeAux ((toks t).length + fuel) ((astToString t).data ++ ds) =
        toks t ++ tokenizeAux fuel ds := by
  intro t hp hs fuel ds hds
  cases t with
  | numberLiteral v =>
    have e : astToString (.numberLiteral v) = v := rfl
    rw [e]
    have hf : (toks (.numberLiteral v)).length + fuel = fuel + 1 := by
      simp only [toks, List.length_cons, List.length_nil]
      omega
    rw [hf]
    rw [tokenizeAux_step fuel
      (lexNum (show validNumB v = true from hs) ds (followOKc_numStop hds))
      (fun hx => TokenType.noConfusion hx)]
    rfl
  | identifier v =>
    have hne3 : ¬(v = "π") ∧ ¬(v = "τ") ∧ ¬(v = "φ") := by
      simp only [plainAST, Bool.not_eq_true', Bool.or_eq_false_iff,
        decide_eq_false_iff_not] at hp
      tauto
    have e : astToString (.identifier v) = v := by
      have e0 : astToString (.identifier v) =
          (if v = "π" then "pi" else if v = "τ" then "2*pi"
           else if v = "φ" then "(1+sqrt(5))/2" else v) := rfl
      rw [e0, if_neg hne3.1, if_neg hne3.2.1, if_neg hne3.2.2]
    rw [e]
    have hf : (toks (.identifier v)).length + fuel = fuel + 1 := by
      simp only [toks, List.length_cons, List.length_nil]
      omega
    rw [hf]
    rw [tokenizeAux_step fuel
      (lexIdent (show validIdentB v = true from hs) ds (followOKc_identStop hds))
      (fun hx => TokenType.noConfusion hx)]
    rfl
  | binaryExpression op l r =>
    have hp1 : plainAST l = true ∧ plainAST r = true := by
      simp only [plainAST, Bool.and_eq_true_iff] at hp
      exact hp
    have hsb := hs
    simp only [shapeB, Bool.and_eq_true_iff, decide_eq_true_eq] at hsb
    obtain ⟨⟨⟨⟨hb, hsl⟩, hsr⟩, hll⟩, hlr⟩ := hsb
    have hdata : (astToString (.binaryExpression op l r)).data ++ ds =
        (astToString l).data ++ (op.data ++ ((astToString r).data ++ ds)) := by
      rw [render_binary hs]
      simp [String.data_append]
    rw [hdata]
    have hf : (toks (.binaryExpression op l r)).length + fuel =
        (toks l).length + (((toks r).length + fuel) + 1) := by
      simp only [toks, List.length_append, List.length_cons]
      omega
    rw [hf]
    have hds1 : followOKc (op.data ++ ((astToString r).data ++ ds)) := by
      rcases binOp_cases hb with h|h|h|h|h <;> subst h
      · exact @followOKc_of '+' _ (by tauto)
      · exact @followOKc_of '-' _ (by tauto)
      · exact @followOKc_of '*' _ (by tauto)
      · exact @followOKc_of '/' _ (by tauto)
      · exact @followOKc_of '^' _ (by tauto)
    rw [lexRender l hp1.1 hsl (((toks r).length + fuel) + 1)
      (op.data ++ ((astToString r).data ++ ds)) hds1]
    obtain ⟨c0, cs0, hdr, hok0⟩ := render_head r hp1.2 hsr
    have hlex : getNextToken (op.data ++ ((astToString r).data ++ ds)) =
        (opToken op, (astToString r).data ++ ds) := by
      refine lexOpTok (Or.inl hb) _ ?_
      intro _ c cs hcc
      rw [hdr, List.cons_append] at hcc
      injection hcc with h1 _
      subst h1
      exact startOK_ne_eq hok0
    rw [tokenizeAux_step ((toks r).length + fuel) hlex (opToken_ne_eof (Or.inl hb))]
    rw [lexRender r hp1.2 hsr fuel ds hds]
    simp [toks]
  | comparisonExpression op l r =>
    have hp1 : plainAST l = true ∧ plainAST r = true := by
      simp only [plainAST, Bool.and_eq_true_iff] at hp
      exact hp
    have hsb := hs
    simp only [shapeB, Bool.and_eq_true_iff, decide_eq_true_eq] at hsb
    obtain ⟨⟨⟨⟨hb, hsl⟩, hsr⟩, hll⟩, hlr⟩ := hsb
    have hdata : (astToString (.comparisonExpression op l r)).data ++ ds =
        (astToString l).data ++ (op.data ++ ((astToString r).data ++ ds)) := by
      rw [render_comp]
      simp [String.data_append]
    rw [hdata]
    have hf : (toks (.comparisonExpression op l r)).length + fuel =
        (toks l).length + (((toks r).length + fuel) + 1) := by
      simp only [toks, List.length_append, List.length_cons]
      omega
    rw [hf]
    have hds1 : followOKc (op.data ++ ((astToString r).data ++ ds)) := by
      rcases compOp_cases hb with h|h|h|h|h|h <;> subst h
      · exact @followOKc_of '<' _ (by tauto)
      · exact @followOKc_of '>' _ (by tauto)
      · exact @followOKc_of '<' _ (by tauto)
      · exact @followOKc_of '>' _ (by tauto)
      · exact @followOKc_of '=' _ (by tauto)
      · exact @followOKc_of '!' _ (by tauto)
    rw [lexRender l hp1.1 hsl (((toks r).length + fuel) + 1)
      (op.data ++ ((astToString r).data ++ ds)) hds1]
    obtain ⟨c0, cs0, hdr, hok0⟩ := render_head r hp1.2 hsr
    have hlex : getNextToken (op.data ++ ((astToString r).data ++ ds)) =
        (opToken op, (astToString r).data ++ ds) := by
      refine lexOpTok (Or.inr hb) _ ?_
      intro _ c cs hcc
      rw [hdr, List.cons_append] at hcc
      injection hcc with h1 _
      subst h1
      exact startOK_ne_eq hok0
    rw [tokenizeAux_step ((toks r).length + fuel) hlex (opToken_ne_eof (Or.inr hb))]
    rw [lexRender r hp1.2 hsr fuel ds hds]
    simp [toks]
  | unaryExpression op u =>
    have hpu : plainAST u = true := by simpa [plainAST] using hp
    have hsu2 := hs
    simp only [shapeB, Bool.and_eq_true_iff, decide_eq_true_eq] at hsu2
    obtain ⟨⟨hop, hsu⟩, hlu⟩ := hsu2
    have hbop : isBinOpStr op = true := by
      rcases Bool.or_eq_true_iff.mp hop with h | h
      · rw [of_decide_eq_true h]
        decide
      · rw [of_decide_eq_true h]
        decide
    have hdata : (astToString (.unaryExpression op u)).data ++ ds =
        op.data ++ ((astToString u).data ++ ds) := by
      rw [render_unary hs]
      simp [String.data_append]
    rw [hdata]
    have hf : (toks (.unaryExpression op u)).length + fuel =
        ((toks u).length + fuel) + 1 := by
      simp only [toks, List.length_cons]
      omega
    rw [hf]
    have hne : op = "<" ∨ op = ">" → ∀ c cs,
        (astToString u).data ++ ds = c :: cs → ¬ c = '=' := by
      intro hlt
      exfalso
      rcases Bool.or_eq_true_iff.mp hop with h | h <;> rcases hlt with h2 | h2 <;>
        · rw [of_decide_eq_true h] at h2
          exact absurd h2 (by decide)
    rw [tokenizeAux_step ((toks u).length + fuel) (lexOpTok (Or.inl hbop) _ hne)
      (opToken_ne_eof (Or.inl hbop))]
    rw [lexRender u hpu hsu fuel ds hds]
    rfl
  | parenthesizedExpression e =>
    have hpe : plainAST e = true := by simpa [plainAST] using hp
    have hse : shapeB e = true := by
      simp only [shapeB, Bool.and_eq_true_iff] at hs
      exact hs.1
    have hdata : (astToString (.parenthesizedExpression e)).data ++ ds =
        '(' :: ((astToString e).data ++ (')' :: ds)) := by
      rw [render_paren]
      simp [String.data_append]
    rw [hdata]
    have hf : (toks (.parenthesizedExpression e)).length + fuel =
        (((toks e).length + (fuel + 1)) + 1) := by
      simp only [toks, List.length_cons, List.length_append, List.length_nil]
      omega
    rw [hf]
    rw [tokenizeAux_step ((toks e).length + (fuel + 1)) (lexLParen _) (by decide)]
    rw [lexRender e hpe hse (fuel + 1) (')' :: ds) (@followOKc_of ')' ds (by tauto))]
    rw [tokenizeAux_step fuel (lexRParen ds) (by decide)]
    simp [toks]
  | functionCall n a => exact absurd hp (by simp [plainAST])
  | arrayExpression es => exact absurd hp (by simp [plainAST])
  | matrixExpression rs => exact absurd hp (by simp [plainAST])
  | assignmentExpression o a b => exact absurd hp (by simp [plainAST])
  | null => exact absurd hp (by simp [plainAST])

theorem toks_le_chars : ∀ t, plainAST t = true → shapeB t = true →
    (toks t).length ≤ (astToString t).data.length := by
  intro t hp hs
  cases t with
  | numberLiteral v =>
    obtain ⟨c, cs, hd, _⟩ := render_head _ hp hs
    simp [toks, hd]
  | identifier v =>
    obtain ⟨c, cs, hd, _⟩ := render_head _ hp hs
    simp [toks, hd]
  | binaryExpression op l r =>
    have hp1 : plainAST l = true ∧ plainAST r = true := by
      simp only [plainAST, Bool.and_eq_true_iff] at hp
      exact hp
    have hsb := hs
    simp only [shapeB, Bool.and_eq_true_iff, decide_eq_true_eq] at hsb
    obtain ⟨⟨⟨⟨hb, hsl⟩, hsr⟩, _⟩, _⟩ := hsb
    have h1 := toks_le_chars l hp1.1 hsl
    have h2 := toks_le_chars r hp1.2 hsr
    have hop : 1 ≤ op.data.length := by
      rcases binOp_cases hb with h|h|h|h|h <;> subst h <;> decide
    rw [render_binary hs]
    simp only [toks, List.length_append, List.length_cons, String.data_append]
    omega
  | comparisonExpression op l r =>
    have hp1 : plainAST l = true ∧ plainAST r = true := by
      simp only [plainAST, Bool.and_eq_true_iff] at hp
      exact hp
    have hsb := hs
    simp only [shapeB, Bool.and_eq_true_iff, decide_eq_true_eq] at hsb
    obtain ⟨⟨⟨⟨hb, hsl⟩, hsr⟩, _⟩, _⟩ := hsb
    have h1 := toks_le_chars l hp1.1 hsl
    have h2 := toks_le_chars r hp1.2 hsr
    have hop : 1 ≤ op.data.length := by
      rcases compOp_cases hb with h|h|h|h|h|h <;> subst h <;> decide
    rw [render_comp]
    simp only [toks, List.length_append, List.length_cons, String.data_append]
    omega
  | unaryExpression op u =>
    have hpu : plainAST u = true := by simpa [plainAST] using hp
    have hsu2 := hs
    simp only [shapeB, Bool.and_eq_true_iff, decide_eq_true_eq] at hsu2
    obtain ⟨⟨hop, hsu⟩, _⟩ := hsu2
    have h1 := toks_le_chars u hpu hsu
    have hol : 1 ≤ op.data.length := by
      rcases Bool.or_eq_true_iff.mp hop with h | h <;> rw [of_decide_eq_true h] <;> decide
    rw [render_unary hs]
    simp only [toks, List.length_cons, String.data_append, List.length_append]
    omega
  | parenthesizedExpression e =>
    have hpe : plainAST e = true := by simpa [plainAST] using hp
    have hse : shapeB e = true := by
      simp only [shapeB, Bool.and_eq_true_iff] at hs
      exact hs.1
    have h1 := toks_le_chars e hpe hse
    rw [render_paren]
    simp only [toks, List.length_cons, String.data_append, List.length_append,
      List.length_nil]
    omega
  | functionCall n a => exact absurd hp (by simp [plainAST])
  | arrayExpression es => exact absurd hp (by simp [plainAST])
  | matrixExpression rs => exact absurd hp (by simp [plainAST])
  | assignmentExpression o a b => exact absurd hp (by simp [plainAST])
  | null => exact absurd hp (by simp [plainAST])

theorem tokenizeAux_nil (fuel : Nat) : tokenizeAux fuel [] = [] := by
  cases fuel with
  | zero => rfl
  | succ f => rfl

/-- Lexing the rendering of a plain shape-correct tree gives exactly its
token sequence. -/
theorem tokenize_render {t : AST} (hp : plainAST t = true) (hs : shapeB t = true) :
    tokenize (astToString t) = toks t := by
  unfold tokenize
  have hlen := toks_le_chars t hp hs
  have htl : (astToString t).toList = (astToString t).data := rfl
  rw [htl]
  have hf : (astToString t).data.length + 1 =
      (toks t).length + ((astToString t).data.length + 1 - (toks t).length) := by
    omega
  rw [hf]
  have h2 := lexRender t hp hs ((astToString t).data.length + 1 - (toks t).length)
    [] trivial
  rw [List.append_nil] at h2
  rw [h2, tokenizeAux_nil, List.append_nil]

theorem pairsToks_append (ps qs : List (String × AST)) :
    pairsToks (ps ++ qs) = pairsToks ps ++ pairsToks qs := by
  induction ps with
  | nil => simp [pairsToks]
  | cons p ps ih =>
    obtain ⟨op, r⟩ := p
    simp [pairsToks, ih]

theorem rebuildB_append (node : AST) (ps qs : List (String × AST)) :
    rebuildB node (ps ++ qs) = rebuildB (rebuildB node ps) qs := by
  induction ps generalizing node with
  | nil => rfl
  | cons p ps ih =>
    obtain ⟨op, r⟩ := p
    simp [rebuildB, ih]

theorem rebuildC_append (node : AST) (ps qs : List (String × AST)) :
    rebuildC node (ps ++ qs) = rebuildC (rebuildC node ps) qs := by
  induction ps generalizing node with
  | nil => rfl
  | cons p ps ih =>
    obtain ⟨op, r⟩ := p
    simp [rebuildC, ih]

theorem sizePairs_append (ps qs : List (String × AST)) :
    sizePairs (ps ++ qs) = sizePairs ps + sizePairs qs := by
  induction ps with
  | nil => simp [sizePairs]
  | cons p ps ih =>
    obtain ⟨op, r⟩ := p
    simp [sizePairs, ih]
    omega

theorem opLvl_le (op : String) : opLvl op ≤ 4 := by
  unfold opLvl
  split_ifs <;> omega

/-- Left-spine decomposition of a binary chain at operator level `L`. -/
theorem binSpine (L : Nat) (hL2 : 2 ≤ L) (hL4 : L ≤ 4) :
    ∀ t, plainAST t = true → shapeB t = true → lvl t ≤ L →
    ∃ t0 ps, plainAST t0 = true ∧ shapeB t0 = true ∧ lvl t0 ≤ L - 1 ∧
      (∀ p ∈ ps, isBinOpStr p.1 = true ∧ opLvl p.1 = L ∧ plainAST p.2 = true ∧
        shapeB p.2 = true ∧ lvl p.2 ≤ L - 1) ∧
      toks t = toks t0 ++ pairsToks ps ∧ rebuildB t0 ps = t ∧
      sizeT t0 + sizePairs ps = sizeT t := by
  intro t hp hs hlvl
  by_cases hbase : lvl t ≤ L - 1
  · exact ⟨t, [], hp, hs, hbase, by simp, by simp [pairsToks], rfl, by simp [sizePairs]⟩
  · cases t with
    | binaryExpression op l r =>
      have hsb := hs
      simp only [shapeB, Bool.and_eq_true_iff, decide_eq_true_eq] at hsb
      obtain ⟨⟨⟨⟨hb, hsl⟩, hsr⟩, hll⟩, hlr⟩ := hsb
      have hp1 : plainAST l = true ∧ plainAST r = true := by
        simp only [plainAST, Bool.and_eq_true_iff] at hp
        exact hp
      have hlt : lvl (.binaryExpression op l r) = opLvl op := rfl
      rw [hlt] at hlvl hbase
      have hopL : opLvl op = L := by omega
      obtain ⟨t0, ps, hpt0, hst0, hlt0, hps, htk, hrb, hsz⟩ :=
        binSpine L hL2 hL4 l hp1.1 hsl (by omega)
      refine ⟨t0, ps ++ [(op, r)], hpt0, hst0, hlt0, ?_, ?_, ?_, ?_⟩
      · intro p hpm
        rcases List.mem_append.mp hpm with hpm | hpm
        · exact hps p hpm
        · rcases List.mem_singleton.mp hpm with rfl
          exact ⟨hb, hopL, hp1.2, hsr, by dsimp only; omega⟩
      · rw [pairsToks_append]
        simp only [toks, htk, pairsToks, List.append_nil]
        simp [List.append_assoc]
      · rw [rebuildB_append, hrb]
        rfl
      · rw [sizePairs_append]
        simp only [sizePairs, sizeT]
        omega
    | numberLiteral v => exact absurd (by simp only [lvl]; omega : lvl (AST.numberLiteral v) ≤ L - 1) hbase
    | identifier v => exact absurd (by simp only [lvl]; omega : lvl (AST.identifier v) ≤ L - 1) hbase
    | unaryExpression o u => exact absurd (by simp only [lvl]; omega : lvl (AST.unaryExpression o u) ≤ L - 1) hbase
    | functionCall n a => exact absurd (by simp only [lvl]; omega : lvl (AST.functionCall n a) ≤ L - 1) hbase
    | arrayExpression es => exact absurd (by simp only [lvl]; omega : lvl (AST.arrayExpression es) ≤ L - 1) hbase
    | matrixExpression rs => exact absurd (by simp only [lvl]; omega : lvl (AST.matrixExpression rs) ≤ L - 1) hbase
    | comparisonExpression o a b => exact absurd hlvl (by simp [lvl]; omega)
    | assignmentExpression o a b => exact absurd hs (by simp [shapeB])
    | parenthesizedExpression e => exact absurd (by simp only [lvl]; omega : lvl (AST.parenthesizedExpression e) ≤ L - 1) hbase
    | null => exact absurd hs (by simp [shapeB])

/-- Left-spine decomposition of a comparison chain. -/
theorem compSpine : ∀ t, plainAST t = true → shapeB t = true → lvl t ≤ 5 →
    ∃ t0 ps, plainAST t0 = true ∧ shapeB t0 = true ∧ lvl t0 ≤ 4 ∧
      (∀ p ∈ ps, isCompOpStr p.1 = true ∧ plainAST p.2 = true ∧
        shapeB p.2 = true ∧ lvl p.2 ≤ 4) ∧
      toks t = toks t0 ++ pairsToks ps ∧ rebuildC t0 ps = t ∧
      sizeT t0 + sizePairs ps = sizeT t := by
  intro t hp hs hlvl
  by_cases hbase : lvl t ≤ 4
  · exact ⟨t, [], hp, hs, hbase, by simp, by simp [pairsToks], rfl, by simp [sizePairs]⟩
  · cases t with
    | comparisonExpression op l r =>
      have hsb := hs
      simp only [shapeB, Bool.and_eq_true_iff, decide_eq_true_eq] at hsb
      obtain ⟨⟨⟨⟨hb, hsl⟩, hsr⟩, hll⟩, hlr⟩ := hsb
      have hp1 : plainAST l = true ∧ plainAST r = true := by
        simp only [plainAST, Bool.and_eq_true_iff] at hp
        exact hp
      obtain ⟨t0, ps, hpt0, hst0, hlt0, hps, htk, hrb, hsz⟩ :=
        compSpine l hp1.1 hsl hll
      refine ⟨t0, ps ++ [(op, r)], hpt0, hst0, hlt0, ?_, ?_, ?_, ?_⟩
      · intro p hpm
        rcases List.mem_append.mp hpm with hpm | hpm
        · exact hps p hpm
        · rcases List.mem_singleton.mp hpm with rfl
          exact ⟨hb, hp1.2, hsr, by dsimp only; omega⟩
      · rw [pairsToks_append]
        simp only [toks, htk, pairsToks, List.append_nil]
        simp [List.append_assoc]
      · rw [rebuildC_append, hrb]
        rfl
      · rw [sizePairs_append]
        simp only [sizePairs, sizeT]
        omega
    | numberLiteral v => exact absurd (by simp [lvl] : lvl (AST.numberLiteral v) ≤ 4) hbase
    | identifier v => exact absurd (by simp [lvl] : lvl (AST.identifier v) ≤ 4) hbase
    | unaryExpression o u => exact absurd (by simp [lvl] : lvl (AST.unaryExpression o u) ≤ 4) hbase
    | functionCall n a => exact absurd (by simp [lvl] : lvl (AST.functionCall n a) ≤ 4) hbase
    | arrayExpression es => exact absurd (by simp [lvl] : lvl (AST.arrayExpression es) ≤ 4) hbase
    | matrixExpression rs => exact absurd (by simp [lvl] : lvl (AST.matrixExpression rs) ≤ 4) hbase
    | binaryExpression o a b =>
      exact absurd
        (by simp only [lvl]; exact opLvl_le o : lvl (AST.binaryExpression o a b) ≤ 4) hbase
    | assignmentExpression o a b => exact absurd hs (by simp [shapeB])
    | parenthesizedExpression e => exact absurd (by simp [lvl] : lvl (AST.parenthesizedExpression e) ≤ 4) hbase
    | null => exact absurd hs (by simp [shapeB])

theorem headNotIn_mono {rest : List Token} {bad1 bad2 : List TokenType}
    (hsub : ∀ ty, ty ∈ bad1 → ty ∈ bad2) (h : headNotIn rest bad2) : headNotIn rest bad1 :=
  fun tok t2 he hm => h tok t2 he (hsub _ hm)

theorem expBad_sub_termBad : ∀ ty, ty ∈ expBad → ty ∈ termBad := by
  intro ty h
  simp only [expBad, List.mem_singleton] at h
  simp [termBad, h]

theorem termBad_sub_addBad : ∀ ty, ty ∈ termBad → ty ∈ addBad := by
  intro ty h
  simp only [termBad, List.mem_cons, List.not_mem_nil, or_false] at h
  rcases h with h|h|h <;> simp [addBad, h]

theorem addBad_sub_compBad : ∀ ty, ty ∈ addBad → ty ∈ compBad := by
  intro ty h
  simp only [addBad, List.mem_cons, List.not_mem_nil, or_false] at h
  rcases h with h|h|h|h|h <;> simp [compBad, h]

theorem opLvl4_cases {op : String} (hb : isBinOpStr op = true) (hl : opLvl op = 4) :
    op = "+" ∨ op = "-" := by
  rcases binOp_cases hb with h|h|h|h|h <;> subst h
  · exact Or.inl rfl
  · exact Or.inr rfl
  · exact absurd hl (by decide)
  · exact absurd hl (by decide)
  · exact absurd hl (by decide)

theorem opLvl3_cases {op : String} (hb : isBinOpStr op = true) (hl : opLvl op = 3) :
    op = "*" ∨ op = "/" := by
  rcases binOp_cases hb with h|h|h|h|h <;> subst h
  · exact absurd hl (by decide)
  · exact absurd hl (by decide)
  · exact Or.inl rfl
  · exact Or.inr rfl
  · exact absurd hl (by decide)

theorem opLvl2_cases {op : String} (hb : isBinOpStr op = true) (hl : opLvl op = 2) :
    op = "^" := by
  rcases binOp_cases hb with h|h|h|h|h <;> subst h
  · exact absurd hl (by decide)
  · exact absurd hl (by decide)
  · exact absurd hl (by decide)
  · exact absurd hl (by decide)
  · rfl

theorem addLoopRT (ps : List (String × AST)) :
    ∀ fuel node rest E,
    (∀ p ∈ ps, (p.1 = "+" ∨ p.1 = "-") ∧
      (∀ fuel2 rest2 E2, 8 * sizeT p.2 + 2 ≤ fuel2 → headNotIn rest2 termBad →
        parseTerm fuel2 ⟨toks p.2 ++ rest2, E2⟩ = .ok (some p.2) ⟨rest2, E2⟩)) →
    headNotIn rest addBad →
    8 * sizePairs ps + 1 ≤ fuel →
    addLoop fuel (some node) ⟨pairsToks ps ++ rest, E⟩ =
      .ok (some (rebuildB node ps)) ⟨rest, E⟩ := by
  induction ps with
  | nil =>
    intro fuel node rest E _ hnot hfuel
    cases fuel with
    | zero => omega
    | succ f =>
      have hcond : ¬ ((decide (peekType (⟨rest, E⟩ : PState) = some TokenType.plus) ||
          decide (peekType (⟨rest, E⟩ : PState) = some TokenType.minus)) = true) := by
        cases rest with
        | nil => simp [peekType, peekT]
        | cons tok t2 =>
          have hmem := hnot tok t2 rfl
          intro hx
          rcases Bool.or_eq_true_iff.mp hx with h | h
          · have hty : tok.type = TokenType.plus := by
              simpa [peekType, peekT] using of_decide_eq_true h
            exact hmem (by simp [addBad, hty])
          · have hty : tok.type = TokenType.minus := by
              simpa [peekType, peekT] using of_decide_eq_true h
            exact hmem (by simp [addBad, hty])
      have e1 : addLoop (f + 1) (some node) ⟨rest, E⟩ = .ok (some node) ⟨rest, E⟩ := by
        simp only [addLoop]
        rw [if_neg hcond]
      simp only [pairsToks, List.nil_append]
      rw [e1]
      rfl
  | cons p ps ih =>
    obtain ⟨op, r⟩ := p
    intro fuel node rest E hcap hnot hfuel
    have hop : op = "+" ∨ op = "-" := (hcap (op, r) (List.mem_cons_self _ _)).1
    have hsub := (hcap (op, r) (List.mem_cons_self _ _)).2
    have hty : (opToken op).type = TokenType.plus ∨
        (opToken op).type = TokenType.minus := by
      rcases hop with h | h <;> subst h
      · exact Or.inl rfl
      · exact Or.inr rfl
    have hval : (opToken op).value = op := by
      rcases hop with h | h <;> subst h <;> rfl
    have hsz : sizePairs ((op, r) :: ps) = sizeT r + 1 + sizePairs ps := rfl
    rw [hsz] at hfuel
    cases fuel with
    | zero => omega
    | succ f =>
      have hpt : pairsToks ((op, r) :: ps) ++ rest =
          opToken op :: (toks r ++ (pairsToks ps ++ rest)) := by
        simp [pairsToks, List.append_assoc]
      rw [hpt]
      have hcond : ((decide (peekType (⟨opToken op :: (toks r ++ (pairsToks ps ++ rest)),
          E⟩ : PState) = some TokenType.plus) ||
          decide (peekType (⟨opToken op :: (toks r ++ (pairsToks ps ++ rest)), E⟩ :
          PState) = some TokenType.minus)) = true) := by
        rcases hty with h | h
        · simp [peekType, peekT, h]
        · simp [peekType, peekT, h]
      have e1 : addLoop (f + 1) (some node)
          ⟨opToken op :: (toks r ++ (pairsToks ps ++ rest)), E⟩ =
          match parseTerm f ⟨toks r ++ (pairsToks ps ++ rest), E⟩ with
          | .ok right s2 =>
            addLoop f (some (.binaryExpression (opToken op).value
              (optAST (some node)) (optAST right))) s2
          | .exn s2 => .exn s2
          | .out => .out := by
        simp only [addLoop]
        rw [if_pos hcond, consume_none_cons]
      have hnot2 : headNotIn (pairsToks ps ++ rest) termBad := by
        cases hq : ps with
        | nil =>
          simp only [pairsToks, List.nil_append]
          exact headNotIn_mono termBad_sub_addBad hnot
        | cons q qs =>
          obtain ⟨op2, r2⟩ := q
          have hmem2 : (op2, r2) ∈ (op, r) :: ps := by
            rw [hq]
            exact List.mem_cons_of_mem _ (List.mem_cons_self _ _)
          have hop2 : op2 = "+" ∨ op2 = "-" := (hcap (op2, r2) hmem2).1
          intro tok t2 he hm
          have he' : opToken op2 :: ((toks r2 ++ pairsToks qs) ++ rest) = tok :: t2 := by
            simpa [pairsToks, List.append_assoc] using he
          injection he' with h1 _
          rcases hop2 with h | h <;> subst h
          · have h2 : tok.type = TokenType.plus :=
              h1 ▸ (rfl : (opToken "+").type = TokenType.plus)
            rw [h2] at hm
            exact absurd hm (by decide)
          · have h2 : tok.type = TokenType.minus :=
              h1 ▸ (rfl : (opToken "-").type = TokenType.minus)
            rw [h2] at hm
            exact absurd hm (by decide)
      have hfr : 8 * sizeT r + 2 ≤ f := by omega
      have hP := hsub f (pairsToks ps ++ rest) E hfr hnot2
      have e2 : addLoop (f + 1) (some node)
          ⟨opToken op :: (toks r ++ (pairsToks ps ++ rest)), E⟩ =
          addLoop f (some (.binaryExpression op node r)) ⟨pairsToks ps ++ rest, E⟩ := by
        rw [e1, hP, hval]
        exact rfl
      rw [e2]
      rw [ih f (.binaryExpression op node r) rest E
        (fun p hp2 => hcap p (List.mem_cons_of_mem _ hp2)) hnot (by omega)]
      rfl

theorem termLoopRT (ps : List (String × AST)) :
    ∀ fuel node rest E,
    (∀ p ∈ ps, (p.1 = "*" ∨ p.1 = "/") ∧
      (∀ fuel2 rest2 E2, 8 * sizeT p.2 + 1 ≤ fuel2 → headNotIn rest2 expBad →
        parseExponent fuel2 ⟨toks p.2 ++ rest2, E2⟩ = .ok (some p.2) ⟨rest2, E2⟩)) →
    headNotIn rest termBad →
    8 * sizePairs ps + 1 ≤ fuel →
    termLoop fuel (some node) ⟨pairsToks ps ++ rest, E⟩ =
      .ok (some (rebuildB node ps)) ⟨rest, E⟩ := by
  induction ps with
  | nil =>
    intro fuel node rest E _ hnot hfuel
    cases fuel with
    | zero => omega
    | succ f =>
      have hcond : ¬ ((decide (peekType (⟨rest, E⟩ : PState) = some TokenType.multiply) ||
          decide (peekType (⟨rest, E⟩ : PState) = some TokenType.divide)) = true) := by
        cases rest with
        | nil => simp [peekType, peekT]
        | cons tok t2 =>
          have hmem := hnot tok t2 rfl
          intro hx
          rcases Bool.or_eq_true_iff.mp hx with h | h
          · have hty : tok.type = TokenType.multiply := by
              simpa [peekType, peekT] using of_decide_eq_true h
            exact hmem (by simp [termBad, hty])
          · have hty : tok.type = TokenType.divide := by
              simpa [peekType, peekT] using of_decide_eq_true h
            exact hmem (by simp [termBad, hty])
      have e1 : termLoop (f + 1) (some node) ⟨rest, E⟩ = .ok (some node) ⟨rest, E⟩ := by
        simp only [termLoop]
        rw [if_neg hcond]
      simp only [pairsToks, List.nil_append]
      rw [e1]
      rfl
  | cons p ps ih =>
    obtain ⟨op, r⟩ := p
    intro fuel node rest E hcap hnot hfuel
    have hop : op = "*" ∨ op = "/" := (hcap (op, r) (List.mem_cons_self _ _)).1
    have hsub := (hcap (op, r) (List.mem_cons_self _ _)).2
    have hty : (opToken op).type = TokenType.multiply ∨
        (opToken op).type = TokenType.divide := by
      rcases hop with h | h <;> subst h
      · exact Or.inl rfl
      · exact Or.inr rfl
    have hval : (opToken op).value = op := by
      rcases hop with h | h <;> subst h <;> rfl
    have hsz : sizePairs ((op, r) :: ps) = sizeT r + 1 + sizePairs ps := rfl
    rw [hsz] at hfuel
    cases fuel with
    | zero => omega
    | succ f =>
      have hpt : pairsToks ((op, r) :: ps) ++ rest =
          opToken op :: (toks r ++ (pairsToks ps ++ rest)) := by
        simp [pairsToks, List.append_assoc]
      rw [hpt]
      have hcond : ((decide (peekType (⟨opToken op :: (toks r ++ (pairsToks ps ++ rest)),
          E⟩ : PState) = some TokenType.multiply) ||
          decide (peekType (⟨opToken op :: (toks r ++ (pairsToks ps ++ rest)), E⟩ :
          PState) = some TokenType.divide)) = true) := by
        rcases hty with h | h
        · simp [peekType, peekT, h]
        · simp [peekType, peekT, h]
      have e1 : termLoop (f + 1) (some node)
          ⟨opToken op :: (toks r ++ (pairsToks ps ++ rest)), E⟩ =
          match parseExponent f ⟨toks r ++ (pairsToks ps ++ rest), E⟩ with
          | .ok right s2 =>
            termLoop f (some (.binaryExpression (opToken op).value
              (optAST (some node)) (optAST right))) s2
          | .exn s2 => .exn s2
          | .out => .out := by
        simp only [termLoop]
        rw [if_pos hcond, consume_none_cons]
      have hnot2 : headNotIn (pairsToks ps ++ rest) expBad := by
        cases hq : ps with
        | nil =>
          simp only [pairsToks, List.nil_append]
          exact headNotIn_mono expBad_sub_termBad hnot
        | cons q qs =>
          obtain ⟨op2, r2⟩ := q
          have hmem2 : (op2, r2) ∈ (op, r) :: ps := by
            rw [hq]
            exact List.mem_cons_of_mem _ (List.mem_cons_self _ _)
          have hop2 : op2 = "*" ∨ op2 = "/" := (hcap (op2, r2) hmem2).1
          intro tok t2 he hm
          have he' : opToken op2 :: ((toks r2 ++ pairsToks qs) ++ rest) = tok :: t2 := by
            simpa [pairsToks, List.append_assoc] using he
          injection he' with h1 _
          rcases hop2 with h | h <;> subst h
          · have h2 : tok.type = TokenType.multiply :=
              h1 ▸ (rfl : (opToken "*").type = TokenType.multiply)
            rw [h2] at hm
            exact absurd hm (by decide)
          · have h2 : tok.type = TokenType.divide :=
              h1 ▸ (rfl : (opToken "/").type = TokenType.divide)
            rw [h2] at hm
            exact absurd hm (by decide)
      have hfr : 8 * sizeT r + 1 ≤ f := by omega
      have hP := hsub f (pairsToks ps ++ rest) E hfr hnot2
      have e2 : termLoop (f + 1) (some node)
          ⟨opToken op :: (toks r ++ (pairsToks ps ++ rest)), E⟩ =
          termLoop f (some (.binaryExpression op node r)) ⟨pairsToks ps ++ rest, E⟩ := by
        rw [e1, hP, hval]
        exact rfl
      rw [e2]
      rw [ih f (.binaryExpression op node r) rest E
        (fun p hp2 => hcap p (List.mem_cons_of_mem _ hp2)) hnot (by omega)]
      rfl

theorem expLoopRT (ps : List (String × AST)) :
    ∀ fuel node rest E,
    (∀ p ∈ ps, p.1 = "^" ∧
      (∀ fuel2 rest2 E2, 8 * sizeT p.2 ≤ fuel2 →
        parsePrimary fuel2 ⟨toks p.2 ++ rest2, E2⟩ = .ok (some p.2) ⟨rest2, E2⟩)) →
    headNotIn rest expBad →
    8 * sizePairs ps + 1 ≤ fuel →
    expLoop fuel (some node) ⟨pairsToks ps ++ rest, E⟩ =
      .ok (some (rebuildB node ps)) ⟨rest, E⟩ := by
  induction ps with
  | nil =>
    intro fuel node rest E _ hnot hfuel
    cases fuel with
    | zero => omega
    | succ f =>
      have hcond : ¬ (peekType (⟨rest, E⟩ : PState) = some TokenType.power) := by
        cases rest with
        | nil => simp [peekType, peekT]
        | cons tok t2 =>
          have hmem := hnot tok t2 rfl
          intro hx
          have hty : tok.type = TokenType.power := by
            simpa [peekType, peekT] using hx
          exact hmem (by simp [expBad, hty])
      have e1 : expLoop (f + 1) (some node) ⟨rest, E⟩ = .ok (some node) ⟨rest, E⟩ := by
        simp only [expLoop]
        rw [if_neg hcond]
      simp only [pairsToks, List.nil_append]
      rw [e1]
      rfl
  | cons p ps ih =>
    obtain ⟨op, r⟩ := p
    intro fuel node rest E hcap hnot hfuel
    have hop : op = "^" := (hcap (op, r) (List.mem_cons_self _ _)).1
    have hsub := (hcap (op, r) (List.mem_cons_self _ _)).2
    have hty : (opToken op).type = TokenType.power := by
      subst hop
      rfl
    have hval : (opToken op).value = op := by
      subst hop
      rfl
    have hsz : sizePairs ((op, r) :: ps) = sizeT r + 1 + sizePairs ps := rfl
    rw [hsz] at hfuel
    cases fuel with
    | zero => omega
    | succ f =>
      have hpt : pairsToks ((op, r) :: ps) ++ rest =
          opToken op :: (toks r ++ (pairsToks ps ++ rest)) := by
        simp [pairsToks, List.append_assoc]
      rw [hpt]
      have hcond : peekType (⟨opToken op :: (toks r ++ (pairsToks ps ++ rest)), E⟩ :
          PState) = some TokenType.power := by
        simp [peekType, peekT, hty]
      have e1 : expLoop (f + 1) (some node)
          ⟨opToken op :: (toks r ++ (pairsToks ps ++ rest)), E⟩ =
          match parsePrimary f ⟨toks r ++ (pairsToks ps ++ rest), E⟩ with
          | .ok right s2 =>
            expLoop f (some (.binaryExpression (opToken op).value
              (optAST (some node)) (optAST right))) s2
          | .exn s2 => .exn s2
          | .out => .out := by
        simp only [expLoop]
        rw [if_pos hcond, consume_none_cons]
      have hfr : 8 * sizeT r ≤ f := by omega
      have hP := hsub f (pairsToks ps ++ rest) E hfr
      have e2 : expLoop (f + 1) (some node)
          ⟨opToken op :: (toks r ++ (pairsToks ps ++ rest)), E⟩ =
          expLoop f (some (.binaryExpression op node r)) ⟨pairsToks ps ++ rest, E⟩ := by
        rw [e1, hP, hval]
        exact rfl
      rw [e2]
      rw [ih f (.binaryExpression op node r) rest E
        (fun p hp2 => hcap p (List.mem_cons_of_mem _ hp2)) hnot (by omega)]
      rfl

theorem isCompType_cases {ty : TokenType} (h : isCompType (some ty) = true) :
    ty = TokenType.lessThan ∨ ty = TokenType.greaterThan ∨ ty = TokenType.lessEqual ∨
    ty = TokenType.greaterEqual ∨ ty = TokenType.equals ∨ ty = TokenType.notEqual := by
  simp only [isCompType, Bool.or_eq_true_iff, decide_eq_true_eq, Option.some.injEq] at h
  tauto

theorem compLoopRT (ps : List (String × AST)) :
    ∀ fuel node rest E,
    (∀ p ∈ ps, isCompOpStr p.1 = true ∧
      (∀ fuel2 rest2 E2, 8 * sizeT p.2 + 3 ≤ fuel2 → headNotIn rest2 addBad →
        parseAdditive fuel2 ⟨toks p.2 ++ rest2, E2⟩ = .ok (some p.2) ⟨rest2, E2⟩)) →
    headNotIn rest compBad →
    8 * sizePairs ps + 1 ≤ fuel →
    compLoop fuel (some node) ⟨pairsToks ps ++ rest, E⟩ =
      .ok (some (rebuildC node ps)) ⟨rest, E⟩ := by
  induction ps with
  | nil =>
    intro fuel node rest E _ hnot hfuel
    cases fuel with
    | zero => omega
    | succ f =>
      have hcond : ¬ (isCompType (peekType (⟨rest, E⟩ : PState)) = true) := by
        cases rest with
        | nil => simp [peekType, peekT, isCompType]
        | cons tok t2 =>
          have hmem := hnot tok t2 rfl
          intro hx
          have hx2 : isCompType (some tok.type) = true := by
            simpa [peekType, peekT] using hx
          rcases isCompType_cases hx2 with h|h|h|h|h|h <;>
            exact hmem (by simp [compBad, h])
      have e1 : compLoop (f + 1) (some node) ⟨rest, E⟩ = .ok (some node) ⟨rest, E⟩ := by
        simp only [compLoop]
        rw [if_neg hcond]
      simp only [pairsToks, List.nil_append]
      rw [e1]
      rfl
  | cons p ps ih =>
    obtain ⟨op, r⟩ := p
    intro fuel node rest E hcap hnot hfuel
    have hop : isCompOpStr op = true := (hcap (op, r) (List.mem_cons_self _ _)).1
    have hsub := (hcap (op, r) (List.mem_cons_self _ _)).2
    have hty : isCompType (some (opToken op).type) = true := by
      rcases compOp_cases hop with h|h|h|h|h|h <;> subst h <;> decide
    have hval : (opToken op).value = op := by
      rcases compOp_cases hop with h|h|h|h|h|h <;> subst h <;> rfl
    have hsz : sizePairs ((op, r) :: ps) = sizeT r + 1 + sizePairs ps := rfl
    rw [hsz] at hfuel
    cases fuel with
    | zero => omega
    | succ f =>
      have hpt : pairsToks ((op, r) :: ps) ++ rest =
          opToken op :: (toks r ++ (pairsToks ps ++ rest)) := by
        simp [pairsToks, List.append_assoc]
      rw [hpt]
      have hcond : isCompType (peekType (⟨opToken op :: (toks r ++ (pairsToks ps ++ rest)),
          E⟩ : PState)) = true := by
        have e0 : peekType (⟨opToken op :: (toks r ++ (pairsToks ps ++ rest)), E⟩ :
            PState) = some (opToken op).type := rfl
        rw [e0]
        exact hty
      have e1 : compLoop (f + 1) (some node)
          ⟨opToken op :: (toks r ++ (pairsToks ps ++ rest)), E⟩ =
          match parseAdditive f ⟨toks r ++ (pairsToks ps ++ rest), E⟩ with
          | .ok right s2 =>
            compLoop f (some (.comparisonExpression (opToken op).value
              (optAST (some node)) (optAST right))) s2
          | .exn s2 => .exn s2
          | .out => .out := by
        simp only [compLoop]
        rw [if_pos hcond, consume_none_cons]
      have hnot2 : headNotIn (pairsToks ps ++ rest) addBad := by
        cases hq : ps with
        | nil =>
          simp only [pairsToks, List.nil_append]
          exact headNotIn_mono addBad_sub_compBad hnot
        | cons q qs =>
          obtain ⟨op2, r2⟩ := q
          have hmem2 : (op2, r2) ∈ (op, r) :: ps := by
            rw [hq]
            exact List.mem_cons_of_mem _ (List.mem_cons_self _ _)
          have hop2 : isCompOpStr op2 = true := (hcap (op2, r2) hmem2).1
          intro tok t2 he hm
          have he' : opToken op2 :: ((toks r2 ++ pairsToks qs) ++ rest) = tok :: t2 := by
            simpa [pairsToks, List.append_assoc] using he
          injection he' with h1 _
          rcases compOp_cases hop2 with h | h | h | h | h | h <;> subst h
          · have h2 : tok.type = TokenType.lessThan :=
              h1 ▸ (rfl : (opToken "<").type = TokenType.lessThan)
            rw [h2] at hm
            exact absurd hm (by decide)
          · have h2 : tok.type = TokenType.greaterThan :=
              h1 ▸ (rfl : (opToken ">").type = TokenType.greaterThan)
            rw [h2] at hm
            exact absurd hm (by decide)
          · have h2 : tok.type = TokenType.lessEqual :=
              h1 ▸ (rfl : (opToken "<=").type = TokenType.lessEqual)
            rw [h2] at hm
            exact absurd hm (by decide)
          · have h2 : tok.type = TokenType.greaterEqual :=
              h1 ▸ (rfl : (opToken ">=").type = TokenType.greaterEqual)
            rw [h2] at hm
            exact absurd hm (by decide)
          · have h2 : tok.type = TokenType.equals :=
              h1 ▸ (rfl : (opToken "=").type = TokenType.equals)
            rw [h2] at hm
            exact absurd hm (by decide)
          · have h2 : tok.type = TokenType.notEqual :=
              h1 ▸ (rfl : (opToken "!=").type = TokenType.notEqual)
            rw [h2] at hm
            exact absurd hm (by decide)
      have hfr : 8 * sizeT r + 3 ≤ f := by omega
      have hP := hsub f (pairsToks ps ++ rest) E hfr hnot2
      have e2 : compLoop (f + 1) (some node)
          ⟨opToken op :: (toks r ++ (pairsToks ps ++ rest)), E⟩ =
          compLoop f (some (.comparisonExpression op node r))
            ⟨pairsToks ps ++ rest, E⟩ := by
        rw [e1, hP, hval]
        exact rfl
      rw [e2]
      rw [ih f (.comparisonExpression op node r) rest E
        (fun p hp2 => hcap p (List.mem_cons_of_mem _ hp2)) hnot (by omega)]
      rfl

theorem sizeT_pos : ∀ t, 1 ≤ sizeT t := by
  intro t
  cases t <;> simp only [sizeT] <;> omega

theorem sizeT_le_toks : ∀ t, plainAST t = true → sizeT t ≤ (toks t).length := by
  intro t hp
  cases t with
  | numberLiteral v => simp [sizeT, toks]
  | identifier v => simp [sizeT, toks]
  | binaryExpression op l r =>
    have hp1 : plainAST l = true ∧ plainAST r = true := by
      simp only [plainAST, Bool.and_eq_true_iff] at hp
      exact hp
    have h1 := sizeT_le_toks l hp1.1
    have h2 := sizeT_le_toks r hp1.2
    simp only [sizeT, toks, List.length_append, List.length_cons]
    omega
  | comparisonExpression op l r =>
    have hp1 : plainAST l = true ∧ plainAST r = true := by
      simp only [plainAST, Bool.and_eq_true_iff] at hp
      exact hp
    have h1 := sizeT_le_toks l hp1.1
    have h2 := sizeT_le_toks r hp1.2
    simp only [sizeT, toks, List.length_append, List.length_cons]
    omega
  | unaryExpression op u =>
    have hpu : plainAST u = true := by simpa [plainAST] using hp
    have h1 := sizeT_le_toks u hpu
    simp only [sizeT, toks, List.length_cons]
    omega
  | parenthesizedExpression e =>
    have hpe : plainAST e = true := by simpa [plainAST] using hp
    have h1 := sizeT_le_toks e hpe
    simp only [sizeT, toks, List.length_cons, List.length_append, List.length_nil]
    omega
  | functionCall n a => exact absurd hp (by simp [plainAST])
  | arrayExpression es => exact absurd hp (by simp [plainAST])
  | matrixExpression rs => exact absurd hp (by simp [plainAST])
  | assignmentExpression o a b => exact absurd hp (by simp [plainAST])
  | null => exact absurd hp (by simp [plainAST])

theorem shapeB_lvl : ∀ t, shapeB t = true → lvl t ≤ 5 := by
  intro t hs
  cases t with
  | assignmentExpression o a b => exact absurd hs (by simp [shapeB])
  | binaryExpression op l r =>
    have h := opLvl_le op
    simp only [lvl]
    omega
  | numberLiteral v => simp [lvl]
  | identifier v => simp [lvl]
  | unaryExpression o u => simp [lvl]
  | comparisonExpression o a b => simp [lvl]
  | parenthesizedExpression e => simp [lvl]
  | functionCall n a => simp [lvl]
  | arrayExpression es => simp [lvl]
  | matrixExpression rs => simp [lvl]
  | null => simp [lvl]

theorem opLvl_ge2 {op : String} (h : isBinOpStr op = true) : 2 ≤ opLvl op := by
  rcases binOp_cases h with h|h|h|h|h <;> subst h <;> decide

theorem sizePairs_mem : ∀ (ps : List (String × AST)) (p : String × AST), p ∈ ps →
    sizeT p.2 + 1 ≤ sizePairs ps := by
  intro ps
  induction ps with
  | nil =>
    intro p hp
    exact absurd hp (List.not_mem_nil p)
  | cons q qs ih =>
    obtain ⟨op, r⟩ := q
    intro p hp
    rcases List.mem_cons.mp hp with h | h
    · subst h
      simp only [sizePairs]
      omega
    · have h2 := ih p h
      simp only [sizePairs]
      omega

theorem headNotIn_nil (bad : List TokenType) : headNotIn [] bad :=
  fun _ _ he _ => List.noConfusion he

theorem headNotIn_cons {tok : Token} {t2 : List Token} {bad : List TokenType}
    (h : ¬ tok.type ∈ bad) : headNotIn (tok :: t2) bad := by
  intro a b he hm
  injection he with h1 _
  rw [← h1] at hm
  exact h hm

theorem headNotIn_pairs {ps : List (String × AST)} {rest : List Token} {bad : List TokenType}
    (hps : ∀ p ∈ ps, ¬ (opToken p.1).type ∈ bad)
    (hrest : headNotIn rest bad) :
    headNotIn (pairsToks ps ++ rest) bad := by
  cases ps with
  | nil => simpa [pairsToks] using hrest
  | cons q qs =>
    obtain ⟨op, r⟩ := q
    have he : pairsToks ((op, r) :: qs) ++ rest =
        opToken op :: ((toks r ++ pairsToks qs) ++ rest) := by
      simp [pairsToks, List.append_assoc]
    rw [he]
    exact headNotIn_cons (hps (op, r) (List.mem_cons_self _ _))

/-- Round trip at the primary level: the tokens of a size-bounded plain
shape-correct level-1 tree parse back to exactly that tree. -/
def PrimRT (n : Nat) : Prop :=
  ∀ t, sizeT t ≤ n → plainAST t = true → shapeB t = true → lvl t ≤ 1 →
  ∀ fuel rest E, 8 * sizeT t ≤ fuel →
    parsePrimary fuel ⟨toks t ++ rest, E⟩ = .ok (some t) ⟨rest, E⟩

/-- Round trip at the exponent level. -/
def ExpRT (n : Nat) : Prop :=
  ∀ t, sizeT t ≤ n → plainAST t = true → shapeB t = true → lvl t ≤ 2 →
  ∀ fuel rest E, 8 * sizeT t + 1 ≤ fuel → headNotIn rest expBad →
    parseExponent fuel ⟨toks t ++ rest, E⟩ = .ok (some t) ⟨rest, E⟩

/-- Round trip at the term level. -/
def TermRT (n : Nat) : Prop :=
  ∀ t, sizeT t ≤ n → plainAST t = true → shapeB t = true → lvl t ≤ 3 →
  ∀ fuel rest E, 8 * sizeT t + 2 ≤ fuel → headNotIn rest termBad →
    parseTerm fuel ⟨toks t ++ rest, E⟩ = .ok (some t) ⟨rest, E⟩

/-- Round trip at the additive level. -/
def AddRT (n : Nat) : Prop :=
  ∀ t, sizeT t ≤ n → plainAST t = true → shapeB t = true → lvl t ≤ 4 →
  ∀ fuel rest E, 8 * sizeT t + 3 ≤ fuel → headNotIn rest addBad →
    parseAdditive fuel ⟨toks t ++ rest, E⟩ = .ok (some t) ⟨rest, E⟩

/-- Round trip at the comparison level. -/
def CompRT (n : Nat) : Prop :=
  ∀ t, sizeT t ≤ n → plainAST t = true → shapeB t = true → lvl t ≤ 5 →
  ∀ fuel rest E, 8 * sizeT t + 4 ≤ fuel → headNotIn rest compBad →
    parseComparison fuel ⟨toks t ++ rest, E⟩ = .ok (some t) ⟨rest, E⟩

/-- Round trip through `parseAssignment`. -/
def AssignRT (n : Nat) : Prop :=
  ∀ t, sizeT t ≤ n → plainAST t = true → shapeB t = true → lvl t ≤ 5 →
  ∀ fuel rest E, 8 * sizeT t + 5 ≤ fuel → headNotIn rest compBad →
    parseAssignment fuel ⟨toks t ++ rest, E⟩ = .ok (some t) ⟨rest, E⟩

/-- Round trip through `parseExpression`. -/
def ExprRT (n : Nat) : Prop :=
  ∀ t, sizeT t ≤ n → plainAST t = true → shapeB t = true → lvl t ≤ 5 →
  ∀ fuel rest E, 8 * sizeT t + 6 ≤ fuel → headNotIn rest compBad →
    parseExpression fuel ⟨toks t ++ rest, E⟩ = .ok (some t) ⟨rest, E⟩

theorem primRT_step (n : Nat) (ihP : PrimRT n) (ihE : ExprRT n) : PrimRT (n + 1) := by
  intro t hsz hp hs hlvl fuel rest E hfuel
  cases t with
  | numberLiteral v =>
    cases fuel with
    | zero => simp only [sizeT] at hfuel; omega
    | succ f =>
      have hlist : toks (AST.numberLiteral v) ++ rest = Token.mk .number v :: rest := by
        simp [toks]
      rw [hlist]
      simp only [parsePrimary]
      rfl
  | identifier v =>
    cases fuel with
    | zero => simp only [sizeT] at hfuel; omega
    | succ f =>
      have hlist : toks (AST.identifier v) ++ rest = Token.mk .identifier v :: rest := by
        simp [toks]
      rw [hlist]
      simp only [parsePrimary]
      rfl
  | unaryExpression op u =>
    have hpu : plainAST u = true := by simpa [plainAST] using hp
    have hsu2 := hs
    simp only [shapeB, Bool.and_eq_true_iff, decide_eq_true_eq] at hsu2
    obtain ⟨⟨hop, hsu⟩, hlu⟩ := hsu2
    have hszu : sizeT u ≤ n := by simp only [sizeT] at hsz; omega
    cases fuel with
    | zero => simp only [sizeT] at hfuel; omega
    | succ f =>
      have hPu := ihP u hszu hpu hsu hlu f rest E (by simp only [sizeT] at hfuel; omega)
      rcases Bool.or_eq_true_iff.mp hop with h | h
      · have hop2 : op = "+" := of_decide_eq_true h
        subst hop2
        have hlist : toks (AST.unaryExpression "+" u) ++ rest =
            Token.mk .plus "+" :: (toks u ++ rest) := by
          simp [toks, opToken]
        rw [hlist]
        have e1 : parsePrimary (f + 1) ⟨Token.mk .plus "+" :: (toks u ++ rest), E⟩ =
            match parsePrimary f ⟨toks u ++ rest, E⟩ with
            | .ok operand s2 => .ok (some (.unaryExpression "+" (optAST operand))) s2
            | .exn s2 => .exn s2
            | .out => .out := by
          simp only [parsePrimary]
          rfl
        rw [e1, hPu]
        rfl
      · have hop2 : op = "-" := of_decide_eq_true h
        subst hop2
        have hlist : toks (AST.unaryExpression "-" u) ++ rest =
            Token.mk .minus "-" :: (toks u ++ rest) := by
          simp [toks, opToken]
        rw [hlist]
        have e1 : parsePrimary (f + 1) ⟨Token.mk .minus "-" :: (toks u ++ rest), E⟩ =
            match parsePrimary f ⟨toks u ++ rest, E⟩ with
            | .ok operand s2 => .ok (some (.unaryExpression "-" (optAST operand))) s2
            | .exn s2 => .exn s2
            | .out => .out := by
          simp only [parsePrimary]
          rfl
        rw [e1, hPu]
        rfl
  | parenthesizedExpression e =>
    have hpe : plainAST e = true := by simpa [plainAST] using hp
    have hse2 := hs
    simp only [shapeB, Bool.and_eq_true_iff, decide_eq_true_eq] at hse2
    obtain ⟨hse, hle⟩ := hse2
    have hsze : sizeT e ≤ n := by simp only [sizeT] at hsz; omega
    cases fuel with
    | zero => simp only [sizeT] at hfuel; omega
    | succ f =>
      have hnotR : headNotIn (Token.mk .rparen ")" :: rest) compBad :=
        headNotIn_cons (by decide)
      have hEe := ihE e hsze hpe hse hle f (Token.mk .rparen ")" :: rest) E
        (by simp only [sizeT] at hfuel; omega) hnotR
      have hlist : toks (AST.parenthesizedExpression e) ++ rest =
          Token.mk .lparen "(" :: (toks e ++ (Token.mk .rparen ")" :: rest)) := by
        simp [toks, List.append_assoc]
      rw [hlist]
      have e1 : parsePrimary (f + 1)
          ⟨Token.mk .lparen "(" :: (toks e ++ (Token.mk .rparen ")" :: rest)), E⟩ =
          match parseExpression f ⟨toks e ++ (Token.mk .rparen ")" :: rest), E⟩ with
          | .ok expr s2 => .ok (some (.parenthesizedExpression (optAST expr)))
              (consume (some .rparen) s2).2
          | .exn s2 => .exn s2
          | .out => .out := by
        simp only [parsePrimary]
        rfl
      rw [e1, hEe]
      rfl
  | binaryExpression op l r =>
    have hsb := hs
    simp only [shapeB, Bool.and_eq_true_iff, decide_eq_true_eq] at hsb
    obtain ⟨⟨⟨⟨hb, _⟩, _⟩, _⟩, _⟩ := hsb
    have h2 := opLvl_ge2 hb
    simp only [lvl] at hlvl
    omega
  | comparisonExpression o a b =>
    simp only [lvl] at hlvl
    omega
  | assignmentExpression o a b => exact absurd hs (by simp [shapeB])
  | functionCall nm a => exact absurd hp (by simp [plainAST])
  | arrayExpression es => exact absurd hp (by simp [plainAST])
  | matrixExpression rs => exact absurd hp (by simp [plainAST])
  | null => exact absurd hp (by simp [plainAST])

theorem expRT_step (n : Nat) (hP : PrimRT (n + 1)) : ExpRT (n + 1) := by
  intro t hsz hp hs hlvl fuel rest E hfuel hnot
  obtain ⟨t0, ps, hpt0, hst0, hlt0, hps, htk, hrb, hsize⟩ :=
    binSpine 2 (by omega) (by omega) t hp hs hlvl
  cases fuel with
  | zero =>
    have h1 := sizeT_pos t
    omega
  | succ f =>
    have hpos0 := sizeT_pos t0
    have hP0 := hP t0 (by omega) hpt0 hst0 hlt0 f (pairsToks ps ++ rest) E (by omega)
    have hcap : ∀ p ∈ ps, p.1 = "^" ∧
        (∀ fuel2 rest2 E2, 8 * sizeT p.2 ≤ fuel2 →
          parsePrimary fuel2 ⟨toks p.2 ++ rest2, E2⟩ = .ok (some p.2) ⟨rest2, E2⟩) := by
      intro p hpm
      obtain ⟨hb, hl2, hpp, hsp, hlp⟩ := hps p hpm
      refine ⟨opLvl2_cases hb hl2, ?_⟩
      intro fuel2 rest2 E2 hf2
      have hmem := sizePairs_mem ps p hpm
      exact hP p.2 (by omega) hpp hsp hlp fuel2 rest2 E2 hf2
    have e2 : parseExponent (f + 1) ⟨(toks t0 ++ pairsToks ps) ++ rest, E⟩ =
        expLoop f (some t0) ⟨pairsToks ps ++ rest, E⟩ := by
      have e1 : parseExponent (f + 1) ⟨toks t0 ++ (pairsToks ps ++ rest), E⟩ =
          match parsePrimary f ⟨toks t0 ++ (pairsToks ps ++ rest), E⟩ with
          | .ok node s1 => expLoop f node s1
          | .exn s1 => .exn s1
          | .out => .out := by
        simp only [parseExponent]
      rw [List.append_assoc, e1, hP0]
    rw [htk, e2, expLoopRT ps f t0 rest E hcap hnot (by omega), hrb]

theorem termRT_step (n : Nat) (hX : ExpRT (n + 1)) : TermRT (n + 1) := by
  intro t hsz hp hs hlvl fuel rest E hfuel hnot
  obtain ⟨t0, ps, hpt0, hst0, hlt0, hps, htk, hrb, hsize⟩ :=
    binSpine 3 (by omega) (by omega) t hp hs hlvl
  cases fuel with
  | zero =>
    have h1 := sizeT_pos t
    omega
  | succ f =>
    have hpos0 := sizeT_pos t0
    have hnot0 : headNotIn (pairsToks ps ++ rest) expBad := by
      refine headNotIn_pairs ?_ (headNotIn_mono expBad_sub_termBad hnot)
      intro p hpm
      obtain ⟨hb, hl3, _, _, _⟩ := hps p hpm
      rcases opLvl3_cases hb hl3 with h | h <;> rw [h] <;> decide
    have hX0 := hX t0 (by omega) hpt0 hst0 hlt0 f (pairsToks ps ++ rest) E (by omega) hnot0
    have hcap : ∀ p ∈ ps, (p.1 = "*" ∨ p.1 = "/") ∧
        (∀ fuel2 rest2 E2, 8 * sizeT p.2 + 1 ≤ fuel2 → headNotIn rest2 expBad →
          parseExponent fuel2 ⟨toks p.2 ++ rest2, E2⟩ = .ok (some p.2) ⟨rest2, E2⟩) := by
      intro p hpm
      obtain ⟨hb, hl3, hpp, hsp, hlp⟩ := hps p hpm
      refine ⟨opLvl3_cases hb hl3, ?_⟩
      intro fuel2 rest2 E2 hf2 hn2
      have hmem := sizePairs_mem ps p hpm
      exact hX p.2 (by omega) hpp hsp hlp fuel2 rest2 E2 hf2 hn2
    have e2 : parseTerm (f + 1) ⟨(toks t0 ++ pairsToks ps) ++ rest, E⟩ =
        termLoop f (some t0) ⟨pairsToks ps ++ rest, E⟩ := by
      have e1 : parseTerm (f + 1) ⟨toks t0 ++ (pairsToks ps ++ rest), E⟩ =
          match parseExponent f ⟨toks t0 ++ (pairsToks ps ++ rest), E⟩ with
          | .ok node s1 => termLoop f node s1
          | .exn s1 => .exn s1
          | .out => .out := by
        simp only [parseTerm]
      rw [List.append_assoc, e1, hX0]
    rw [htk, e2, termLoopRT ps f t0 rest E hcap hnot (by omega), hrb]

theorem addRT_step (n : Nat) (hT : TermRT (n + 1)) : AddRT (n + 1) := by
  intro t hsz hp hs hlvl fuel rest E hfuel hnot
  obtain ⟨t0, ps, hpt0, hst0, hlt0, hps, htk, hrb, hsize⟩ :=
    binSpine 4 (by omega) (by omega) t hp hs hlvl
  cases fuel with
  | zero =>
    have h1 := sizeT_pos t
    omega
  | succ f =>
    have hpos0 := sizeT_pos t0
    have hnot0 : headNotIn (pairsToks ps ++ rest) termBad := by
      refine headNotIn_pairs ?_ (headNotIn_mono termBad_sub_addBad hnot)
      intro p hpm
      obtain ⟨hb, hl4, _, _, _⟩ := hps p hpm
      rcases opLvl4_cases hb hl4 with h | h <;> rw [h] <;> decide
    have hT0 := hT t0 (by omega) hpt0 hst0 hlt0 f (pairsToks ps ++ rest) E (by omega) hnot0
    have hcap : ∀ p ∈ ps, (p.1 = "+" ∨ p.1 = "-") ∧
        (∀ fuel2 rest2 E2, 8 * sizeT p.2 + 2 ≤ fuel2 → headNotIn rest2 termBad →
          parseTerm fuel2 ⟨toks p.2 ++ rest2, E2⟩ = .ok (some p.2) ⟨rest2, E2⟩) := by
      intro p hpm
      obtain ⟨hb, hl4, hpp, hsp, hlp⟩ := hps p hpm
      refine ⟨opLvl4_cases hb hl4, ?_⟩
      intro fuel2 rest2 E2 hf2 hn2
      have hmem := sizePairs_mem ps p hpm
      exact hT p.2 (by omega) hpp hsp hlp fuel2 rest2 E2 hf2 hn2
    have e2 : parseAdditive (f + 1) ⟨(toks t0 ++ pairsToks ps) ++ rest, E⟩ =
        addLoop f (some t0) ⟨pairsToks ps ++ rest, E⟩ := by
      have e1 : parseAdditive (f + 1) ⟨toks t0 ++ (pairsToks ps ++ rest), E⟩ =
          match parseTerm f ⟨toks t0 ++ (pairsToks ps ++ rest), E⟩ with
          | .ok node s1 => addLoop f node s1
          | .exn s1 => .exn s1
          | .out => .out := by
        simp only [parseAdditive]
      rw [List.append_assoc, e1, hT0]
    rw [htk, e2, addLoopRT ps f t0 rest E hcap hnot (by omega), hrb]

theorem compRT_step (n : Nat) (hA : AddRT (n + 1)) : CompRT (n + 1) := by
  intro t hsz hp hs hlvl fuel rest E hfuel hnot
  obtain ⟨t0, ps, hpt0, hst0, hlt0, hps, htk, hrb, hsize⟩ :=
    compSpine t hp hs hlvl
  cases fuel with
  | zero =>
    have h1 := sizeT_pos t
    omega
  | succ f =>
    have hpos0 := sizeT_pos t0
    have hnot0 : headNotIn (pairsToks ps ++ rest) addBad := by
      refine headNotIn_pairs ?_ (headNotIn_mono addBad_sub_compBad hnot)
      intro p hpm
      obtain ⟨hb, _, _, _⟩ := hps p hpm
      rcases compOp_cases hb with h | h | h | h | h | h <;> rw [h] <;> decide
    have hA0 := hA t0 (by omega) hpt0 hst0 hlt0 f (pairsToks ps ++ rest) E (by omega) hnot0
    have hcap : ∀ p ∈ ps, isCompOpStr p.1 = true ∧
        (∀ fuel2 rest2 E2, 8 * sizeT p.2 + 3 ≤ fuel2 → headNotIn rest2 addBad →
          parseAdditive fuel2 ⟨toks p.2 ++ rest2, E2⟩ = .ok (some p.2) ⟨rest2, E2⟩) := by
      intro p hpm
      obtain ⟨hb, hpp, hsp, hlp⟩ := hps p hpm
      refine ⟨hb, ?_⟩
      intro fuel2 rest2 E2 hf2 hn2
      have hmem := sizePairs_mem ps p hpm
      exact hA p.2 (by omega) hpp hsp hlp fuel2 rest2 E2 hf2 hn2
    have e2 : parseComparison (f + 1) ⟨(toks t0 ++ pairsToks ps) ++ rest, E⟩ =
        compLoop f (some t0) ⟨pairsToks ps ++ rest, E⟩ := by
      have e1 : parseComparison (f + 1) ⟨toks t0 ++ (pairsToks ps ++ rest), E⟩ =
          match parseAdditive f ⟨toks t0 ++ (pairsToks ps ++ rest), E⟩ with
          | .ok node s1 => compLoop f node s1
          | .exn s1 => .exn s1
          | .out => .out := by
        simp only [parseComparison]
      rw [List.append_assoc, e1, hA0]
    rw [htk, e2, compLoopRT ps f t0 rest E hcap hnot (by omega), hrb]

theorem assignRT_step (n : Nat) (hC : CompRT (n + 1)) : AssignRT (n + 1) := by
  intro t hsz hp hs hlvl fuel rest E hfuel hnot
  cases fuel with
  | zero =>
    have h1 := sizeT_pos t
    omega
  | succ f =>
    have hCt := hC t hsz hp hs hlvl f rest E (by omega) hnot
    have hcond : ¬ (isIdentifier t = true ∧
        peekType (⟨rest, E⟩ : PState) = some TokenType.equals) := by
      rintro ⟨-, hpk⟩
      cases rest with
      | nil => simp [peekType, peekT] at hpk
      | cons tok t2 =>
        have hty : tok.type = TokenType.equals := by
          simpa [peekType, peekT] using hpk
        exact hnot tok t2 rfl (by simp [compBad, hty])
    have e1 : parseAssignment (f + 1) ⟨toks t ++ rest, E⟩ =
        if isIdentifier t = true ∧ peekType (⟨rest, E⟩ : PState) = some TokenType.equals then
          match consume none (⟨rest, E⟩ : PState) with
          | (some opTok, s2) =>
            match parseAssignment f s2 with
            | .ok right s3 =>
              .ok (some (.assignmentExpression opTok.value t (optAST right))) s3
            | .exn s3 => .exn s3
            | .out => .out
          | (none, s2) => .exn s2
        else .ok (some t) ⟨rest, E⟩ := by
      simp only [parseAssignment]
      rw [hCt]
    rw [e1, if_neg hcond]

theorem exprRT_step (n : Nat) (hS : AssignRT (n + 1)) : ExprRT (n + 1) := by
  intro t hsz hp hs hlvl fuel rest E hfuel hnot
  cases fuel with
  | zero =>
    have h1 := sizeT_pos t
    omega
  | succ f =>
    have e1 : parseExpression (f + 1) ⟨toks t ++ rest, E⟩ =
        parseAssignment f ⟨toks t ++ rest, E⟩ := by
      simp only [parseExpression]
    rw [e1]
    exact hS t hsz hp hs hlvl f rest E (by omega) hnot

/-- All seven round-trip properties at once, for the size induction. -/
def RTAll (n : Nat) : Prop :=
  PrimRT n ∧ ExpRT n ∧ TermRT n ∧ AddRT n ∧ CompRT n ∧ AssignRT n ∧ ExprRT n

theorem rtAll : ∀ n, RTAll n := by
  intro n
  induction n with
  | zero =>
    refine ⟨?_, ?_, ?_, ?_, ?_, ?_, ?_⟩ <;>
    · intro t hsz
      have h1 := sizeT_pos t
      exact absurd hsz (by omega)
  | succ n ih =>
    obtain ⟨hP, hX, hT, hA, hC, hS, hE⟩ := ih
    have hP2 := primRT_step n hP hE
    have hX2 := expRT_step n hP2
    have hT2 := termRT_step n hX2
    have hA2 := addRT_step n hT2
    have hC2 := compRT_step n hA2
    have hS2 := assignRT_step n hC2
    have hE2 := exprRT_step n hS2
    exact ⟨hP2, hX2, hT2, hA2, hC2, hS2, hE2⟩

/-- `parse` on the token rendering of a plain shape-correct tree returns
exactly that tree, with no diagnostics. -/
theorem parse_toks {t : AST} (hp : plainAST t = true) (hs : shapeB t = true) :
    parse (toks t) = .ast (some t) := by
  have hE := (rtAll (sizeT t)).2.2.2.2.2.2
  have hlvl := shapeB_lvl t hs
  have hlen := sizeT_le_toks t hp
  have hcall := hE t le_rfl hp hs hlvl (8 * (toks t).length + 16) [] []
    (by omega) (headNotIn_nil compBad)
  rw [List.append_nil] at hcall
  simp only [parse]
  rw [hcall]
  rfl

/-- A `parse` run that returns an AST came from a successful `parseExpression`
that consumed every token and recorded no diagnostics. -/
theorem parse_ast_state {tokens : List Token} {r : Option AST}
    (h : parse tokens = .ast r) :
    parseExpression (8 * tokens.length + 16) ⟨tokens, []⟩ = .ok r ⟨[], []⟩ := by
  simp only [parse] at h
  rcases hPE : parseExpression (8 * tokens.length + 16) ⟨tokens, []⟩
    with ⟨result, s1⟩ | s1 | _ <;> rw [hPE] at h
  · dsimp only at h
    by_cases hrest : s1.rest = []
    · rw [if_pos hrest] at h
      by_cases herr : s1.errors = []
      · rw [if_pos herr] at h
        cases h
        have hs1 : s1 = ⟨[], []⟩ := by
          obtain ⟨a, b⟩ := s1
          have h1 : a = [] := hrest
          have h2 : b = [] := herr
          rw [h1, h2]
        rw [hs1]
      · rw [if_neg herr] at h
        exact absurd h (fun hx => ParseOutcome.noConfusion hx)
    · rw [if_neg hrest] at h
      by_cases herr : (addError ("解析が完了しましたが、未処理のトークンが残っています: " ++
          String.intercalate " " (s1.rest.map Token.value)) s1).errors = []
      · exact absurd herr (by simp [addError])
      · rw [if_neg herr] at h
        exact absurd h (fun hx => ParseOutcome.noConfusion hx)
  · dsimp only at h
    by_cases herr : s1.errors = []
    · rw [if_pos herr] at h
      exact absurd h (fun hx => ParseOutcome.noConfusion hx)
    · rw [if_neg herr] at h
      exact absurd h (fun hx => ParseOutcome.noConfusion hx)
  · exact absurd h (fun hx => ParseOutcome.noConfusion hx)

/-- Claim C3 counterexample: the matrix input is accepted with no diagnostics,
but its rendering `matrix([[1,2],[3,4]])` does not re-parse to an AST at all —
`parsePrimary` has no call syntax for a bare identifier, so the second parse
stops after the identifier `matrix` and fails on the trailing tokens. -/
theorem claim3_counterexample :
    parseString "\x7b1,2;3,4\x7d" = .ast (some (AST.matrixExpression
      (.rcons (.cons (.numberLiteral "1") (.cons (.numberLiteral "2") .nil))
        (.rcons (.cons (.numberLiteral "3") (.cons (.numberLiteral "4") .nil)) .rnil)))) ∧
    astToString (AST.matrixExpression
      (.rcons (.cons (.numberLiteral "1") (.cons (.numberLiteral "2") .nil))
        (.rcons (.cons (.numberLiteral "3") (.cons (.numberLiteral "4") .nil)) .rnil))) =
      "matrix([[1,2],[3,4]])" ∧
    isAstOutcome (parseString "matrix([[1,2],[3,4]])") = false :=
  ⟨rfl, rfl, rfl⟩

/-- Claim C3 (corrected): on the plain fragment the round trip is exact —
whenever `parse(tokenize(s))` succeeds with a tree built only from number
literals, identifiers other than π/τ/φ, unary signs, binary and comparison
operators and parenthesized expressions, rendering it with `astToString` and
running the pipeline again succeeds and returns the very same tree, with no
difference even in `ParenthesizedExpression` wrappers. -/
theorem claim3_theorem (s : String) (t : AST)
    (h : parseString s = .ast (some t)) (hp : plainAST t = true) :
    parseString (astToString t) = .ast (some t) := by
  simp only [parseString] at h
  have hwf : tokensWF ⟨tokenize s, []⟩ := fun tok htok => tokenize_tokenWF s tok htok
  have hPE := parse_ast_state h
  have hpost := (parserInv (8 * (tokenize s).length + 16)).1 ⟨tokenize s, []⟩
  rw [hPE] at hpost
  obtain ⟨t', ht', hs', -⟩ := hpost.2.2.2 hwf rfl
  have htt : t = t' := Option.some.inj ht'
  subst htt
  simp only [parseString]
  rw [tokenize_render hp hs']
  exact parse_toks hp hs'

/-- Claim C3 witness: `1+2*3` parses to `1+(2*3)` and survives the round trip
unchanged. -/
theorem claim3_witness :
    parseString (astToString (AST.binaryExpression "+" (.numberLiteral "1")
      (.binaryExpression "*" (.numberLiteral "2") (.numberLiteral "3")))) =
      .ast (some (AST.binaryExpression "+" (.numberLiteral "1")
        (.binaryExpression "*" (.numberLiteral "2") (.numberLiteral "3")))) :=
  claim3_theorem "1+2*3" (AST.binaryExpression "+" (.numberLiteral "1")
    (.binaryExpression "*" (.numberLiteral "2") (.numberLiteral "3"))) rfl rfl
